import Mathlib

/-!
# API-Hunter: normalisation and classification pipeline, orchestrator and HTTP client

A shallow embedding of `internal/analyzer` (normalizer, inferrer, tagger, grouper), of
`internal/recon` (orchestrator) and of `internal/http` (client, adaptive rate limiter), with
the parts of `internal/models` and `internal/config` they use, followed by theorems about the
embedded functions.

Conventions of the embedding

* A Go `string` is a list of characters (`Str`).  The functions of the Go standard library
  that consult the Unicode tables (`strings.ToLower`, `strings.EqualFold`, `strings.Title`,
  `unicode.IsLetter`) are modelled on ASCII text, where the models agree with Go; a statement
  about every text is relative to them or takes them as parameters (`CaseTables`).
* A Go `map` is an association list with distinct keys, kept in insertion order; `range` over
  a map visits the entries in an order chosen by a `MapOrder`, an arbitrary permutation.
* `regexp` is embedded as a small backtracking matcher with leftmost-first semantics over the
  fragment of RE2 syntax that the patterns of the source use.
* `net/url` is a parameter (`NetURL`) of the functions that parse URLs; `goURL` is a concrete
  instance for plain URLs, used to evaluate the code on concrete inputs.
* `fasthttp` and the network behind it are a parameter (`FastHTTP`) of the HTTP client.
* A Go `int`, `int64` or `time.Duration` is an integer with wrap-around at 64 bits where a
  result can leave the range (`wrap64`).
-/

namespace APIHunter

/-- A Go string. -/
abbrev Str := List Char

/-! ## Package `strings` -/

namespace strings

/-- Go `strings.HasPrefix`. -/
def HasPrefix (s pre : Str) : Bool := pre.isPrefixOf s

/-- Go `strings.HasSuffix`. -/
def HasSuffix (s suf : Str) : Bool := suf.isSuffixOf s

/-- Go `strings.TrimSuffix`: `s` without the trailing `suf`, or `s` itself. -/
def TrimSuffix (s suf : Str) : Str :=
  if HasSuffix s suf then s.take (s.length - suf.length) else s

/-- Go `strings.ToLower` on ASCII text: the letters `A` to `Z` are lower-cased and every
other character is kept.  On other text Go consults the Unicode tables (it lower-cases
U+212A to `k` and U+0130 to `i`); a statement about every text is either relative to this
function or takes the function from `CaseTables`. -/
def ToLower (s : Str) : Str := s.map Char.toLower

/-- Go `strings.EqualFold` on ASCII text: equality of the lower-cased texts.  On other text
Go uses Unicode simple folding (U+017F folds to `s`); a statement about every text takes
the function from `CaseTables`. -/
def EqualFold (a b : Str) : Bool := decide (ToLower a = ToLower b)

/-- Go `strings.Split(s, sep)` for a one-character separator. -/
def Split (sep : Char) : Str → List Str
  | [] => [[]]
  | c :: t =>
    if c = sep then [] :: Split sep t
    else
      match Split sep t with
      | [] => [[c]]
      | h :: r => (c :: h) :: r

/-- Go `strings.Trim(s, cutset)` for a one-character cutset. -/
def Trim (s : Str) (cut : Char) : Str :=
  ((s.dropWhile (fun c => c = cut)).reverse.dropWhile (fun c => c = cut)).reverse

/-- The separator test of Go `strings.Title` (`isSeparator`), on ASCII. -/
def isSeparator (c : Char) : Bool :=
  !(c.isDigit || c.isAlpha || c = '_' || c.toNat > 127)

/-- The loop of Go `strings.Title`: `prev` is the previous character. -/
def titleFrom : Char → Str → Str
  | _, [] => []
  | prev, c :: t => (if isSeparator prev then c.toUpper else c) :: titleFrom c t

/-- Go `strings.Title` on ASCII text: the first letter of every word is upper-cased.  On
other text Go title-cases by the Unicode tables and treats Unicode spaces as separators; a
statement about every text takes the function from `CaseTables`. -/
def Title (s : Str) : Str := titleFrom ' ' s

end strings

/-! ## Package `regexp` -/

namespace regexp

/-- The fragment of RE2 syntax used by the patterns of the source. -/
inductive Re where
  /-- one character of a class (a literal is a one-element class) -/
  | chr (p : Char → Bool)
  /-- the anchor `$`: end of text -/
  | eol
  /-- the empty expression -/
  | eps
  /-- concatenation -/
  | cat (a b : Re)
  /-- alternation `a|b`, preferring `a` -/
  | alt (a b : Re)
  /-- greedy repetition `c*` of a character class -/
  | star (p : Char → Bool)
  /-- capturing group number `n` -/
  | group (n : Nat) (a : Re)

/-- Contents of the capturing groups, most recent first. -/
abbrev Caps := List (Nat × Str)

/-- A literal character. -/
def Re.char (c : Char) : Re := .chr (fun x => x = c)

/-- A literal string. -/
def Re.lit : Str → Re
  | [] => .eps
  | [c] => .char c
  | c :: t => .cat (.char c) (Re.lit t)

/-- Greedy `c+` of a character class. -/
def Re.plus (p : Char → Bool) : Re := .cat (.chr p) (.star p)

/-- Exactly `n` characters of a class, `c{n}`. -/
def Re.rep (p : Char → Bool) : Nat → Re
  | 0 => .eps
  | 1 => .chr p
  | n + 1 => .cat (.chr p) (Re.rep p n)

/-- Greedy `a?`. -/
def Re.opt (a : Re) : Re := .alt a .eps

/-- Concatenation of a list of expressions. -/
def Re.seq : List Re → Re
  | [] => .eps
  | [a] => a
  | a :: t => .cat a (Re.seq t)

/-- Alternation of a list of expressions, leftmost preferred. -/
def Re.any : List Re → Re
  | [] => .chr (fun _ => false)
  | [a] => a
  | a :: t => .alt a (Re.any t)

/-- The remainders after a greedy `c*`, longest match first. -/
def starFrom (p : Char → Bool) : Str → List Str
  | [] => [[]]
  | c :: t => if p c then starFrom p t ++ [c :: t] else [c :: t]

/-- All ways of matching `re` at the start of `s`, in the order a backtracking matcher tries
them: each result is the unmatched remainder with the groups captured so far. -/
def run : Re → Str → Caps → List (Str × Caps)
  | .chr p, s, caps =>
    match s with
    | c :: t => if p c then [(t, caps)] else []
    | [] => []
  | .eol, s, caps =>
    match s with
    | [] => [([], caps)]
    | _ :: _ => []
  | .eps, s, caps => [(s, caps)]
  | .cat a b, s, caps => (run a s caps).flatMap (fun r => run b r.1 r.2)
  | .alt a b, s, caps => run a s caps ++ run b s caps
  | .star p, s, caps => (starFrom p s).map (fun r => (r, caps))
  | .group n a, s, caps =>
    (run a s caps).map (fun r => (r.1, (n, s.take (s.length - r.1.length)) :: r.2))

/-- The preferred match of `re` at the start of `s`, with group 0 the whole match. -/
def matchAt (re : Re) (s : Str) : Option (Str × Caps) := (run (.group 0 re) s []).head?

/-- Go `(*Regexp).MatchString`: does `re` match somewhere in `s`? -/
def MatchString (re : Re) (s : Str) : Bool := s.tails.any (fun t => (matchAt re t).isSome)

/-- The characters allowed in a group name of a replacement template (ASCII part of
`unicode.IsLetter`, `unicode.IsDigit` and the underscore). -/
def isWord (c : Char) : Bool := c.isAlpha || c.isDigit || c = '_'

/-- The number denoted by a group name, as parsed by Go `regexp.extract`: `none` stands for
the Go value -1 (the name is not a group number). -/
def parseNum (name : Str) : Option Nat :=
  if name.head? = some '0' ∧ 1 < name.length then none
  else
    name.foldl
      (fun acc c =>
        match acc with
        | none => none
        | some n => if c.isDigit ∧ n < 100000000 then some (n * 10 + (c.toNat - 48)) else none)
      (some 0)

/-- Go `regexp.extract`: the group reference at the start of `str` (what follows a `$`):
its name, its number and the rest of the template; `none` when malformed. -/
def extract (str : Str) : Option (Str × Option Nat × Str) :=
  match str with
  | [] => none
  | c0 :: t0 =>
    let brace : Bool := c0 = '{'
    let str1 := if brace then t0 else str
    let name := str1.takeWhile isWord
    let after := str1.dropWhile isWord
    if name = [] then none
    else if brace then
      match after with
      | '}' :: rest => some (name, parseNum name, rest)
      | _ => none
    else some (name, parseNum name, after)

/-- Go `(*Regexp).expand` for a pattern without named groups: `$$` is a dollar sign, `$n` and
`${n}` are the text of group `n` (empty if it did not take part), a named reference is empty,
a malformed reference leaves the dollar sign. -/
def expandAux : Nat → Str → Caps → Str
  | 0, template, _ => template
  | _ + 1, [], _ => []
  | fuel + 1, c :: t, caps =>
    if c ≠ '$' then c :: expandAux fuel t caps
    else
      match t with
      | '$' :: t1 => '$' :: expandAux fuel t1 caps
      | _ =>
        match extract t with
        | none => '$' :: expandAux fuel t caps
        | some (_, num, rest) =>
          (match num with
            | some n => (caps.lookup n).getD []
            | none => []) ++ expandAux fuel rest caps

/-- Template expansion; the fuel covers every character of the template. -/
def expand (template : Str) (caps : Caps) : Str := expandAux (template.length + 1) template caps

/-- The loop of Go `(*Regexp).replaceAll`, for a pattern that never matches the empty string
(every pattern the source passes to `ReplaceAllString` starts with a literal `/`): at each
position the preferred match is replaced by the expanded template and the scan goes on after
it; a character where no match starts is copied. -/
def replaceAux (re : Re) (repl : Str) : Nat → Str → Str
  | 0, s => s
  | _ + 1, [] => []
  | fuel + 1, c :: t =>
    match matchAt re (c :: t) with
    | some (rem, caps) =>
      if rem.length < (c :: t).length then expand repl caps ++ replaceAux re repl fuel rem
      else c :: replaceAux re repl fuel t
    | none => c :: replaceAux re repl fuel t

/-- Go `(*Regexp).ReplaceAllString`. -/
def ReplaceAllString (re : Re) (src repl : Str) : Str := replaceAux re repl (src.length + 1) src

end regexp

/-! ## Go maps -/

/-- The order in which `range` visits the entries of a map: any permutation. -/
structure MapOrder where
  iter : {α : Type} → List α → List α
  perm : ∀ {α : Type} (l : List α), (iter l).Perm l

/-- Entries are visited in insertion order. -/
def MapOrder.insertion : MapOrder := { iter := fun l => l, perm := fun l => List.Perm.refl l }

/-- Entries are visited in reverse insertion order. -/
def MapOrder.reversed : MapOrder :=
  { iter := fun l => l.reverse, perm := fun l => List.reverse_perm l }

/-- Go `m[k]` with the comma-ok form: the value stored under `k`, if any. -/
def mapGet {V : Type} (m : List (Str × V)) (k : Str) : Option V :=
  match m with
  | [] => none
  | (k1, v) :: rest => if k1 = k then some v else mapGet rest k

/-- Go `m[k] = v`: the value under `k` is replaced, or a new entry is added. -/
def mapSet {V : Type} (m : List (Str × V)) (k : Str) (v : V) : List (Str × V) :=
  match m with
  | [] => [(k, v)]
  | (k1, v1) :: rest => if k1 = k then (k1, v) :: rest else (k1, v1) :: mapSet rest k v

/-! ## Package `net/url` -/

/-- The fields of Go `url.URL` that the analyzer reads. -/
structure URL where
  Scheme : Str
  Host : Str
  Path : Str
  RawQuery : Str
  deriving DecidableEq

/-- The two entry points of `net/url` that the analyzer calls.  `Parse s = none` stands for a
non-nil error.  `ParseQuery q` lists the key/value pairs that Go `url.ParseQuery` decodes from
the raw query `q`, in the order of the query (the pairs it rejects are left out, as
`URL.Query` does). -/
structure NetURL where
  Parse : Str → Option URL
  ParseQuery : Str → List (Str × Str)

/-- Go `url.Values` (`map[string][]string`): distinct keys in insertion order. -/
abbrev Values := List (Str × List Str)

/-- The statement `m[key] = append(m[key], value)` of `url.ParseQuery`; a missing key reads
as the nil slice. -/
def valuesAdd (m : Values) (k v : Str) : Values := mapSet m k ((mapGet m k).getD [] ++ [v])

/-- Go `(*URL).Query`: the query string parsed into a `Values` map. -/
def NetURL.Query (lib : NetURL) (u : URL) : Values :=
  (lib.ParseQuery u.RawQuery).foldl (fun m kv => valuesAdd m kv.1 kv.2) []

/-- Go `strings.Cut(s, sep)` for a one-character separator: the text before the first `sep`
and, when `sep` occurs, the text after it. -/
def cut (sep : Char) : Str → Str × Option Str
  | [] => ([], none)
  | c :: t => if c = sep then ([], some t) else ((cut sep t).1.cons c, (cut sep t).2)

/-- Go `url.getScheme`: the scheme and the rest of the URL; `none` is the error
"missing protocol scheme". -/
def getScheme (rawURL : Str) : Option (Str × Str) :=
  let letters := rawURL.takeWhile
    (fun c => c.isAlpha || (c.isDigit || c = '+' || c = '-' || c = '.'))
  match rawURL.drop letters.length with
  | ':' :: rest =>
    if letters = [] then none
    else if (letters.head?.map Char.isAlpha) = some true then some (letters, rest)
    else some ([], rawURL)
  | _ => some ([], rawURL)

/-- A model of Go `url.Parse` for plain URLs and references: the fragment is cut at `#`, then
scheme, query (at the first `?`), authority (after `//`, up to the next `/`) and path are
split as `url.parse` does.  Percent-escapes are not decoded and the checks that reject
control characters, malformed hosts and ports are left out, so the model agrees with Go on
inputs without `%`, `@`, `[`, control characters and characters invalid in a host. -/
def goParse (rawURL : Str) : Option URL :=
  let u := (cut '#' rawURL).1
  match getScheme u with
  | none => none
  | some (scheme0, rest0) =>
    let scheme := strings.ToLower scheme0
    let (rest, rawQuery) : Str × Str :=
      if strings.HasSuffix rest0 ['?'] && rest0.count '?' = 1 then (rest0.dropLast, [])
      else ((cut '?' rest0).1, ((cut '?' rest0).2).getD [])
    if !strings.HasPrefix rest ['/'] then
      if scheme ≠ [] then some { Scheme := scheme, Host := [], Path := [], RawQuery := rawQuery }
      else if ':' ∈ (cut '/' rest).1 then none
      else some { Scheme := scheme, Host := [], Path := rest, RawQuery := rawQuery }
    else if (scheme ≠ [] || !strings.HasPrefix rest ['/', '/', '/'])
        && strings.HasPrefix rest ['/', '/'] then
      let authority := (rest.drop 2).takeWhile (fun c => c ≠ '/')
      let path := (rest.drop 2).dropWhile (fun c => c ≠ '/')
      some { Scheme := scheme, Host := authority, Path := path, RawQuery := rawQuery }
    else some { Scheme := scheme, Host := [], Path := rest, RawQuery := rawQuery }

/-- A model of the pairs decoded by Go `url.ParseQuery`: the query is split at `&`, a piece
with a `;` or an empty piece is skipped, and each piece is cut at its first `=`; `+` stands
for a space.  Percent-escapes are not decoded. -/
def goParseQuery (query : Str) : List (Str × Str) :=
  ((strings.Split '&' query).filter (fun piece => piece ≠ [] && !(piece.contains ';'))).map
    (fun piece =>
      let unplus : Str → Str := List.map (fun c => if c = '+' then ' ' else c)
      (unplus (cut '=' piece).1, unplus (((cut '=' piece).2).getD [])))

/-- The concrete `net/url` used to evaluate the code on plain URLs. -/
def goURL : NetURL := { Parse := goParse, ParseQuery := goParseQuery }

/-! ## Package `models` -/

/-- Go `models.RiskLevel`, a string type. -/
abbrev RiskLevel := Str

def RiskCritical : RiskLevel := "critical".toList
def RiskHigh : RiskLevel := "high".toList
def RiskMedium : RiskLevel := "medium".toList
def RiskLow : RiskLevel := "low".toList

/-- Go `models.Parameter` (`Type_` is the field `Type`). -/
structure Parameter where
  Name : Str
  Type_ : Str
  In : Str
  Required : Bool
  Example : Str
  deriving DecidableEq

/-- Go `models.Endpoint`; `DiscoveredAt` is a timestamp. -/
structure Endpoint where
  URL : Str
  Path : Str
  NormalizedPath : Str
  Methods : List Str
  Parameters : List Parameter
  QueryParams : List Parameter
  Headers : List (Str × Str)
  Source : Str
  Risk : RiskLevel
  Tags : List Str
  DiscoveredAt : Nat
  deriving DecidableEq

/-- A bare endpoint: only the URL is set, every other field has its zero value. -/
def Endpoint.bare (url : Str) : Endpoint :=
  { URL := url, Path := [], NormalizedPath := [], Methods := [], Parameters := [],
    QueryParams := [], Headers := [], Source := [], Risk := [], Tags := [], DiscoveredAt := 0 }

/-! ## `internal/analyzer/normalizer.go` -/

open regexp in
/-- The tail `(/|$)` shared by the detectors, as capturing group `n`. -/
def segEnd (n : Nat) : Re := .group n (.alt (.char '/') .eol)

/-- The class `[a-f0-9]`. -/
def isLowerHex (c : Char) : Bool := c.isDigit || ('a' ≤ c && c ≤ 'f')

/-- An entry of `paramPatterns`. -/
structure ParamPattern where
  pattern : regexp.Re
  name : Str
  ptype : Str

open regexp in
/-- The integer detector `/\d+(/|$)`. -/
def ppInteger : ParamPattern :=
  { pattern := .seq [.char '/', .plus Char.isDigit, segEnd 1],
    name := "id".toList, ptype := "integer".toList }

open regexp in
/-- The UUID detector
`/[a-f0-9]{8}-[a-f0-9]{4}-[a-f0-9]{4}-[a-f0-9]{4}-[a-f0-9]{12}(/|$)`. -/
def ppUUID : ParamPattern :=
  { pattern := .seq [.char '/', .rep isLowerHex 8, .char '-', .rep isLowerHex 4, .char '-',
      .rep isLowerHex 4, .char '-', .rep isLowerHex 4, .char '-', .rep isLowerHex 12, segEnd 1],
    name := "uuid".toList, ptype := "string".toList }

open regexp in
/-- The object-id detector `/[a-f0-9]{24}(/|$)`. -/
def ppObjectId : ParamPattern :=
  { pattern := .seq [.char '/', .rep isLowerHex 24, segEnd 1],
    name := "objectId".toList, ptype := "string".toList }

open regexp in
/-- The date detector `/\d{4}-\d{2}-\d{2}(/|$)`. -/
def ppDate : ParamPattern :=
  { pattern := .seq [.char '/', .rep Char.isDigit 4, .char '-', .rep Char.isDigit 2, .char '-',
      .rep Char.isDigit 2, segEnd 1],
    name := "date".toList, ptype := "string".toList }

open regexp in
/-- The prefixed-id detector `/(usr|user|org|team|proj)_[a-zA-Z0-9]+(/|$)`. -/
def ppPrefixed : ParamPattern :=
  { pattern := .seq [.char '/',
      .group 1 (.any [.lit "usr".toList, .lit "user".toList, .lit "org".toList,
        .lit "team".toList, .lit "proj".toList]),
      .char '_', .plus Char.isAlphanum, segEnd 2],
    name := "prefixedId".toList, ptype := "string".toList }

/-- The detector catalogue `paramPatterns`, in source order. -/
def paramPatterns : List ParamPattern := [ppInteger, ppUUID, ppObjectId, ppDate, ppPrefixed]

/-- The inner loop of `normalizePath`: the first part, at an index `i > 0`, that the detector
matches between two slashes names the parameter after the part before it; without such a
part the name stays `paramName`. -/
def inferParamName (re : regexp.Re) (parts : List Str) (paramName : Str) : Str :=
  match (List.range parts.length).find?
      (fun i => regexp.MatchString re ('/' :: (parts.getD i [] ++ ['/'])) && decide (0 < i)) with
  | some i => strings.TrimSuffix (parts.getD (i - 1) []) "s".toList ++ "Id".toList
  | none => paramName

/-- The body of the loop of `normalizePath` over `paramPatterns`: the state is the pair
`(normalizedPath, params)`. -/
def normalizeWith (path : Str) (st : Str × List Parameter) (pp : ParamPattern) :
    Str × List Parameter :=
  if regexp.MatchString pp.pattern path then
    let paramName := inferParamName pp.pattern (strings.Split '/' path) pp.name
    let replaced :=
      regexp.ReplaceAllString pp.pattern st.1 ("/\x7b".toList ++ paramName ++ "\x7d/".toList)
    (strings.TrimSuffix replaced "/".toList,
      st.2 ++ [{ Name := paramName, Type_ := pp.ptype, In := "path".toList, Required := true,
                 Example := [] }])
  else st

/-- Go `Normalizer.normalizePath`. -/
def normalizePath (path : Str) : Str × List Parameter :=
  paramPatterns.foldl (normalizeWith path) (path, [])

/-- Go `Normalizer.extractQueryParams`: one parameter per key of `u.Query()`, in the order in
which `range` visits the map. -/
def extractQueryParams (lib : NetURL) (ord : MapOrder) (u : URL) : List Parameter :=
  (ord.iter (lib.Query u)).map fun kv =>
    { Name := kv.1, Type_ := "string".toList, In := "query".toList, Required := false,
      Example := if 0 < kv.2.length then kv.2.headD [] else [] }

/-- The second loop of `mergeParams`: the state is `(seen, existing)`. -/
def mergeStep (st : List Str × List Parameter) (p : Parameter) : List Str × List Parameter :=
  if p.Name ∈ st.1 then st else (p.Name :: st.1, st.2 ++ [p])

/-- Go `Normalizer.mergeParams`. -/
def mergeParams (existing new : List Parameter) : List Parameter :=
  (new.foldl mergeStep (existing.map (fun p => p.Name), existing)).2

/-- The body of the loop of `Normalize`: `normalized` is the map from key to endpoint. -/
def normalizeStep (lib : NetURL) (ord : MapOrder) (normalized : List (Str × Endpoint))
    (ep : Endpoint) : List (Str × Endpoint) :=
  match lib.Parse ep.URL with
  | none => normalized
  | some parsed =>
    let path := parsed.Path
    let np := normalizePath path
    let key := parsed.Host ++ np.1
    match mapGet normalized key with
    | some existing =>
      mapSet normalized key
        { existing with
          QueryParams := mergeParams existing.QueryParams (extractQueryParams lib ord parsed) }
    | none =>
      mapSet normalized key
        { URL := ep.URL, Path := path, NormalizedPath := np.1, Parameters := np.2,
          QueryParams := extractQueryParams lib ord parsed, Source := ep.Source,
          DiscoveredAt := ep.DiscoveredAt,
          Methods := [], Headers := [], Risk := [], Tags := [] }

/-- The map `normalized` after the loop of `Normalize`. -/
def normalizedMap (lib : NetURL) (ord : MapOrder) (endpoints : List Endpoint) :
    List (Str × Endpoint) :=
  endpoints.foldl (normalizeStep lib ord) []

/-- Go `Normalizer.Normalize`. -/
def Normalize (lib : NetURL) (ord : MapOrder) (endpoints : List Endpoint) : List Endpoint :=
  (ord.iter (normalizedMap lib ord endpoints)).map Prod.snd

/-! ## `internal/analyzer/inferrer.go` -/

/-- An entry of `methodPatterns`. -/
structure MethodPattern where
  pattern : regexp.Re
  methods : List Str

/-- An alternation of literal strings. -/
def lits (alts : List String) : regexp.Re := .any (alts.map (fun a => .lit a.toList))

/-- The keyword catalogue `methodPatterns`, in source order. -/
def methodPatterns : List MethodPattern :=
  [ { pattern := lits ["/login", "/signin", "/authenticate"], methods := ["POST".toList] },
    { pattern := lits ["/logout", "/signout"], methods := ["POST".toList] },
    { pattern := lits ["/register", "/signup"], methods := ["POST".toList] },
    { pattern := lits ["/upload"], methods := ["POST".toList] },
    { pattern := lits ["/download"], methods := ["GET".toList] },
    { pattern := lits ["/export"], methods := ["GET".toList, "POST".toList] },
    { pattern := lits ["/import"], methods := ["POST".toList] },
    { pattern := lits ["/search"], methods := ["GET".toList, "POST".toList] },
    { pattern := lits ["/delete"], methods := ["POST".toList, "DELETE".toList] },
    { pattern := lits ["/create"], methods := ["POST".toList] },
    { pattern := lits ["/update"], methods := ["POST".toList, "PUT".toList, "PATCH".toList] },
    { pattern := lits ["/activate", "/enable"], methods := ["POST".toList] },
    { pattern := lits ["/deactivate", "/disable"], methods := ["POST".toList] },
    { pattern := lits ["/verify", "/confirm"], methods := ["POST".toList, "GET".toList] },
    { pattern := lits ["/reset"], methods := ["POST".toList] },
    { pattern := lits ["/callback", "/webhook"], methods := ["POST".toList] } ]

/-- Go `Inferrer.inferMethodsForPath`. -/
def inferMethodsForPath (path : Str) : List Str :=
  let lowerPath := strings.ToLower path
  match methodPatterns.find? (fun mp => regexp.MatchString mp.pattern lowerPath) with
  | some mp => mp.methods
  | none =>
    if strings.HasSuffix path "Id\x7d".toList || strings.HasSuffix path "id\x7d".toList then
      ["GET".toList, "PUT".toList, "PATCH".toList, "DELETE".toList]
    else ["GET".toList, "POST".toList]

/-- Go `Inferrer.InferMethods`. -/
def InferMethods (endpoints : List Endpoint) : List Endpoint :=
  endpoints.map fun ep =>
    if ep.Methods.length = 0 then { ep with Methods := inferMethodsForPath ep.NormalizedPath }
    else ep

/-! ## `internal/analyzer/tagger.go` -/

/-- An entry of `riskPatterns`. -/
structure RiskPattern where
  pattern : regexp.Re
  risk : RiskLevel
  tags : List Str

open regexp in
/-- The rule catalogue `riskPatterns`, in source order. -/
def riskPatterns : List RiskPattern :=
  [ -- Critical
    { pattern := lits ["/auth", "/login", "/signin", "/oauth"], risk := RiskCritical,
      tags := ["auth".toList] },
    { pattern := lits ["/admin"], risk := RiskCritical, tags := ["admin".toList] },
    { pattern := lits ["/upload", "/import"], risk := RiskCritical,
      tags := ["file-upload".toList] },
    { pattern := lits ["/password", "/passwd", "/pwd"], risk := RiskCritical,
      tags := ["password".toList] },
    { pattern := lits ["/token", "/jwt", "/refresh"], risk := RiskCritical,
      tags := ["token".toList] },
    { pattern := lits ["/payment", "/checkout", "/billing"], risk := RiskCritical,
      tags := ["payment".toList] },
    -- /\.env|/config\.|/debug
    { pattern := lits ["/.env", "/config.", "/debug"], risk := RiskCritical,
      tags := ["sensitive-file".toList] },
    { pattern := lits ["/graphql"], risk := RiskCritical, tags := ["graphql".toList] },
    -- High
    { pattern := lits ["/user", "/profile", "/account"], risk := RiskHigh,
      tags := ["pii".toList] },
    { pattern := lits ["/export", "/download"], risk := RiskHigh,
      tags := ["data-export".toList] },
    -- /api[_-]?key|/secret|/credential
    { pattern := .any [.seq [.lit "/api".toList, .opt (.chr (fun c => c = '_' || c = '-')),
          .lit "key".toList], .lit "/secret".toList, .lit "/credential".toList],
      risk := RiskHigh, tags := ["secrets".toList] },
    { pattern := lits ["/config", "/setting"], risk := RiskHigh, tags := ["config".toList] },
    { pattern := lits ["/internal", "/private"], risk := RiskHigh,
      tags := ["internal".toList] },
    -- Medium
    { pattern := lits ["/search", "/query", "/filter"], risk := RiskMedium,
      tags := ["injection-point".toList] },
    { pattern := lits ["/list", "/all"], risk := RiskMedium, tags := ["enumeration".toList] },
    -- \?.*=
    { pattern := .seq [.char '?', .star (fun c => c ≠ '\n'), .char '='], risk := RiskMedium,
      tags := ["params".toList] } ]

/-- Go `riskPriority`. -/
def riskPriority (r : RiskLevel) : Int :=
  if r = RiskCritical then 4
  else if r = RiskHigh then 3
  else if r = RiskMedium then 2
  else if r = RiskLow then 1
  else 0

/-- The body of the loop of `uniqueTags`: the state is `(seen, result)`. -/
def uniqueStep (st : List Str × List Str) (t : Str) : List Str × List Str :=
  if t ∈ st.1 then st else (t :: st.1, st.2 ++ [t])

/-- Go `uniqueTags`. -/
def uniqueTags (tags : List Str) : List Str := (tags.foldl uniqueStep ([], [])).2

/-- The body of the loop of `tagEndpoint` over a rule catalogue: the state is
`(highestRisk, allTags)`. -/
def tagStep (pathToCheck : Str) (st : RiskLevel × List Str) (rp : RiskPattern) :
    RiskLevel × List Str :=
  if regexp.MatchString rp.pattern pathToCheck then
    (if riskPriority rp.risk > riskPriority st.1 then rp.risk else st.1, st.2 ++ rp.tags)
  else st

/-- The loop of `tagEndpoint` over the rules `rules`, from `highestRisk = RiskLow` and no
tags. -/
def tagScan (rules : List RiskPattern) (pathToCheck : Str) : RiskLevel × List Str :=
  rules.foldl (tagStep pathToCheck) (RiskLow, [])

/-- Go `Tagger.tagEndpoint`, returning the updated endpoint. -/
def tagEndpoint (ep : Endpoint) : Endpoint :=
  let pathToCheck := strings.ToLower (ep.NormalizedPath ++ ep.URL)
  let st := tagScan riskPatterns pathToCheck
  { ep with Risk := st.1, Tags := uniqueTags st.2 }

/-- Go `Tagger.TagEndpoints`. -/
def TagEndpoints (endpoints : List Endpoint) : List Endpoint := endpoints.map tagEndpoint

/-! ## `internal/analyzer/grouper.go` -/

/-- Go `analyzer.EndpointGroup`. -/
structure EndpointGroup where
  Name : Str
  Endpoints : List Endpoint
  deriving DecidableEq

/-- The list `skipPrefixes` of `extractGroupName`. -/
def skipPrefixes : List Str :=
  ["api".toList, "v1".toList, "v2".toList, "v3".toList, "rest".toList]

/-- The inner loop of `extractGroupName`: the flag `isPrefix` computed for `part`. -/
def isPrefixPart (part : Str) : Bool :=
  skipPrefixes.any fun pre =>
    strings.EqualFold part pre || strings.HasPrefix (strings.ToLower part) "v".toList

/-- Go `Grouper.extractGroupName`. -/
def extractGroupName (path : Str) : Str :=
  let parts := strings.Split '/' (strings.Trim path '/')
  let startIdx :=
    match (List.range parts.length).find? (fun i => !isPrefixPart (parts.getD i [])) with
    | some i => i
    | none => 0
  if startIdx < parts.length ∧ !strings.HasPrefix (parts.getD startIdx []) "\x7b".toList then
    strings.Title (strings.TrimSuffix (parts.getD startIdx []) "s".toList) ++ "s".toList
  else "Other".toList

/-- The functions of package `strings` that consult the Unicode tables, `strings.ToLower`,
`strings.EqualFold` and `strings.Title`, as parameters: a statement about every text holds
of Go when it holds for every choice of them. -/
structure CaseTables where
  ToLower : Str → Str
  EqualFold : Str → Str → Bool
  Title : Str → Str

/-- The ASCII models `strings.ToLower`, `strings.EqualFold` and `strings.Title` of this
file. -/
def asciiTables : CaseTables :=
  { ToLower := strings.ToLower, EqualFold := strings.EqualFold, Title := strings.Title }

/-- The inner loop of `extractGroupName`, with the functions of `strings` that consult the
Unicode tables taken from `U`. -/
def isPrefixPartWith (U : CaseTables) (part : Str) : Bool :=
  skipPrefixes.any fun pre =>
    U.EqualFold part pre || strings.HasPrefix (U.ToLower part) "v".toList

/-- Go `Grouper.extractGroupName`, with the functions of `strings` that consult the Unicode
tables taken from `U`; `extractGroupName` is the case `asciiTables`. -/
def extractGroupNameWith (U : CaseTables) (path : Str) : Str :=
  let parts := strings.Split '/' (strings.Trim path '/')
  let startIdx :=
    match (List.range parts.length).find?
        (fun i => !isPrefixPartWith U (parts.getD i [])) with
    | some i => i
    | none => 0
  if startIdx < parts.length ∧ !strings.HasPrefix (parts.getD startIdx []) "\x7b".toList then
    U.Title (strings.TrimSuffix (parts.getD startIdx []) "s".toList) ++ "s".toList
  else "Other".toList

/-- Insertion of `x` into a list sorted by `less`, after the elements that are not greater. -/
def insertSorted {α : Type} (less : α → α → Bool) (x : α) : List α → List α
  | [] => [x]
  | y :: t => if less x y then x :: y :: t else y :: insertSorted less x t

/-- Go `sort.Slice`, as the insertion sort it runs on short slices: each element in turn is
moved left past the elements greater than it.  (On longer slices Go switches to a
pattern-defeating quicksort, which orders the elements that compare equal differently.) -/
def sortSlice {α : Type} (less : α → α → Bool) (l : List α) : List α :=
  l.foldl (fun acc x => insertSorted less x acc) []

/-- The statement `groups[groupName] = append(groups[groupName], ep)`. -/
def groupAdd (groups : List (Str × List Endpoint)) (ep : Endpoint) :
    List (Str × List Endpoint) :=
  let groupName := extractGroupName ep.NormalizedPath
  mapSet groups groupName ((mapGet groups groupName).getD [] ++ [ep])

/-- Go `Grouper.GroupEndpoints`. -/
def GroupEndpoints (ord : MapOrder) (endpoints : List Endpoint) : List EndpointGroup :=
  let groups := endpoints.foldl groupAdd []
  let result : List EndpointGroup := (ord.iter groups).map fun g =>
    { Name := g.1,
      Endpoints := sortSlice (fun a b => decide (a.NormalizedPath < b.NormalizedPath)) g.2 }
  sortSlice (fun a b => decide (a.Name < b.Name)) result

/-- The analysis steps of `Scanner.Run` (`internal/scanner/scanner.go`) after discovery: `Normalize`, `InferMethods`,
`TagEndpoints`, `GroupEndpoints`. -/
def pipeline (lib : NetURL) (ord : MapOrder) (endpoints : List Endpoint) : List EndpointGroup :=
  GroupEndpoints ord (TagEndpoints (InferMethods (Normalize lib ord endpoints)))

/-! ## `internal/config/config.go` -/

/-- Go `config.ModulesConfig`. -/
structure ModulesConfig where
  Wayback : Bool
  CommonCrawl : Bool
  OTX : Bool
  URLScan : Bool
  Crawler : Bool
  JSParser : Bool
  Sitemap : Bool
  PassiveOnly : Bool
  ActiveOnly : Bool
  deriving DecidableEq

/-- The fields of Go `config.Config` that the orchestrator reads. -/
structure Config where
  Target : Str
  Modules : ModulesConfig
  CrawlDepth : Int
  deriving DecidableEq

/-! ## `internal/recon/recon.go` -/

/-- The implementations of the interface `recon.Module` that `registerModules` creates; the
crawler carries its maximal depth. -/
inductive Module where
  | wayback
  | commoncrawl
  | sitemap
  | crawler (maxDepth : Int)
  | jsparser
  deriving DecidableEq

/-- The method `Name` of each module. -/
def Module.Name : Module → Str
  | .wayback => "wayback".toList
  | .commoncrawl => "commoncrawl".toList
  | .sitemap => "sitemap".toList
  | .crawler _ => "crawler".toList
  | .jsparser => "jsparser".toList

/-- What one call `m.Run(ctx, target)` gives back inside `Orchestrator.Run`: the URLs, the
error (`none` for nil, else its message `err.Error()`) and the time it took. -/
structure ModuleOutcome where
  urls : List Str
  err : Option Str
  duration : Nat

/-- Go `models.ModuleStat`. -/
structure ModuleStat where
  Name : Str
  URLs : Nat
  Duration : Nat
  Error : Str
  deriving DecidableEq

/-- Go `models.ScanResult` (without the statistics, which `Run` leaves at zero). -/
structure ScanResult where
  Target : Str
  StartTime : Nat
  EndTime : Nat
  Endpoints : List Endpoint
  JSFiles : List Str
  ModuleStats : List (Str × ModuleStat)
  deriving DecidableEq

/-- Go `recon.Orchestrator` (the HTTP client is left out). -/
structure Orchestrator where
  config : Config
  modules : List Module

/-- Go `Orchestrator.registerModules`: the modules appended to `o.modules`, in order. -/
def registerModules (cfg : Config) : List Module :=
  (if !cfg.Modules.ActiveOnly then
      (if cfg.Modules.Wayback then [Module.wayback] else []) ++
      (if cfg.Modules.CommonCrawl then [Module.commoncrawl] else [])
    else []) ++
  (if !cfg.Modules.PassiveOnly then
      (if cfg.Modules.Sitemap then [Module.sitemap] else []) ++
      (if cfg.Modules.Crawler then [Module.crawler cfg.CrawlDepth] else []) ++
      (if cfg.Modules.JSParser then [Module.jsparser] else [])
    else [])

/-- Go `recon.NewOrchestrator`. -/
def NewOrchestrator (cfg : Config) : Orchestrator :=
  { config := cfg, modules := registerModules cfg }

/-- What the world supplies to one call of `Orchestrator.Run`: the outcome of each module on
the target, the order in which the goroutines of the modules take the lock `mu` (any
permutation of the modules), and the two readings of the clock. -/
structure RunEnv where
  exec : Module → Str → ModuleOutcome
  sched : MapOrder
  startTime : Nat
  endTime : Nat

/-- The section of a goroutine of `Run` that runs under the lock: the statistics of the
module are stored under its name and its URLs are appended to `allURLs`.  The state is
`(result.ModuleStats, allURLs)`. -/
def collectStep (env : RunEnv) (target : Str) (st : List (Str × ModuleStat) × List Str)
    (m : Module) : List (Str × ModuleStat) × List Str :=
  let out := env.exec m target
  let stat : ModuleStat :=
    { Name := m.Name, Duration := out.duration, URLs := out.urls.length,
      Error := match out.err with
        | some msg => msg
        | none => [] }
  (mapSet st.1 m.Name stat, st.2 ++ out.urls)

/-- The body of the deduplication loop of `Run`: the state is `(seen, result.Endpoints)`. -/
def seedStep (st : List Str × List Endpoint) (u : Str) : List Str × List Endpoint :=
  if u ∈ st.1 then st else (u :: st.1, st.2 ++ [Endpoint.bare u])

/-- The deduplication loop of `Run`: the endpoints seeded by the merged list `allURLs`. -/
def seedEndpoints (allURLs : List Str) : List Endpoint := (allURLs.foldl seedStep ([], [])).2

/-- The list `allURLs` and the statistics once every goroutine of `Run` is done. -/
def collect (o : Orchestrator) (env : RunEnv) (target : Str) :
    List (Str × ModuleStat) × List Str :=
  (env.sched.iter o.modules).foldl (collectStep env target) ([], [])

/-- Go `Orchestrator.Run`: the result and the error (`none` for nil). -/
def Orchestrator.Run (o : Orchestrator) (env : RunEnv) (target : Str) :
    ScanResult × Option Str :=
  let st := collect o env target
  ({ Target := target, StartTime := env.startTime, EndTime := env.endTime,
     ModuleStats := st.1, Endpoints := seedEndpoints st.2, JSFiles := [] }, none)

/-! ## `internal/http/adaptive.go` -/

/-- The value that a 64-bit signed integer (Go `int` on 64-bit platforms, `int64`,
`time.Duration`) holds after an operation whose exact result is `x`: two's complement
wrap-around. -/
def wrap64 (x : Int) : Int := (x + 2 ^ 63) % 2 ^ 64 - 2 ^ 63

/-- Go `time.Second`, in nanoseconds. -/
def Second : Int := 1000000000

/-- Go `x << n` on `int64` operands: a negative shift count panics at run time (`none`),
bits shifted beyond bit 63 are lost. -/
def shl64 (x n : Int) : Option Int :=
  if n < 0 then none else some (wrap64 (x * 2 ^ n.toNat))

/-- Go `AdaptiveRateLimiter` (without its mutex). -/
structure AdaptiveRateLimiter where
  baseRate : Int
  currentRate : Int
  minRate : Int
  maxBackoff : Int
  consecutive429 : Int
  deriving DecidableEq

/-- Go `NewAdaptiveRateLimiter`. -/
def NewAdaptiveRateLimiter (baseRate : Int) : AdaptiveRateLimiter :=
  { baseRate := baseRate, currentRate := baseRate, minRate := 1, maxBackoff := 30 * Second,
    consecutive429 := 0 }

/-- Go `maxInt`. -/
def maxInt (a b : Int) : Int := if a > b then a else b

/-- Go `minInt`. -/
def minInt (a b : Int) : Int := if a < b then a else b

/-- Go `AdaptiveRateLimiter.OnResponse`: the limiter after the call and the pause returned,
in nanoseconds; `none` stands for a run-time panic.  Go's `/` on integers truncates toward
zero. -/
def AdaptiveRateLimiter.OnResponse (a : AdaptiveRateLimiter) (statusCode : Int) :
    Option (AdaptiveRateLimiter × Int) :=
  if statusCode = 429 then
    let a1 := { a with consecutive429 := wrap64 (a.consecutive429 + 1) }
    match shl64 1 a1.consecutive429 with
    | none => none
    | some shifted =>
      let backoff := wrap64 (shifted * Second)
      let backoff := if backoff > a1.maxBackoff then a1.maxBackoff else backoff
      some ({ a1 with currentRate := maxInt (Int.tdiv a1.currentRate 2) a1.minRate }, backoff)
  else if statusCode = 403 then
    some ({ a with currentRate := maxInt (Int.tdiv a.currentRate 2) a.minRate }, Second)
  else if statusCode = 503 then
    some (a, 2 * Second)
  else
    let a1 := { a with consecutive429 := 0 }
    if a1.currentRate < a1.baseRate then
      some ({ a1 with currentRate := minInt (wrap64 (a1.currentRate + 1)) a1.baseRate }, 0)
    else some (a1, 0)

/-- Go `AdaptiveRateLimiter.CurrentRate`. -/
def AdaptiveRateLimiter.CurrentRate (a : AdaptiveRateLimiter) : Int := a.currentRate

/-! ## `internal/http/client.go` -/

/-- Go `strings.LastIndex`: the index of the last occurrence of `substr` in `s`, or `-1`. -/
def strings.LastIndex (s substr : Str) : Int :=
  match (List.range (s.length + 1)).reverse.find?
      (fun i => strings.HasPrefix (s.drop i) substr) with
  | some i => i
  | none => -1

/-- What `doGet` reads of a `fasthttp.Response`: the status code, the header `Location`
(empty when absent) and the body. -/
structure Response where
  StatusCode : Int
  Location : Str
  Body : Str
  deriving DecidableEq

/-- The library `fasthttp` and the network behind it, as far as `doGet` uses them.
`Do n url` is the outcome of the call `c.client.Do(req, resp)` that one call of `Get` makes
for `url` after it followed `n` redirects: an error message, or the response (a server may
answer the same URL differently each time).  One call of `Do` may send its request more than
once, since `fasthttp` sends an idempotent request such as a GET again after an attempt
that broke off; `Sent n url` is the number of HTTP requests that this call sent.  `Scheme`
and `Host` are what `URI.Parse` extracts from a URL. -/
structure FastHTTP where
  Do : Int → Str → Except Str Response
  Sent : Int → Str → Nat
  Scheme : Str → Str
  Host : Str → Str

/-- The constant `fasthttp.DefaultMaxIdemponentCallAttempts`: how often `Client.Do` sends an
idempotent request at most when the field `MaxIdemponentCallAttempts` of the client is left
at zero, as `NewClient` leaves it. -/
def DefaultMaxIdemponentCallAttempts : Nat := 5

/-- Go `Client`, without its token channel and mutex; `timeout` is the read and write
timeout of its `fasthttp.Client`. -/
structure Client where
  timeout : Int
  rateLimit : Int
  headers : List (Str × Str)
  cookies : Str
  maxRedirects : Int

/-- Go `NewClient`. -/
def NewClient (rateLimit timeout : Int) : Client :=
  { timeout := timeout, rateLimit := rateLimit, headers := [], cookies := [],
    maxRedirects := 10 }

/-- The URL that `doGet` requests next when the answer to `url` carries the non-empty
header `location`: the block "Handle relative URLs" of `doGet`. -/
def redirectTarget (lib : FastHTTP) (url location : Str) : Str :=
  if !strings.HasPrefix location "http://".toList &&
      !strings.HasPrefix location "https://".toList then
    if strings.HasPrefix location "/".toList then
      lib.Scheme url ++ "://".toList ++ lib.Host url ++ location
    else
      let lastSlash := strings.LastIndex url "/".toList
      if lastSlash > 0 then url.take (lastSlash + 1).toNat ++ location else location
  else location

/-- Go `Client.doGet`: the error message, or the body and the status code. -/
def Client.doGet (c : Client) (lib : FastHTTP) (url : Str) (redirectCount : Int) :
    Except Str (Str × Int) :=
  match lib.Do redirectCount url with
  | .error err => .error err
  | .ok resp =>
    let statusCode := resp.StatusCode
    if h : (statusCode = 301 ∨ statusCode = 302 ∨ statusCode = 303 ∨ statusCode = 307 ∨
        statusCode = 308) ∧ redirectCount < c.maxRedirects then
      if resp.Location ≠ [] then
        c.doGet lib (redirectTarget lib url resp.Location) (redirectCount + 1)
      else .ok (resp.Body, statusCode)
    else .ok (resp.Body, statusCode)
termination_by (c.maxRedirects - redirectCount).toNat
decreasing_by omega

/-- Go `Client.Get`, once the token of the rate limit is taken. -/
def Client.Get (c : Client) (lib : FastHTTP) (url : Str) : Except Str (Str × Int) :=
  c.doGet lib url 0

/-- The period of the ticker of `refillTokens`, `time.Second / time.Duration(c.rateLimit)`,
in nanoseconds (Go's integer division). -/
def Client.refillInterval (c : Client) : Int := Int.tdiv Second c.rateLimit

/-- The token channel `c.tokens` and the ticker of `refillTokens` at one instant: the time
in nanoseconds since the ticker was created, the number of tokens in the channel, the
number of ticks that the loop of `refillTokens` has received, and the number of calls
(`Get`, `PostForm`, `PostJSON`) that have received their token. -/
structure Bucket where
  now : Int
  tokens : Int
  ticks : Int
  acquired : Int
  deriving DecidableEq

/-- What can happen to the token channel: time passes, the loop of `refillTokens` receives
a tick, or a call receives a token. -/
inductive BucketEvent where
  | wait (ns : Nat)
  | tick
  | acquire
  deriving DecidableEq

/-- One event, `none` when it cannot happen.  `time.NewTicker` panics on a period that is
not positive, and a ticker never delivers its `k`-th tick earlier than `k` periods after
its creation; on a tick `refillTokens` sends a token unless the channel is full
(`select` with `default`); a call receives a token (`<-c.tokens`) only if the channel
holds one. -/
def Client.step (c : Client) (b : Bucket) : BucketEvent → Option Bucket
  | .wait ns => some { b with now := b.now + ns }
  | .tick =>
    if 0 < c.refillInterval ∧ (b.ticks + 1) * c.refillInterval ≤ b.now then
      some { b with ticks := b.ticks + 1,
                    tokens := if b.tokens < c.rateLimit then b.tokens + 1 else b.tokens }
    else none
  | .acquire =>
    if 0 < b.tokens then some { b with tokens := b.tokens - 1, acquired := b.acquired + 1 }
    else none

/-- A sequence of events from the state `b` on. -/
def Client.run (c : Client) : List BucketEvent → Bucket → Option Bucket
  | [], b => some b
  | e :: es, b =>
    match c.step b e with
    | none => none
    | some b1 => c.run es b1

/-! ## Notions used to state the properties -/

/-- A path ends in a placeholder when its last segment is written between braces. -/
def endsInPlaceholder (q : Str) : Bool :=
  match (strings.Split '/' q).getLast? with
  | some seg => strings.HasPrefix seg "\x7b".toList && strings.HasSuffix seg "\x7d".toList
  | none => false

/-- A path parameter as `normalizePath` records it. -/
def pathParam (name ptype : Str) : Parameter :=
  { Name := name, Type_ := ptype, In := "path".toList, Required := true, Example := [] }

/-- A query parameter as `extractQueryParams` records it. -/
def queryParam (name example_ : Str) : Parameter :=
  { Name := name, Type_ := "string".toList, In := "query".toList, Required := false,
    Example := example_ }

/-- The canonical key under which `Normalize` files a raw URL: its host followed by its
normalized path; `none` when the URL does not parse. -/
def keyOf (lib : NetURL) (url : Str) : Option Str :=
  (lib.Parse url).map fun u => u.Host ++ (normalizePath u.Path).1

/-- The host of a raw URL; `none` when the URL does not parse. -/
def hostOf (lib : NetURL) (url : Str) : Option Str := (lib.Parse url).map fun u => u.Host

/-- The canonical keys of the parseable URLs of a list, in list order, with repetitions. -/
def inputKeys (lib : NetURL) (l : List Endpoint) : List Str :=
  l.filterMap fun ep => keyOf lib ep.URL

/-- The first value that the query of a parsed URL gives to `name`. -/
def firstValueOf (lib : NetURL) (u : URL) (name : Str) : Option Str :=
  ((lib.ParseQuery u.RawQuery).find? (fun kv => kv.1 = name)).map (fun kv => kv.2)

/-- The first value that the query of a raw URL gives to `name`; `none` when the URL does not
parse or does not carry `name`. -/
def firstValue (lib : NetURL) (url name : Str) : Option Str :=
  match lib.Parse url with
  | some u => firstValueOf lib u name
  | none => none

/-- The first value of `name` in the earliest URL of the list, among those of key `k`, that
carries `name`. -/
def firstExample (lib : NetURL) (k name : Str) (l : List Endpoint) : Option Str :=
  l.findSome? fun ep => if keyOf lib ep.URL = some k then firstValue lib ep.URL name else none

/-- The example recorded for the parameter `name` in a parameter list. -/
def paramExample (ps : List Parameter) (name : Str) : Option Str :=
  (ps.find? (fun p => p.Name = name)).map (fun p => p.Example)

/-- What the loop of `Normalize` keeps under key `k` after the inputs `l`: the record of the
first input of that key, with the query parameters of all inputs of that key merged by
name, first example first. -/
structure EntryOK (lib : NetURL) (l : List Endpoint) (k : Str) (e : Endpoint) : Prop where
  first : ∃ ep0 u, l.find? (fun ep => keyOf lib ep.URL = some k) = some ep0 ∧
    lib.Parse ep0.URL = some u ∧ k = u.Host ++ (normalizePath u.Path).1 ∧
    e.URL = ep0.URL ∧ e.Path = u.Path ∧ e.NormalizedPath = (normalizePath u.Path).1 ∧
    e.Parameters = (normalizePath u.Path).2 ∧ e.Source = ep0.Source ∧
    e.DiscoveredAt = ep0.DiscoveredAt
  fresh : e.Methods = [] ∧ e.Headers = [] ∧ e.Risk = [] ∧ e.Tags = []
  namesNodup : (e.QueryParams.map fun p => p.Name).Nodup
  examples : ∀ name, paramExample e.QueryParams name = firstExample lib k name l

/-- What of a group does not depend on which URL represents a key: its name and, for each of
its endpoints in order, the normalized path and the methods. -/
def outline (g : EndpointGroup) : Str × List (Str × List Str) :=
  (g.Name, g.Endpoints.map fun e => (e.NormalizedPath, e.Methods))

/-- The normalized path of a raw URL; `none` when the URL does not parse. -/
def normalizedPathOf (lib : NetURL) (url : Str) : Option Str :=
  (lib.Parse url).map fun u => (normalizePath u.Path).1

/-- The canonical keys of a list do not clash: two URLs filed under the same key
`host + normalizedPath` have the same normalized path. -/
def KeysSeparate (lib : NetURL) (l : List Endpoint) : Prop :=
  ∀ a ∈ l, ∀ b ∈ l, keyOf lib a.URL = keyOf lib b.URL →
    normalizedPathOf lib a.URL = normalizedPathOf lib b.URL

instance (lib : NetURL) (l : List Endpoint) : Decidable (KeysSeparate lib l) :=
  inferInstanceAs (Decidable (∀ a ∈ l, ∀ b ∈ l, keyOf lib a.URL = keyOf lib b.URL →
    normalizedPathOf lib a.URL = normalizedPathOf lib b.URL))

/-- An expression without the anchor `$` whose character classes all exclude the slash: what
it matches lies inside one path segment. -/
def slashFree : regexp.Re → Bool
  | .chr p => !p '/'
  | .eol => false
  | .eps => true
  | .cat a b => slashFree a && slashFree b
  | .alt a b => slashFree a && slashFree b
  | .star p => !p '/'
  | .group _ a => slashFree a

/-- The body of a detector after its leading slash: slash-free pieces followed by the tail
`(/|$)`. -/
inductive SegLike : regexp.Re → Prop where
  | done (n : Nat) : SegLike (segEnd n)
  | step (a r : regexp.Re) : slashFree a = true → SegLike r → SegLike (.cat a r)

/-- What `Normalize` derives from the first URL of a key: URL, path, normalized path, path
parameters, source and time. -/
def canonicalRecord (e : Endpoint) : Str × Str × Str × List Parameter × Str × Nat :=
  (e.URL, e.Path, e.NormalizedPath, e.Parameters, e.Source, e.DiscoveredAt)

/-- The distinct elements of a list, each at the place of its first occurrence. -/
def firstOccurrences : List Str → List Str
  | [] => []
  | a :: l => a :: (firstOccurrences l).filter (fun u => u ≠ a)

/-- The limiter after the status codes `codes` were passed to `OnResponse` one after the
other; `none` when one of the calls panicked. -/
def feed : List Int → AdaptiveRateLimiter → Option AdaptiveRateLimiter
  | [], a => some a
  | code :: codes, a =>
    match a.OnResponse code with
    | none => none
    | some (a1, _) => feed codes a1

/-- The URL that one call of `Get` for `url` requests after `n` redirects, as long as every
answer so far was a redirect with a location. -/
def requested (lib : FastHTTP) (url : Str) : Nat → Str
  | 0 => url
  | n + 1 =>
    match lib.Do n (requested lib url n) with
    | .ok resp => redirectTarget lib (requested lib url n) resp.Location
    | .error _ => requested lib url n

/-- A server that answers every request with a redirect to the same absolute URL; every
call of `Do` gets its answer at the first attempt. -/
def loopServer : FastHTTP :=
  { Do := fun _ _ =>
      .ok { StatusCode := 302, Location := "https://x.com/a".toList, Body := "moved".toList },
    Sent := fun _ _ => 1,
    Scheme := fun u => ((goParse u).map fun p => p.Scheme).getD [],
    Host := fun u => ((goParse u).map fun p => p.Host).getD [] }

/-- A prefix segment of a path: a segment equal to `api`, `v1`, `v2`, `v3` or `rest` when
case is ignored (`EqualFold`), or a segment that starts with `v` or `V`. -/
def isPrefixSegment (U : CaseTables) (s : Str) : Prop :=
  (∃ pre ∈ skipPrefixes, U.EqualFold s pre = true) ∨ s.head? = some 'v' ∨ s.head? = some 'V'

/-- The loop of `replaceEachMatch`. -/
def replaceEachMatchAux (re : regexp.Re) (w : Str) : Nat → Str → Str
  | 0, s => s
  | _ + 1, [] => []
  | fuel + 1, c :: t =>
    match regexp.matchAt re (c :: t) with
    | some (rem, _) =>
      if rem.length < (c :: t).length then w ++ replaceEachMatchAux re w fuel rem
      else c :: replaceEachMatchAux re w fuel t
    | none => c :: replaceEachMatchAux re w fuel t

/-- The text `s` in which every match of `re`, found from left to right with each search
starting after the previous match, is replaced by the fixed text `w`, and every character
where no match starts is copied. -/
def replaceEachMatch (re : regexp.Re) (w s : Str) : Str :=
  replaceEachMatchAux re w (s.length + 1) s

/-- The pairs (host, normalized path) of the parseable URLs of a list, in list order, with
repetitions. -/
def inputPairs (lib : NetURL) (l : List Endpoint) : List (Str × Str) :=
  l.filterMap fun ep => (lib.Parse ep.URL).map fun u => (u.Host, (normalizePath u.Path).1)

/-- `Client.doGet` with a log of its calls of `c.client.Do`: the result of `doGet`
together with the value of `redirectCount` and the URL of each call, in order. -/
def Client.doGetLog (c : Client) (lib : FastHTTP) (url : Str) (redirectCount : Int) :
    Except Str (Str × Int) × List (Int × Str) :=
  match lib.Do redirectCount url with
  | .error err => (.error err, [(redirectCount, url)])
  | .ok resp =>
    let statusCode := resp.StatusCode
    if h : (statusCode = 301 ∨ statusCode = 302 ∨ statusCode = 303 ∨ statusCode = 307 ∨
        statusCode = 308) ∧ redirectCount < c.maxRedirects then
      if resp.Location ≠ [] then
        ((c.doGetLog lib (redirectTarget lib url resp.Location) (redirectCount + 1)).1,
          (redirectCount, url) ::
            (c.doGetLog lib (redirectTarget lib url resp.Location) (redirectCount + 1)).2)
      else (.ok (resp.Body, statusCode), [(redirectCount, url)])
    else (.ok (resp.Body, statusCode), [(redirectCount, url)])
termination_by (c.maxRedirects - redirectCount).toNat
decreasing_by all_goals omega

/-- The number of HTTP requests sent by the calls of `Do` of a log. -/
def httpRequests (lib : FastHTTP) (calls : List (Int × Str)) : Nat :=
  (calls.map fun call => lib.Sent call.1 call.2).sum

/-- The looping server behind a connection that breaks off four times before each answer:
every call of `Do` sends its request five times. -/
def retryServer : FastHTTP := { loopServer with Sent := fun _ _ => 5 }

/-! # Theorems -/

/-! ## Tagger -/

theorem riskPriority_low : riskPriority RiskLow = 1 := by decide

/-- The scan from any state: the risk kept is the starting risk or that of a matching rule,
and its priority bounds both. -/
theorem tagFold_risk (s : Str) (rules : List RiskPattern) (st : RiskLevel × List Str) :
    ((rules.foldl (tagStep s) st).1 = st.1 ∨
        ∃ rp ∈ rules, regexp.MatchString rp.pattern s = true ∧ (rules.foldl (tagStep s) st).1 = rp.risk) ∧
      riskPriority st.1 ≤ riskPriority (rules.foldl (tagStep s) st).1 ∧
      ∀ rp ∈ rules, regexp.MatchString rp.pattern s = true →
        riskPriority rp.risk ≤ riskPriority (rules.foldl (tagStep s) st).1 := by
  induction rules generalizing st with
  | nil => simp
  | cons r rest ih =>
    simp only [List.foldl_cons]
    obtain ⟨h1, h2, h3⟩ := ih (tagStep s st r)
    have hstep : riskPriority st.1 ≤ riskPriority (tagStep s st r).1 := by
      unfold tagStep; split_ifs <;> simp; omega
    have hstep2 : regexp.MatchString r.pattern s = true →
        riskPriority r.risk ≤ riskPriority (tagStep s st r).1 := by
      intro hm; unfold tagStep; rw [if_pos hm]; split_ifs <;> simp; omega
    have hstep3 : (tagStep s st r).1 = st.1 ∨
        (regexp.MatchString r.pattern s = true ∧ (tagStep s st r).1 = r.risk) := by
      unfold tagStep; split_ifs with hm hp <;> simp [hm]
    refine ⟨?_, le_trans hstep h2, ?_⟩
    · rcases h1 with h1 | ⟨rp, hrp, hm, he⟩
      · rcases hstep3 with h4 | ⟨hm, h4⟩
        · left; rw [h1, h4]
        · right; exact ⟨r, List.mem_cons_self _ _, hm, by rw [h1, h4]⟩
      · right; exact ⟨rp, List.mem_cons_of_mem _ hrp, hm, he⟩
    · intro rp hrp hm
      rcases List.mem_cons.1 hrp with rfl | hrp
      · exact le_trans (hstep2 hm) h2
      · exact h3 rp hrp hm

/-- The tags gathered by the scan are the starting tags followed by the tags of the matching
rules, in catalogue order. -/
theorem tagFold_tags (s : Str) (rules : List RiskPattern) (st : RiskLevel × List Str) :
    (rules.foldl (tagStep s) st).2 =
      st.2 ++ (rules.filter (fun rp => regexp.MatchString rp.pattern s)).flatMap (fun rp => rp.tags) := by
  induction rules generalizing st with
  | nil => simp
  | cons r rest ih =>
    simp only [List.foldl_cons]
    rw [ih]
    unfold tagStep
    by_cases hm : regexp.MatchString r.pattern s = true
    · simp [hm, List.filter_cons]
    · simp [hm, List.filter_cons]

/-- The loop of `uniqueTags` keeps `seen` equal to the set of the tags kept, keeps the result
free of duplicates, and keeps exactly the tags met. -/
theorem uniqueFold_spec (tags : List Str) (st : List Str × List Str)
    (hseen : ∀ t, t ∈ st.1 ↔ t ∈ st.2) (hnd : st.2.Nodup) :
    (tags.foldl uniqueStep st).2.Nodup ∧
      ∀ t, t ∈ (tags.foldl uniqueStep st).2 ↔ t ∈ st.2 ∨ t ∈ tags := by
  induction tags generalizing st with
  | nil => simp [hnd]
  | cons a rest ih =>
    simp only [List.foldl_cons]
    by_cases ha : a ∈ st.1
    · have hs : uniqueStep st a = st := by simp [uniqueStep, ha]
      rw [hs]
      obtain ⟨h1, h2⟩ := ih st hseen hnd
      refine ⟨h1, fun t => ?_⟩
      rw [h2 t, List.mem_cons]
      constructor
      · rintro (h | h)
        · exact Or.inl h
        · exact Or.inr (Or.inr h)
      · rintro (h | rfl | h)
        · exact Or.inl h
        · exact Or.inl ((hseen _).1 ha)
        · exact Or.inr h
    · have hs : uniqueStep st a = (a :: st.1, st.2 ++ [a]) := by simp [uniqueStep, ha]
      rw [hs]
      have ha2 : a ∉ st.2 := fun h => ha ((hseen a).2 h)
      obtain ⟨h1, h2⟩ := ih (a :: st.1, st.2 ++ [a])
        (by intro t; simp only [List.mem_cons, List.mem_append, List.mem_singleton]
            rw [hseen t]; tauto)
        (by
          simp only
          rw [List.nodup_append]
          refine ⟨hnd, List.nodup_singleton a, ?_⟩
          intro x hx hx2
          rw [List.mem_singleton] at hx2
          exact ha2 (hx2 ▸ hx))
      refine ⟨h1, fun t => ?_⟩
      rw [h2 t]
      simp only [List.mem_append, List.mem_singleton, List.mem_cons]
      tauto

/-- On a list without duplicates the loop of `uniqueTags` appends the list as it is. -/
theorem uniqueFold_nodup (tags : List Str) (st : List Str × List Str)
    (hseen : ∀ t, t ∈ st.1 ↔ t ∈ st.2) (hnd : (st.2 ++ tags).Nodup) :
    (tags.foldl uniqueStep st).2 = st.2 ++ tags := by
  induction tags generalizing st with
  | nil => simp
  | cons a rest ih =>
    simp only [List.foldl_cons]
    have ha2 : a ∉ st.2 := by
      intro h
      rw [List.nodup_append] at hnd
      exact hnd.2.2 h (List.mem_cons_self _ _)
    have ha : a ∉ st.1 := fun h => ha2 ((hseen a).1 h)
    have hs : uniqueStep st a = (a :: st.1, st.2 ++ [a]) := by simp [uniqueStep, ha]
    rw [hs, ih (a :: st.1, st.2 ++ [a])
      (by intro t; simp only [List.mem_cons, List.mem_append, List.mem_singleton]
          rw [hseen t]; tauto)
      (by simpa using hnd)]
    simp

theorem uniqueTags_nodup (tags : List Str) : (uniqueTags tags).Nodup :=
  (uniqueFold_spec tags ([], []) (by simp) List.nodup_nil).1

theorem mem_uniqueTags (tags : List Str) (t : Str) : t ∈ uniqueTags tags ↔ t ∈ tags := by
  have h := (uniqueFold_spec tags ([], []) (by simp) List.nodup_nil).2 t
  simpa using h

theorem uniqueTags_of_nodup (tags : List Str) (h : tags.Nodup) : uniqueTags tags = tags := by
  have h1 := uniqueFold_nodup tags ([], []) (by simp) (by simpa using h)
  simpa using h1

theorem filter_flatMap_sublist {α β : Type} (p : α → Bool) (f : α → List β) (l : List α) :
    List.Sublist ((l.filter p).flatMap f) (l.flatMap f) := by
  induction l with
  | nil => simp
  | cons a rest ih =>
    by_cases hp : p a = true
    · simp only [List.filter_cons, hp, if_true, List.flatMap_cons]
      exact List.Sublist.append (List.Sublist.refl _) ih
    · simp only [List.filter_cons, hp, List.flatMap_cons]
      exact List.Sublist.trans ih (List.sublist_append_right _ _)

theorem riskPatterns_tags_nodup : (riskPatterns.flatMap (fun rp => rp.tags)).Nodup := by decide

theorem riskPatterns_risk_cases : ∀ rp ∈ riskPatterns,
    rp.risk = RiskCritical ∨ rp.risk = RiskHigh ∨ rp.risk = RiskMedium := by
  intro rp h
  simp only [riskPatterns, List.mem_cons, List.mem_singleton, List.not_mem_nil, or_false] at h
  rcases h with h | h | h | h | h | h | h | h | h | h | h | h | h | h | h | h <;> subst h <;> simp

/-- Claim C7.  After `TagEndpoints` the risk of every endpoint is the highest-severity level
among the rules of the catalogue that match the lower-cased `NormalizedPath + URL`: it is
`low` when no rule matches; otherwise it is the level of a matching rule and no matching rule
has a higher priority; and it is `critical` as soon as one critical rule matches. -/
theorem C7_risk_is_highest_matching (eps : List Endpoint) (n : Nat) (ep : Endpoint)
    (hn : eps[n]? = some ep) :
    ∃ out, (TagEndpoints eps)[n]? = some out ∧
      (((riskPatterns.filter fun rp =>
            regexp.MatchString rp.pattern (strings.ToLower (ep.NormalizedPath ++ ep.URL))) = [] →
          out.Risk = RiskLow) ∧
        (∀ rp ∈ riskPatterns,
          regexp.MatchString rp.pattern (strings.ToLower (ep.NormalizedPath ++ ep.URL)) = true →
            riskPriority rp.risk ≤ riskPriority out.Risk) ∧
        ((∃ rp ∈ riskPatterns,
            regexp.MatchString rp.pattern (strings.ToLower (ep.NormalizedPath ++ ep.URL)) = true) →
          ∃ rp ∈ riskPatterns,
            regexp.MatchString rp.pattern (strings.ToLower (ep.NormalizedPath ++ ep.URL)) = true ∧
              out.Risk = rp.risk) ∧
        ((∃ rp ∈ riskPatterns, rp.risk = RiskCritical ∧
            regexp.MatchString rp.pattern (strings.ToLower (ep.NormalizedPath ++ ep.URL)) = true) →
          out.Risk = RiskCritical)) := by
  refine ⟨tagEndpoint ep, by simp [TagEndpoints, hn], ?_⟩
  obtain ⟨h1, h2, h3⟩ :=
    tagFold_risk (strings.ToLower (ep.NormalizedPath ++ ep.URL)) riskPatterns (RiskLow, [])
  have hrisk : (tagEndpoint ep).Risk =
      (tagScan riskPatterns (strings.ToLower (ep.NormalizedPath ++ ep.URL))).1 := rfl
  rw [hrisk]
  unfold tagScan
  refine ⟨?_, h3, ?_, ?_⟩
  · intro hnone
    rcases h1 with h1 | ⟨rp, hrp, hm, -⟩
    · exact h1
    · exfalso
      have : rp ∈ riskPatterns.filter fun rp =>
          regexp.MatchString rp.pattern (strings.ToLower (ep.NormalizedPath ++ ep.URL)) :=
        List.mem_filter.2 ⟨hrp, hm⟩
      rw [hnone] at this
      exact List.not_mem_nil _ this
  · rintro ⟨rp, hrp, hm⟩
    rcases h1 with h1 | ⟨rp2, hrp2, hm2, he⟩
    · exfalso
      have hle := h3 rp hrp hm
      rw [h1] at hle
      have hlow : riskPriority (RiskLow, ([] : List Str)).1 = 1 := riskPriority_low
      rw [hlow] at hle
      rcases riskPatterns_risk_cases rp hrp with h | h | h <;> rw [h] at hle <;>
        exact absurd hle (by decide)
    · exact ⟨rp2, hrp2, hm2, he⟩
  · rintro ⟨rp, hrp, hc, hm⟩
    have hle := h3 rp hrp hm
    rw [hc] at hle
    have h4 : riskPriority RiskCritical = 4 := by decide
    rw [h4] at hle
    rcases h1 with h1 | ⟨rp2, hrp2, -, he⟩
    · exfalso
      rw [h1] at hle
      have hlow : riskPriority (RiskLow, ([] : List Str)).1 = 1 := riskPriority_low
      rw [hlow] at hle
      exact absurd hle (by decide)
    · rw [he] at hle ⊢
      rcases riskPatterns_risk_cases rp2 hrp2 with h | h | h
      · exact h
      · rw [h] at hle; exact absurd hle (by decide)
      · rw [h] at hle; exact absurd hle (by decide)

set_option maxRecDepth 100000 in
/-- Witness of C7: `https://x.com/admin/users?page=2` matches the critical rule `/admin`, the
high rule `/user` and the medium rule for query strings; its risk is `critical`. -/
theorem C7_risk_is_highest_matching_witness :
    ∃ out, (TagEndpoints [{ Endpoint.bare "https://x.com/admin/users?page=2".toList with
        NormalizedPath := "/admin/users".toList }])[0]? = some out ∧
      out.Risk = RiskCritical := by
  obtain ⟨out, hout, -, -, -, hcrit⟩ := C7_risk_is_highest_matching
    [{ Endpoint.bare "https://x.com/admin/users?page=2".toList with
        NormalizedPath := "/admin/users".toList }] 0
    { Endpoint.bare "https://x.com/admin/users?page=2".toList with
        NormalizedPath := "/admin/users".toList } rfl
  refine ⟨out, hout, hcrit ⟨⟨lits ["/admin"], RiskCritical, ["admin".toList]⟩, ?_, rfl, ?_⟩⟩
  · simp [riskPatterns]
  · decide

/-- Claim C8.  After `TagEndpoints` the tags of every endpoint are the tags of the matching
rules of the catalogue, in catalogue order: the list has no repeated tag, and a tag is in it
exactly when a rule carrying it matches the lower-cased `NormalizedPath + URL`, whatever the
level of the other matching rules. -/
theorem C8_tags_are_union_of_matching (eps : List Endpoint) (n : Nat) (ep : Endpoint)
    (hn : eps[n]? = some ep) :
    ∃ out, (TagEndpoints eps)[n]? = some out ∧
      out.Tags.Nodup ∧
      (∀ t, t ∈ out.Tags ↔ ∃ rp ∈ riskPatterns,
        regexp.MatchString rp.pattern (strings.ToLower (ep.NormalizedPath ++ ep.URL)) = true ∧
          t ∈ rp.tags) ∧
      out.Tags = (riskPatterns.filter fun rp =>
        regexp.MatchString rp.pattern (strings.ToLower (ep.NormalizedPath ++ ep.URL))).flatMap
          (fun rp => rp.tags) := by
  refine ⟨tagEndpoint ep, by simp [TagEndpoints, hn], ?_⟩
  have htags : (tagEndpoint ep).Tags =
      uniqueTags (tagScan riskPatterns (strings.ToLower (ep.NormalizedPath ++ ep.URL))).2 := rfl
  have hall := tagFold_tags (strings.ToLower (ep.NormalizedPath ++ ep.URL)) riskPatterns
    (RiskLow, [])
  simp only [List.nil_append] at hall
  rw [htags]
  unfold tagScan
  rw [hall]
  refine ⟨uniqueTags_nodup _, ?_, ?_⟩
  · intro t
    rw [mem_uniqueTags, List.mem_flatMap]
    constructor
    · rintro ⟨rp, hrp, ht⟩
      rw [List.mem_filter] at hrp
      exact ⟨rp, hrp.1, hrp.2, ht⟩
    · rintro ⟨rp, hrp, hm, ht⟩
      exact ⟨rp, List.mem_filter.2 ⟨hrp, hm⟩, ht⟩
  · exact uniqueTags_of_nodup _
      ((filter_flatMap_sublist _ _ riskPatterns).nodup riskPatterns_tags_nodup)

set_option maxRecDepth 100000 in
/-- Witness of C8: `https://x.com/admin/users?page=2` carries the tags of its three matching
rules, in catalogue order, the lower-tier ones included. -/
theorem C8_tags_are_union_of_matching_witness :
    ∃ out, (TagEndpoints [{ Endpoint.bare "https://x.com/admin/users?page=2".toList with
        NormalizedPath := "/admin/users".toList }])[0]? = some out ∧
      out.Tags = ["admin".toList, "pii".toList, "params".toList] := by
  obtain ⟨out, hout, -, -, htags⟩ := C8_tags_are_union_of_matching
    [{ Endpoint.bare "https://x.com/admin/users?page=2".toList with
        NormalizedPath := "/admin/users".toList }] 0
    { Endpoint.bare "https://x.com/admin/users?page=2".toList with
        NormalizedPath := "/admin/users".toList } rfl
  refine ⟨out, hout, htags.trans ?_⟩
  decide

/-! ## Inferrer -/

/-- The first element satisfying `p`, found by index. -/
theorem find?_eq_of_first {α : Type} (p : α → Bool) (l : List α) (i : Nat) (x : α)
    (hx : l[i]? = some x) (hp : p x = true)
    (hfirst : ∀ j y, j < i → l[j]? = some y → p y = false) : l.find? p = some x := by
  induction l generalizing i with
  | nil => simp at hx
  | cons a rest ih =>
    cases i with
    | zero =>
      simp only [List.getElem?_cons_zero, Option.some.injEq] at hx
      subst hx
      simp [List.find?_cons, hp]
    | succ k =>
      have ha : p a = false := hfirst 0 a (Nat.succ_pos k) (by simp)
      simp only [List.find?_cons, ha]
      simp only [List.getElem?_cons_succ] at hx
      exact ih k hx (fun j y hj hy => hfirst (j + 1) y (Nat.succ_lt_succ hj) (by simpa using hy))

/-- Claim C9.  Method inference is first-match-wins: an endpoint without methods whose
lower-cased normalized path is matched by the rule at position `i` of `methodPatterns`, and
by no rule before it, gets exactly the methods of rule `i` from `InferMethods`, whatever the
later rules and the placeholder fallback would give; nothing else of the endpoint changes. -/
theorem C9_first_matching_rule_wins (eps : List Endpoint) (n : Nat) (ep : Endpoint)
    (i : Nat) (mp : MethodPattern)
    (hep : eps[n]? = some ep) (hnone : ep.Methods = [])
    (hmp : methodPatterns[i]? = some mp)
    (hmatch : regexp.MatchString mp.pattern (strings.ToLower ep.NormalizedPath) = true)
    (hfirst : ∀ j r, j < i → methodPatterns[j]? = some r →
      regexp.MatchString r.pattern (strings.ToLower ep.NormalizedPath) = false) :
    (InferMethods eps)[n]? = some { ep with Methods := mp.methods } := by
  have hfind : methodPatterns.find?
      (fun r => regexp.MatchString r.pattern (strings.ToLower ep.NormalizedPath)) = some mp :=
    find?_eq_of_first _ methodPatterns i mp hmp hmatch hfirst
  have hinfer : inferMethodsForPath ep.NormalizedPath = mp.methods := by
    unfold inferMethodsForPath
    simp only [hfind]
  simp [InferMethods, hep, hnone, hinfer]

set_option maxRecDepth 100000 in
/-- Witness of C9: `/users/login` is matched first by rule 0 (login/signin/authenticate) and
gets exactly `[POST]`, although it neither ends in a placeholder nor is a plain collection. -/
theorem C9_first_matching_rule_wins_witness :
    (InferMethods [{ Endpoint.bare "https://x.com/users/login".toList with
        NormalizedPath := "/users/login".toList }])[0]? =
      some { Endpoint.bare "https://x.com/users/login".toList with
        NormalizedPath := "/users/login".toList, Methods := ["POST".toList] } :=
  C9_first_matching_rule_wins
    [{ Endpoint.bare "https://x.com/users/login".toList with
        NormalizedPath := "/users/login".toList }] 0
    { Endpoint.bare "https://x.com/users/login".toList with
        NormalizedPath := "/users/login".toList }
    0 { pattern := lits ["/login", "/signin", "/authenticate"], methods := ["POST".toList] }
    rfl rfl rfl (by decide) (by intro j r hj; omega)

/-! ## Map iteration order -/

theorem MapOrder.iter_of_length_le_one (ord : MapOrder) {α : Type} (l : List α)
    (h : l.length ≤ 1) : ord.iter l = l := by
  match l, h with
  | [], _ => exact (ord.perm []).eq_nil
  | [a], _ => exact List.perm_singleton.1 (ord.perm [a])

theorem extractQueryParams_congr (lib : NetURL) (ord : MapOrder) (u : URL)
    (h : (lib.Query u).length ≤ 1) :
    extractQueryParams lib ord u = extractQueryParams lib MapOrder.insertion u := by
  unfold extractQueryParams
  rw [ord.iter_of_length_le_one _ h]
  rfl

theorem normalizeStep_congr (lib : NetURL) (ord : MapOrder) (m : List (Str × Endpoint))
    (ep : Endpoint)
    (h : ∀ u, lib.Parse ep.URL = some u → (lib.Query u).length ≤ 1) :
    normalizeStep lib ord m ep = normalizeStep lib MapOrder.insertion m ep := by
  unfold normalizeStep
  cases hp : lib.Parse ep.URL with
  | none => rfl
  | some u => simp only [extractQueryParams_congr lib ord u (h u hp)]

theorem GroupEndpoints_congr (ord : MapOrder) (eps : List Endpoint)
    (h : (eps.foldl groupAdd []).length ≤ 1) :
    GroupEndpoints ord eps = GroupEndpoints MapOrder.insertion eps := by
  unfold GroupEndpoints
  simp only [ord.iter_of_length_le_one _ h]
  rfl

/-! ## Scenario -/

set_option maxRecDepth 100000 in
/-- Claim C6, as stated, fails: in the scenario no endpoint of the output has the normalized
path `/users/{userId}` (the prefix `/api/v1` is kept in the normalized path). -/
theorem C6_scenario_counterexample :
    ¬ ∃ g ∈ pipeline goURL MapOrder.insertion
        [Endpoint.bare "https://x.com/api/v1/users/42".toList,
         Endpoint.bare "https://x.com/api/v1/users/77?active=true".toList],
      ∃ ep ∈ g.Endpoints, ep.NormalizedPath = "/users/\x7buserId\x7d".toList := by
  decide

set_option maxRecDepth 100000 in
/-- Claim C6, amended.  For the raw URLs `https://x.com/api/v1/users/42` and
`https://x.com/api/v1/users/77?active=true`, whatever the iteration order of the maps, the
pipeline yields one group, `Users`, holding one endpoint: it keeps the first URL, its
normalized path is `/api/v1/users/{userId}`, its path parameter is `userId` (integer,
required), its only query parameter is `active` (string, query, optional, example `true`),
and its methods are `[GET, PUT, PATCH, DELETE]`. -/
theorem C6_scenario (ord : MapOrder) :
    pipeline goURL ord
        [Endpoint.bare "https://x.com/api/v1/users/42".toList,
         Endpoint.bare "https://x.com/api/v1/users/77?active=true".toList] =
      [{ Name := "Users".toList,
         Endpoints :=
          [{ URL := "https://x.com/api/v1/users/42".toList,
             Path := "/api/v1/users/42".toList,
             NormalizedPath := "/api/v1/users/\x7buserId\x7d".toList,
             Methods := ["GET".toList, "PUT".toList, "PATCH".toList, "DELETE".toList],
             Parameters := [pathParam "userId".toList "integer".toList],
             QueryParams := [queryParam "active".toList "true".toList],
             Headers := [], Source := [], Risk := RiskHigh, Tags := ["pii".toList],
             DiscoveredAt := 0 }] }] := by
  have hmap : normalizedMap goURL ord
        [Endpoint.bare "https://x.com/api/v1/users/42".toList,
         Endpoint.bare "https://x.com/api/v1/users/77?active=true".toList] =
      normalizedMap goURL MapOrder.insertion
        [Endpoint.bare "https://x.com/api/v1/users/42".toList,
         Endpoint.bare "https://x.com/api/v1/users/77?active=true".toList] := by
    simp only [normalizedMap, List.foldl]
    rw [normalizeStep_congr goURL ord [] _ (by
      intro u hu
      have h : goURL.Parse (Endpoint.bare "https://x.com/api/v1/users/42".toList).URL =
          some { Scheme := "https".toList, Host := "x.com".toList,
                 Path := "/api/v1/users/42".toList, RawQuery := [] } := by decide
      rw [h] at hu
      cases hu
      decide)]
    rw [normalizeStep_congr goURL ord _ _ (by
      intro u hu
      have h : goURL.Parse
            (Endpoint.bare "https://x.com/api/v1/users/77?active=true".toList).URL =
          some { Scheme := "https".toList, Host := "x.com".toList,
                 Path := "/api/v1/users/77".toList, RawQuery := "active=true".toList } := by
        decide
      rw [h] at hu
      cases hu
      decide)]
  have hlen : (normalizedMap goURL MapOrder.insertion
        [Endpoint.bare "https://x.com/api/v1/users/42".toList,
         Endpoint.bare "https://x.com/api/v1/users/77?active=true".toList]).length ≤ 1 := by
    decide
  have hnorm : Normalize goURL ord
        [Endpoint.bare "https://x.com/api/v1/users/42".toList,
         Endpoint.bare "https://x.com/api/v1/users/77?active=true".toList] =
      Normalize goURL MapOrder.insertion
        [Endpoint.bare "https://x.com/api/v1/users/42".toList,
         Endpoint.bare "https://x.com/api/v1/users/77?active=true".toList] := by
    unfold Normalize
    rw [hmap, ord.iter_of_length_le_one _ hlen]
    rfl
  unfold pipeline
  rw [hnorm, GroupEndpoints_congr ord _ (by decide)]
  decide

/-! ## Path normalisation -/

set_option maxRecDepth 100000 in
/-- Claim C2 at the failing input `/orders/2024/15`.  The integer detector matches `/2024/`
and thereby consumes the slash in front of `15`, so the first normalisation yields
`/orders/{orderId}/15`; normalising that path again rewrites the segment `15` and records
a parameter: the result of `normalizePath` is not a fixed point. -/
theorem C2_normalizePath_not_idempotent :
    normalizePath "/orders/2024/15".toList =
        ("/orders/\x7borderId\x7d/15".toList, [pathParam "orderId".toList "integer".toList]) ∧
      normalizePath "/orders/\x7borderId\x7d/15".toList =
        ("/orders/\x7borderId\x7d/\x7b\x7borderId\x7dId\x7d".toList,
          [pathParam "\x7borderId\x7dId".toList "integer".toList]) := by
  decide

set_option maxRecDepth 100000 in
/-- Claim C3, as stated, fails: in `/users/42/posts/77` the segment `77` follows `posts`, yet
its placeholder is named `userId`, so the path does not normalize to
`/users/{userId}/posts/{postId}`. -/
theorem C3_counterexample :
    (normalizePath "/users/42/posts/77".toList).1 =
        "/users/\x7buserId\x7d/posts/\x7buserId\x7d".toList ∧
      (normalizePath "/users/42/posts/77".toList).1 ≠
        "/users/\x7buserId\x7d/posts/\x7bpostId\x7d".toList := by
  decide

theorem find?_range_first (p : Nat → Bool) (n i : Nat) (hi : i < n) (hp : p i = true)
    (hfirst : ∀ j, j < i → p j = false) : (List.range n).find? p = some i := by
  apply find?_eq_of_first p (List.range n) i i
  · rw [List.getElem?_range hi]
  · exact hp
  · intro j y hj hy
    rw [List.getElem?_range (lt_trans hj hi)] at hy
    cases hy
    exact hfirst j hj

/-- A detector names its parameter once per path: when the detector matches the path, and
part `i > 0` of the path is the first part (after part 0) that the detector matches between
two slashes, the name is part `i - 1` without one trailing `s`, followed by `Id`; that name
goes into the one template passed to `ReplaceAllString` and into the one parameter
recorded. -/
theorem normalizeWith_of_first_matching_part (pp : ParamPattern) (path : Str)
    (st : Str × List Parameter) (i : Nat)
    (hmatch : regexp.MatchString pp.pattern path = true)
    (hpos : 0 < i) (hlen : i < (strings.Split '/' path).length)
    (hseg : regexp.MatchString pp.pattern
      ('/' :: ((strings.Split '/' path).getD i [] ++ ['/'])) = true)
    (hfirst : ∀ j, 0 < j → j < i → regexp.MatchString pp.pattern
      ('/' :: ((strings.Split '/' path).getD j [] ++ ['/'])) = false) :
    normalizeWith path st pp =
      (strings.TrimSuffix
          (regexp.ReplaceAllString pp.pattern st.1
            ("/\x7b".toList ++
              (strings.TrimSuffix ((strings.Split '/' path).getD (i - 1) []) "s".toList ++
                "Id".toList) ++ "\x7d/".toList))
          "/".toList,
        st.2 ++ [pathParam
          (strings.TrimSuffix ((strings.Split '/' path).getD (i - 1) []) "s".toList ++
            "Id".toList) pp.ptype]) := by
  have hfind : (List.range (strings.Split '/' path).length).find?
      (fun k => regexp.MatchString pp.pattern
        ('/' :: ((strings.Split '/' path).getD k [] ++ ['/'])) && decide (0 < k)) = some i := by
    apply find?_range_first _ _ i hlen
    · show (regexp.MatchString pp.pattern
        ('/' :: ((strings.Split '/' path).getD i [] ++ ['/'])) && decide (0 < i)) = true
      rw [hseg]
      simp [hpos]
    · intro j hj
      show (regexp.MatchString pp.pattern
        ('/' :: ((strings.Split '/' path).getD j [] ++ ['/'])) && decide (0 < j)) = false
      rcases Nat.eq_zero_or_pos j with h0 | h0
      · subst h0; simp
      · rw [hfirst j h0 hj]; rfl
  unfold normalizeWith inferParamName
  simp only [hmatch, if_true, hfind]
  rfl

theorem expandAux_of_no_dollar (caps : regexp.Caps) (fuel : Nat) :
    ∀ template : Str, '$' ∉ template → regexp.expandAux fuel template caps = template := by
  induction fuel with
  | zero => intro template _; rfl
  | succ fuel ih =>
    intro template h
    cases template with
    | nil => rfl
    | cons c t =>
      have hc : c ≠ '$' := fun e => h (e ▸ List.mem_cons_self _ _)
      have ht : '$' ∉ t := fun e => h (List.mem_cons_of_mem _ e)
      simp only [regexp.expandAux, hc, ne_eq, not_false_eq_true, if_true]
      rw [ih t ht]

theorem replaceAux_of_no_dollar (re : regexp.Re) (w : Str) (hw : '$' ∉ w) (fuel : Nat) :
    ∀ s : Str, regexp.replaceAux re w fuel s = replaceEachMatchAux re w fuel s := by
  induction fuel with
  | zero => intro s; rfl
  | succ fuel ih =>
    intro s
    cases s with
    | nil => rfl
    | cons c t =>
      simp only [regexp.replaceAux, replaceEachMatchAux]
      cases regexp.matchAt re (c :: t) with
      | none => simp only [ih t]
      | some r =>
        obtain ⟨rem, caps⟩ := r
        simp only [ih t, ih rem, regexp.expand, expandAux_of_no_dollar caps _ w hw]

/-- With a template that holds no dollar sign, `ReplaceAllString` writes the template itself
in place of every match. -/
theorem ReplaceAllString_of_no_dollar (re : regexp.Re) (w s : Str) (hw : '$' ∉ w) :
    regexp.ReplaceAllString re s w = replaceEachMatch re w s :=
  replaceAux_of_no_dollar re w hw _ s

theorem mem_of_mem_TrimSuffix (s suf : Str) (x : Char) (h : x ∈ strings.TrimSuffix s suf) :
    x ∈ s := by
  unfold strings.TrimSuffix at h
  split_ifs at h
  · exact List.mem_of_mem_take h
  · exact h

/-- Claim C3, amended.  A detector names its placeholder once per path.  When the detector
matches the path, part `i > 0` is the first part (after part 0) that the detector matches
between two slashes, and part `i - 1` holds no dollar sign, the name is part `i - 1` without
one trailing `s`, followed by `Id`; every match of the detector is replaced by the same text
`/{name}/`, so every rewritten segment gets that one name, and one parameter of that name is
recorded.  A dollar sign in the name is expanded as a group reference instead: `/a$1s/42`
is rewritten to `/a$1s/{a}` while the parameter recorded is `a$1Id`. -/
theorem C3_one_name_per_detector (pp : ParamPattern) (path : Str)
    (st : Str × List Parameter) (i : Nat)
    (hmatch : regexp.MatchString pp.pattern path = true)
    (hpos : 0 < i) (hlen : i < (strings.Split '/' path).length)
    (hseg : regexp.MatchString pp.pattern
      ('/' :: ((strings.Split '/' path).getD i [] ++ ['/'])) = true)
    (hfirst : ∀ j, 0 < j → j < i → regexp.MatchString pp.pattern
      ('/' :: ((strings.Split '/' path).getD j [] ++ ['/'])) = false)
    (hdollar : '$' ∉ (strings.Split '/' path).getD (i - 1) []) :
    normalizeWith path st pp =
        (strings.TrimSuffix
            (replaceEachMatch pp.pattern
              ("/\x7b".toList ++
                (strings.TrimSuffix ((strings.Split '/' path).getD (i - 1) []) "s".toList ++
                  "Id".toList) ++ "\x7d/".toList) st.1)
            "/".toList,
          st.2 ++ [pathParam
            (strings.TrimSuffix ((strings.Split '/' path).getD (i - 1) []) "s".toList ++
              "Id".toList) pp.ptype]) ∧
      normalizePath "/a$1s/42".toList =
        ("/a$1s/\x7ba\x7d".toList, [pathParam "a$1Id".toList "integer".toList]) := by
  refine ⟨?_, by decide⟩
  rw [normalizeWith_of_first_matching_part pp path st i hmatch hpos hlen hseg hfirst]
  have hw : '$' ∉ "/\x7b".toList ++
      (strings.TrimSuffix ((strings.Split '/' path).getD (i - 1) []) "s".toList ++
        "Id".toList) ++ "\x7d/".toList := by
    intro h
    simp only [List.mem_append] at h
    rcases h with (h | h | h) | h
    · revert h; decide
    · exact hdollar (mem_of_mem_TrimSuffix _ _ _ h)
    · revert h; decide
    · revert h; decide
  rw [ReplaceAllString_of_no_dollar _ _ _ hw]

set_option maxRecDepth 100000 in
/-- Witness of C3: in `/users/42/posts/77` the first part matched by the integer detector is
part 2, after `users`; both integer segments are rewritten to `{userId}`. -/
theorem C3_one_name_per_detector_witness :
    normalizeWith "/users/42/posts/77".toList ("/users/42/posts/77".toList, []) ppInteger =
      ("/users/\x7buserId\x7d/posts/\x7buserId\x7d".toList,
        [pathParam "userId".toList "integer".toList]) :=
  ((C3_one_name_per_detector ppInteger "/users/42/posts/77".toList
    ("/users/42/posts/77".toList, []) 2 (by decide) (by decide) (by decide) (by decide)
    (by
      intro j h0 h2
      have hj : j = 1 := by omega
      subst hj
      decide)
    (by decide)).1).trans (by decide)

/-! ## Method inference fallback -/

set_option maxRecDepth 100000 in
/-- Claim C10 at the failing inputs.  The fallback of `inferMethodsForPath` tests whether the
text ends in `Id}` or `id}`, not whether the path ends in a placeholder.  The raw path
`/x/id}` is left as it is by `normalizePath`, matches no keyword rule and has no placeholder
(no opening brace), yet gets `[GET, PUT, PATCH, DELETE]`.  The raw path `/$x/42` is
normalized to `/$x/{}` (the name `$xId` is expanded as a group reference), matches no
keyword rule and ends in the placeholder written by the normalizer, yet gets
`[GET, POST]`. -/
theorem C10_fallback_tests_suffix_text :
    normalizePath "/x/id\x7d".toList = ("/x/id\x7d".toList, []) ∧
      methodPatterns.any (fun mp => regexp.MatchString mp.pattern
        (strings.ToLower (normalizePath "/x/id\x7d".toList).1)) = false ∧
      endsInPlaceholder (normalizePath "/x/id\x7d".toList).1 = false ∧
      '\x7b' ∉ (normalizePath "/x/id\x7d".toList).1 ∧
      inferMethodsForPath (normalizePath "/x/id\x7d".toList).1 =
        ["GET".toList, "PUT".toList, "PATCH".toList, "DELETE".toList] ∧
      normalizePath "/$x/42".toList =
        ("/$x/\x7b\x7d".toList, [pathParam "$xId".toList "integer".toList]) ∧
      methodPatterns.any (fun mp => regexp.MatchString mp.pattern
        (strings.ToLower (normalizePath "/$x/42".toList).1)) = false ∧
      endsInPlaceholder (normalizePath "/$x/42".toList).1 = true ∧
      inferMethodsForPath (normalizePath "/$x/42".toList).1 =
        ["GET".toList, "POST".toList] := by
  decide

/-! ## Maps as association lists -/

theorem mapGet_mapSet {V : Type} (m : List (Str × V)) (k k1 : Str) (v : V) :
    mapGet (mapSet m k v) k1 = if k = k1 then some v else mapGet m k1 := by
  induction m with
  | nil =>
    simp only [mapSet, mapGet]
  | cons a rest ih =>
    obtain ⟨ka, va⟩ := a
    simp only [mapSet]
    by_cases h : ka = k
    · subst h
      simp only [if_true, mapGet]
      by_cases h1 : ka = k1 <;> simp [h1]
    · simp only [h, if_false, mapGet]
      by_cases h1 : ka = k1
      · subst h1
        have : ¬ k = ka := fun e => h e.symm
        simp [this]
      · simp only [h1, if_false]
        exact ih

theorem mapGet_eq_none_iff {V : Type} (m : List (Str × V)) (k : Str) :
    mapGet m k = none ↔ k ∉ m.map Prod.fst := by
  induction m with
  | nil => simp [mapGet]
  | cons a rest ih =>
    obtain ⟨ka, va⟩ := a
    simp only [mapGet, List.map_cons, List.mem_cons]
    by_cases h : ka = k
    · subst h
      simp only [if_true, true_or, not_true_eq_false, iff_false]
      exact fun e => Option.noConfusion e
    · have h2 : ¬ k = ka := fun e => h e.symm
      simp only [h, if_false, h2, false_or]
      exact ih

theorem mapGet_isSome_iff {V : Type} (m : List (Str × V)) (k : Str) :
    (mapGet m k).isSome = true ↔ k ∈ m.map Prod.fst := by
  rw [← not_iff_not, ← mapGet_eq_none_iff]
  cases mapGet m k <;> simp

theorem keys_mapSet {V : Type} (m : List (Str × V)) (k : Str) (v : V) :
    (mapSet m k v).map Prod.fst =
      if k ∈ m.map Prod.fst then m.map Prod.fst else m.map Prod.fst ++ [k] := by
  induction m with
  | nil => simp [mapSet]
  | cons a rest ih =>
    obtain ⟨ka, va⟩ := a
    simp only [mapSet]
    by_cases h : ka = k
    · subst h
      simp only [if_true, List.map_cons, List.mem_cons, true_or]
    · have h2 : ¬ k = ka := fun e => h e.symm
      simp only [h, if_false, List.map_cons, ih, List.mem_cons, h2, false_or]
      split_ifs
      · rfl
      · rfl

theorem keys_mapSet_cases {V : Type} (m : List (Str × V)) (k : Str) (v : V) :
    (mapSet m k v).map Prod.fst = m.map Prod.fst ∨
      ((mapSet m k v).map Prod.fst = m.map Prod.fst ++ [k] ∧ k ∉ m.map Prod.fst) := by
  rw [keys_mapSet]
  split_ifs with h
  · exact Or.inl rfl
  · exact Or.inr ⟨rfl, h⟩

theorem keys_nodup_mapSet {V : Type} (m : List (Str × V)) (k : Str) (v : V)
    (h : (m.map Prod.fst).Nodup) : ((mapSet m k v).map Prod.fst).Nodup := by
  rcases keys_mapSet_cases m k v with h1 | ⟨h1, h2⟩
  · rw [h1]; exact h
  · rw [h1, List.nodup_append]
    refine ⟨h, List.nodup_singleton k, ?_⟩
    intro x hx hx2
    rw [List.mem_singleton] at hx2
    exact h2 (hx2 ▸ hx)

theorem mem_of_mapGet {V : Type} (m : List (Str × V)) (k : Str) (v : V)
    (h : mapGet m k = some v) : (k, v) ∈ m := by
  induction m with
  | nil => simp [mapGet] at h
  | cons a rest ih =>
    obtain ⟨ka, va⟩ := a
    simp only [mapGet] at h
    by_cases h1 : ka = k
    · subst h1
      simp only [if_true, Option.some.injEq] at h
      subst h
      exact List.mem_cons_self _ _
    · simp only [h1, if_false] at h
      exact List.mem_cons_of_mem _ (ih h)

theorem mapGet_of_mem {V : Type} (m : List (Str × V)) (k : Str) (v : V)
    (hnd : (m.map Prod.fst).Nodup) (h : (k, v) ∈ m) : mapGet m k = some v := by
  induction m with
  | nil => simp at h
  | cons a rest ih =>
    obtain ⟨ka, va⟩ := a
    simp only [List.map_cons, List.nodup_cons] at hnd
    rcases List.mem_cons.1 h with h1 | h1
    · cases h1
      simp [mapGet]
    · have hk : k ∈ rest.map Prod.fst := List.mem_map.2 ⟨(k, v), h1, rfl⟩
      have hne : ¬ ka = k := fun e => hnd.1 (e ▸ hk)
      simp only [mapGet, hne, if_false]
      exact ih hnd.2 h1

/-- Reading a map gives the same value whatever the order of its entries. -/
theorem mapGet_perm {V : Type} (m1 m2 : List (Str × V)) (hp : m1.Perm m2)
    (hnd : (m2.map Prod.fst).Nodup) (k : Str) : mapGet m1 k = mapGet m2 k := by
  have hnd1 : (m1.map Prod.fst).Nodup := ((hp.map Prod.fst).nodup_iff).2 hnd
  cases h2 : mapGet m2 k with
  | none =>
    rw [mapGet_eq_none_iff] at h2 ⊢
    intro h
    exact h2 (((hp.map Prod.fst).mem_iff).1 h)
  | some v =>
    exact mapGet_of_mem m1 k v hnd1 (hp.mem_iff.2 (mem_of_mapGet m2 k v h2))

/-! ## Query parameters -/

/-- The keys of the `Values` map of a URL are distinct. -/
theorem Query_keys_nodup (lib : NetURL) (u : URL) : ((lib.Query u).map Prod.fst).Nodup := by
  unfold NetURL.Query
  have h : ∀ (pairs : List (Str × Str)) (m : Values), (m.map Prod.fst).Nodup →
      ((pairs.foldl (fun m kv => valuesAdd m kv.1 kv.2) m).map Prod.fst).Nodup := by
    intro pairs
    induction pairs with
    | nil => intro m hm; exact hm
    | cons kv rest ih =>
      intro m hm
      simp only [List.foldl_cons]
      exact ih _ (keys_nodup_mapSet m _ _ hm)
  exact h _ [] List.nodup_nil

theorem mapGet_valuesFold (name : Str) (pairs : List (Str × Str)) (m : Values) :
    mapGet (pairs.foldl (fun m kv => valuesAdd m kv.1 kv.2) m) name =
      match mapGet m name with
      | some vs => some (vs ++ (pairs.filter (fun kv => kv.1 = name)).map Prod.snd)
      | none =>
        match (pairs.filter (fun kv => kv.1 = name)).map Prod.snd with
        | [] => none
        | v :: vs => some (v :: vs) := by
  induction pairs generalizing m with
  | nil =>
    cases h : mapGet m name <;> simp [h]
  | cons kv rest ih =>
    simp only [List.foldl_cons]
    rw [ih]
    unfold valuesAdd
    rw [mapGet_mapSet]
    by_cases hk : kv.1 = name
    · subst hk
      simp only [if_true, List.filter_cons, decide_True, List.map_cons]
      cases h : mapGet m kv.1 with
      | none => simp
      | some vs => simp
    · simp only [hk, if_false, List.filter_cons, decide_False]
      rfl

/-- Reading the `Values` map of a URL at `name`: the list of all values of `name`, absent
when there is none. -/
theorem mapGet_Query (lib : NetURL) (u : URL) (name : Str) :
    (mapGet (lib.Query u) name).map (fun vs => if 0 < vs.length then vs.headD [] else []) =
      firstValueOf lib u name := by
  unfold NetURL.Query firstValueOf
  rw [mapGet_valuesFold]
  simp only [mapGet]
  induction lib.ParseQuery u.RawQuery with
  | nil => rfl
  | cons kv rest ih =>
    by_cases hk : kv.1 = name
    · simp [List.filter_cons, List.find?_cons, hk]
    · simp only [List.filter_cons, List.find?_cons, hk, decide_False]
      exact ih

theorem paramExample_map (f : List Str → Str) (l : Values) (name : Str) :
    paramExample (l.map fun kv =>
        ({ Name := kv.1, Type_ := "string".toList, In := "query".toList, Required := false,
           Example := f kv.2 } : Parameter)) name =
      (mapGet l name).map f := by
  induction l with
  | nil => rfl
  | cons a rest ih =>
    obtain ⟨ka, va⟩ := a
    unfold paramExample at ih ⊢
    simp only [List.map_cons, List.find?_cons, mapGet]
    by_cases hk : ka = name
    · simp [hk]
    · simp only [hk, decide_False, if_false]
      exact ih

/-- The example that `extractQueryParams` records for `name` is the first value of `name` in
the query, whatever the order in which the map is visited. -/
theorem paramExample_extractQueryParams (lib : NetURL) (ord : MapOrder) (u : URL) (name : Str) :
    paramExample (extractQueryParams lib ord u) name = firstValueOf lib u name := by
  unfold extractQueryParams
  rw [paramExample_map (fun vs => if 0 < vs.length then vs.headD [] else [])]
  rw [mapGet_perm _ _ (ord.perm (lib.Query u)) (Query_keys_nodup lib u)]
  exact mapGet_Query lib u name

theorem names_extractQueryParams_nodup (lib : NetURL) (ord : MapOrder) (u : URL) :
    ((extractQueryParams lib ord u).map fun p => p.Name).Nodup := by
  unfold extractQueryParams
  rw [List.map_map]
  have h : ((fun (p : Parameter) => p.Name) ∘ fun (kv : Str × List Str) =>
      ({ Name := kv.1, Type_ := "string".toList, In := "query".toList, Required := false,
         Example := if 0 < kv.2.length then kv.2.headD [] else [] } : Parameter)) = Prod.fst := by
    funext kv; rfl
  rw [h]
  exact (((ord.perm (lib.Query u)).map Prod.fst).nodup_iff).2 (Query_keys_nodup lib u)

theorem paramExample_isSome_iff (ps : List Parameter) (name : Str) :
    (paramExample ps name).isSome = true ↔ name ∈ ps.map fun p => p.Name := by
  unfold paramExample
  induction ps with
  | nil => simp
  | cons p rest ih =>
    simp only [List.find?_cons, List.map_cons, List.mem_cons]
    by_cases hk : p.Name = name
    · simp [hk]
    · have h2 : ¬ name = p.Name := fun e => hk e.symm
      simp only [hk, decide_False, h2, false_or]
      exact ih

theorem paramExample_append (ps qs : List Parameter) (name : Str) :
    paramExample (ps ++ qs) name =
      match paramExample ps name with
      | some v => some v
      | none => paramExample qs name := by
  unfold paramExample
  rw [List.find?_append]
  cases h : ps.find? (fun p => p.Name = name) <;> simp

/-- The loop of `mergeParams` from any state whose `seen` is the set of names kept. -/
theorem mergeFold_spec (new : List Parameter) (st : List Str × List Parameter)
    (hseen : ∀ n, n ∈ st.1 ↔ n ∈ st.2.map fun p => p.Name)
    (hnd : (st.2.map fun p => p.Name).Nodup) :
    ((new.foldl mergeStep st).2.map fun p => p.Name).Nodup ∧
      ∀ name, paramExample (new.foldl mergeStep st).2 name =
        match paramExample st.2 name with
        | some v => some v
        | none => paramExample new name := by
  induction new generalizing st with
  | nil =>
    refine ⟨hnd, fun name => ?_⟩
    simp only [List.foldl_nil]
    cases h : paramExample st.2 name with
    | none => rfl
    | some v => rfl
  | cons p rest ih =>
    simp only [List.foldl_cons]
    by_cases hp : p.Name ∈ st.1
    · have hs : mergeStep st p = st := by simp [mergeStep, hp]
      rw [hs]
      obtain ⟨h1, h2⟩ := ih st hseen hnd
      refine ⟨h1, fun name => ?_⟩
      rw [h2 name]
      cases h : paramExample st.2 name with
      | some v => rfl
      | none =>
        have hne : ¬ p.Name = name := by
          intro e
          have : (paramExample st.2 name).isSome = true :=
            (paramExample_isSome_iff st.2 name).2 (e ▸ (hseen p.Name).1 hp)
          rw [h] at this
          exact Bool.noConfusion this
        simp only [paramExample, List.find?_cons, hne, decide_False]
    · have hs : mergeStep st p = (p.Name :: st.1, st.2 ++ [p]) := by simp [mergeStep, hp]
      rw [hs]
      have hp2 : p.Name ∉ st.2.map fun p => p.Name := fun h => hp ((hseen p.Name).2 h)
      obtain ⟨h1, h2⟩ := ih (p.Name :: st.1, st.2 ++ [p])
        (by
          intro n
          simp only [List.mem_cons, List.map_append, List.mem_append, List.map_cons,
            List.map_nil, List.mem_singleton]
          rw [hseen n]
          tauto)
        (by
          simp only [List.map_append, List.map_cons, List.map_nil]
          rw [List.nodup_append]
          refine ⟨hnd, List.nodup_singleton _, ?_⟩
          intro x hx hx2
          rw [List.mem_singleton] at hx2
          exact hp2 (hx2 ▸ hx))
      refine ⟨h1, fun name => ?_⟩
      rw [h2 name]
      simp only
      rw [paramExample_append]
      cases h : paramExample st.2 name with
      | some v => rfl
      | none =>
        simp only [paramExample, List.find?_cons]
        by_cases hne : p.Name = name
        · simp [hne]
        · simp [hne]

theorem names_mergeParams_nodup (existing new : List Parameter)
    (hnd : (existing.map fun p => p.Name).Nodup) :
    ((mergeParams existing new).map fun p => p.Name).Nodup :=
  (mergeFold_spec new (existing.map (fun (p : Parameter) => p.Name), existing)
    (fun _ => Iff.rfl) hnd).1

/-- Merging keeps the example of a name already present and takes the first example of the
new list otherwise. -/
theorem paramExample_mergeParams (existing new : List Parameter)
    (hnd : (existing.map fun p => p.Name).Nodup) (name : Str) :
    paramExample (mergeParams existing new) name =
      match paramExample existing name with
      | some v => some v
      | none => paramExample new name :=
  (mergeFold_spec new (existing.map (fun (p : Parameter) => p.Name), existing)
    (fun _ => Iff.rfl) hnd).2 name

/-! ## The map built by `Normalize` -/

theorem firstExample_append (lib : NetURL) (k name : Str) (l : List Endpoint) (ep : Endpoint) :
    firstExample lib k name (l ++ [ep]) =
      match firstExample lib k name l with
      | some v => some v
      | none => if keyOf lib ep.URL = some k then firstValue lib ep.URL name else none := by
  unfold firstExample
  rw [List.findSome?_append]
  cases h : l.findSome?
      (fun ep => if keyOf lib ep.URL = some k then firstValue lib ep.URL name else none) with
  | none =>
    simp only [List.findSome?_cons, List.findSome?_nil, Option.or]
    split
    · next heq => exact heq.symm
    · next heq => exact heq.symm
  | some v => rfl

theorem firstExample_eq_none (lib : NetURL) (k name : Str) (l : List Endpoint)
    (h : ∀ ep ∈ l, keyOf lib ep.URL ≠ some k) : firstExample lib k name l = none := by
  unfold firstExample
  rw [List.findSome?_eq_none_iff]
  intro ep hep
  simp [h ep hep]

theorem inputKeys_append (lib : NetURL) (l : List Endpoint) (ep : Endpoint) :
    inputKeys lib (l ++ [ep]) = inputKeys lib l ++ (keyOf lib ep.URL).toList := by
  unfold inputKeys
  rw [List.filterMap_append]
  cases h : keyOf lib ep.URL <;> simp [List.filterMap_cons, h]

theorem mem_inputKeys (lib : NetURL) (l : List Endpoint) (k : Str) :
    k ∈ inputKeys lib l ↔ ∃ ep ∈ l, keyOf lib ep.URL = some k := by
  unfold inputKeys
  rw [List.mem_filterMap]

/-- An input of another key (or one that does not parse) leaves the entry of `k` as it is. -/
theorem EntryOK_append_other (lib : NetURL) (l : List Endpoint) (k : Str) (e ep : Endpoint)
    (hne : keyOf lib ep.URL ≠ some k) (h : EntryOK lib l k e) : EntryOK lib (l ++ [ep]) k e := by
  obtain ⟨ep0, u, hfind, hrest⟩ := h.first
  refine ⟨⟨ep0, u, ?_, hrest⟩, h.fresh, h.namesNodup, fun name => ?_⟩
  · rw [List.find?_append, hfind]; rfl
  · rw [firstExample_append, ← h.examples name]
    simp only [hne, if_false]
    cases paramExample e.QueryParams name <;> rfl

/-- A later input of the same key only merges its query parameters into the entry. -/
theorem EntryOK_merge (lib : NetURL) (ord : MapOrder) (l : List Endpoint) (k : Str)
    (e ep : Endpoint) (u : URL) (hu : lib.Parse ep.URL = some u)
    (hk : keyOf lib ep.URL = some k) (h : EntryOK lib l k e) :
    EntryOK lib (l ++ [ep]) k
      { e with QueryParams := mergeParams e.QueryParams (extractQueryParams lib ord u) } := by
  obtain ⟨ep0, u0, hfind, hrest⟩ := h.first
  refine ⟨⟨ep0, u0, ?_, hrest⟩, h.fresh, names_mergeParams_nodup _ _ h.namesNodup,
    fun name => ?_⟩
  · rw [List.find?_append, hfind]; rfl
  · show paramExample (mergeParams e.QueryParams (extractQueryParams lib ord u)) name = _
    rw [paramExample_mergeParams _ _ h.namesNodup, firstExample_append, ← h.examples name,
      paramExample_extractQueryParams]
    simp only [hk, if_true, firstValue, hu]

/-- The first input of a key creates the entry. -/
theorem EntryOK_new (lib : NetURL) (ord : MapOrder) (l : List Endpoint) (ep : Endpoint)
    (u : URL) (hu : lib.Parse ep.URL = some u)
    (hnew : ∀ ep1 ∈ l, keyOf lib ep1.URL ≠ some (u.Host ++ (normalizePath u.Path).1)) :
    EntryOK lib (l ++ [ep]) (u.Host ++ (normalizePath u.Path).1)
      { URL := ep.URL, Path := u.Path, NormalizedPath := (normalizePath u.Path).1,
        Parameters := (normalizePath u.Path).2,
        QueryParams := extractQueryParams lib ord u, Source := ep.Source,
        DiscoveredAt := ep.DiscoveredAt,
        Methods := [], Headers := [], Risk := [], Tags := [] } := by
  have hk : keyOf lib ep.URL = some (u.Host ++ (normalizePath u.Path).1) := by
    simp [keyOf, hu]
  refine ⟨⟨ep, u, ?_, hu, rfl, rfl, rfl, rfl, rfl, rfl, rfl⟩, ⟨rfl, rfl, rfl, rfl⟩,
    names_extractQueryParams_nodup lib ord u, fun name => ?_⟩
  · rw [List.find?_append]
    have hnone : l.find? (fun ep1 =>
        decide (keyOf lib ep1.URL = some (u.Host ++ (normalizePath u.Path).1))) = none := by
      rw [List.find?_eq_none]
      intro ep1 h1
      simpa using hnew ep1 h1
    rw [hnone]
    simp [List.find?_cons, hk]
  · show paramExample (extractQueryParams lib ord u) name = _
    rw [paramExample_extractQueryParams, firstExample_append, firstExample_eq_none _ _ _ _ hnew]
    simp only [hk, if_true, firstValue, hu]

/-- The invariant of the loop of `Normalize`: the keys of the map are distinct, they are the
keys of the parseable inputs, and each entry is the record described by `EntryOK`. -/
theorem normalizedMap_spec (lib : NetURL) (ord : MapOrder) (l : List Endpoint) :
    ((normalizedMap lib ord l).map Prod.fst).Nodup ∧
      (∀ k, k ∈ (normalizedMap lib ord l).map Prod.fst ↔ k ∈ inputKeys lib l) ∧
      ∀ k e, mapGet (normalizedMap lib ord l) k = some e → EntryOK lib l k e := by
  induction l using List.reverseRecOn with
  | nil =>
    refine ⟨List.nodup_nil, fun k => by simp [normalizedMap, inputKeys], ?_⟩
    intro k e h
    simp [normalizedMap, mapGet] at h
  | append_singleton l ep ih =>
    obtain ⟨hnd, hkeys, hent⟩ := ih
    have hstep : normalizedMap lib ord (l ++ [ep]) =
        normalizeStep lib ord (normalizedMap lib ord l) ep := by
      simp [normalizedMap, List.foldl_append]
    rw [hstep, inputKeys_append]
    unfold normalizeStep
    cases hu : lib.Parse ep.URL with
    | none =>
      have hk : keyOf lib ep.URL = none := by simp [keyOf, hu]
      simp only [hk, Option.toList, List.append_nil]
      refine ⟨hnd, hkeys, fun k e h => ?_⟩
      exact EntryOK_append_other lib l k e ep (by rw [hk]; exact fun c => Option.noConfusion c)
        (hent k e h)
    | some u =>
      have hk : keyOf lib ep.URL = some (u.Host ++ (normalizePath u.Path).1) := by
        simp [keyOf, hu]
      simp only [hk, Option.toList]
      cases hg : mapGet (normalizedMap lib ord l) (u.Host ++ (normalizePath u.Path).1) with
      | some existing =>
        have hin : u.Host ++ (normalizePath u.Path).1 ∈ (normalizedMap lib ord l).map Prod.fst := by
          rw [← mapGet_isSome_iff, hg]; rfl
        simp only
        refine ⟨keys_nodup_mapSet _ _ _ hnd, fun k => ?_, fun k e h => ?_⟩
        · rw [keys_mapSet, if_pos hin, List.mem_append, List.mem_singleton, ← hkeys k]
          constructor
          · exact Or.inl
          · rintro (h | h)
            · exact h
            · rw [h]; exact hin
        · rw [mapGet_mapSet] at h
          by_cases hkk : u.Host ++ (normalizePath u.Path).1 = k
          · rw [if_pos hkk] at h
            cases h
            rw [← hkk]
            exact EntryOK_merge lib ord l _ existing ep u hu hk (hent _ _ hg)
          · rw [if_neg hkk] at h
            refine EntryOK_append_other lib l k e ep ?_ (hent k e h)
            rw [hk]
            exact fun c => hkk (Option.some.inj c)
      | none =>
        have hnin : u.Host ++ (normalizePath u.Path).1 ∉ (normalizedMap lib ord l).map Prod.fst :=
          (mapGet_eq_none_iff _ _).1 hg
        simp only
        refine ⟨keys_nodup_mapSet _ _ _ hnd, fun k => ?_, fun k e h => ?_⟩
        · rw [keys_mapSet, if_neg hnin, List.mem_append, List.mem_append, hkeys k]
        · rw [mapGet_mapSet] at h
          by_cases hkk : u.Host ++ (normalizePath u.Path).1 = k
          · rw [if_pos hkk] at h
            cases h
            rw [← hkk]
            refine EntryOK_new lib ord l ep u hu ?_
            intro ep1 h1 hc
            exact hnin ((hkeys _).2 ((mem_inputKeys lib l _).2 ⟨ep1, h1, hc⟩))
          · rw [if_neg hkk] at h
            refine EntryOK_append_other lib l k e ep ?_ (hent k e h)
            rw [hk]
            exact fun c => hkk (Option.some.inj c)

/-! ## The output of `Normalize` -/

theorem EntryOK.parse {lib : NetURL} {l : List Endpoint} {k : Str} {e : Endpoint}
    (h : EntryOK lib l k e) :
    ∃ u, lib.Parse e.URL = some u ∧ k = u.Host ++ e.NormalizedPath := by
  obtain ⟨ep0, u, -, hu, hk, hurl, -, hnp, -⟩ := h.first
  exact ⟨u, by rw [hurl]; exact hu, by rw [hnp]; exact hk⟩

theorem EntryOK.keyOf_eq {lib : NetURL} {l : List Endpoint} {k : Str} {e : Endpoint}
    (h : EntryOK lib l k e) : keyOf lib e.URL = some k := by
  obtain ⟨ep0, u, -, hu, hk, hurl, -⟩ := h.first
  rw [hurl]
  simp [keyOf, hu, hk]

/-- Every entry of the map is the record of its key. -/
theorem normalizedMap_entry (lib : NetURL) (ord : MapOrder) (l : List Endpoint)
    (x : Str × Endpoint) (hx : x ∈ normalizedMap lib ord l) : EntryOK lib l x.1 x.2 := by
  obtain ⟨hnd, -, hent⟩ := normalizedMap_spec lib ord l
  exact hent x.1 x.2 (mapGet_of_mem _ _ _ hnd hx)

/-- The output of `Normalize` is the list of the values of the map, in some order. -/
theorem Normalize_perm (lib : NetURL) (ord : MapOrder) (l : List Endpoint) :
    (Normalize lib ord l).Perm ((normalizedMap lib ord l).map Prod.snd) :=
  (ord.perm (normalizedMap lib ord l)).map Prod.snd

/-- In a map whose entries carry their own key, the values filed under `k` are the value read
at `k`. -/
theorem filter_values_eq (key : Endpoint → Option Str) (m : List (Str × Endpoint)) (k : Str)
    (hnd : (m.map Prod.fst).Nodup) (hkey : ∀ x ∈ m, key x.2 = some x.1) :
    (m.map Prod.snd).filter (fun e => key e = some k) = (mapGet m k).toList := by
  induction m with
  | nil => rfl
  | cons a rest ih =>
    obtain ⟨ka, ea⟩ := a
    simp only [List.map_cons, List.nodup_cons] at hnd
    have hrest := ih hnd.2 (fun x hx => hkey x (List.mem_cons_of_mem _ hx))
    have ha : key ea = some ka := hkey (ka, ea) (List.mem_cons_self _ _)
    simp only [List.map_cons, List.filter_cons, ha, mapGet]
    by_cases h : ka = k
    · subst h
      have hnone : mapGet rest ka = none := (mapGet_eq_none_iff rest ka).2 hnd.1
      rw [hnone] at hrest
      simp only [decide_True, if_true, hrest]
      rfl
    · have h2 : ¬ some ka = some k := fun c => h (Option.some.inj c)
      simp only [h2, decide_False, h, if_false]
      exact hrest

/-- No two endpoints of the output of `Normalize` have both the same host (that of their
URL) and the same `NormalizedPath`; and the number of endpoints is the number of distinct
canonical keys (`host + normalizedPath`) among the parseable input URLs. -/
theorem Normalize_one_per_key (lib : NetURL) (ord : MapOrder) (eps : List Endpoint) :
    (Normalize lib ord eps).Pairwise
        (fun x y => ¬ (hostOf lib x.URL = hostOf lib y.URL ∧
          x.NormalizedPath = y.NormalizedPath)) ∧
      (Normalize lib ord eps).length = (inputKeys lib eps).dedup.length := by
  obtain ⟨hnd, hkeys, -⟩ := normalizedMap_spec lib ord eps
  constructor
  · have hsymm : Symmetric (fun (x y : Endpoint) =>
        ¬ (hostOf lib x.URL = hostOf lib y.URL ∧ x.NormalizedPath = y.NormalizedPath)) := by
      intro x y h c
      exact h ⟨c.1.symm, c.2.symm⟩
    rw [(Normalize_perm lib ord eps).pairwise_iff (fun {x y} h => hsymm h), List.pairwise_map]
    have hpw : (normalizedMap lib ord eps).Pairwise (fun x y => x.1 ≠ y.1) := by
      rw [← List.pairwise_map (f := Prod.fst) (R := fun a b => a ≠ b)]
      exact hnd
    refine hpw.imp_of_mem ?_
    intro x y hx hy hne c
    obtain ⟨ux, hux, hkx⟩ := (normalizedMap_entry lib ord eps x hx).parse
    obtain ⟨uy, huy, hky⟩ := (normalizedMap_entry lib ord eps y hy).parse
    apply hne
    have hh : ux.Host = uy.Host := by
      have := c.1
      simp only [hostOf, hux, huy, Option.map_some', Option.some.injEq] at this
      exact this
    rw [hkx, hky, hh, c.2]
  · rw [(Normalize_perm lib ord eps).length_eq, List.length_map,
      ← List.length_map (normalizedMap lib ord eps) Prod.fst]
    apply List.Perm.length_eq
    rw [List.perm_ext_iff_of_nodup hnd (List.nodup_dedup _)]
    intro k
    rw [hkeys k, List.mem_dedup]

/-! ## Sorting -/

theorem insertSorted_perm {α : Type} (less : α → α → Bool) (x : α) (acc : List α) :
    (insertSorted less x acc).Perm (x :: acc) := by
  induction acc with
  | nil => exact List.Perm.refl _
  | cons y t ih =>
    unfold insertSorted
    split_ifs
    · exact List.Perm.refl _
    · exact (List.Perm.cons y ih).trans (List.Perm.swap x y t)

theorem sortFold_perm {α : Type} (less : α → α → Bool) (l acc : List α) :
    (l.foldl (fun acc x => insertSorted less x acc) acc).Perm (acc ++ l) := by
  induction l generalizing acc with
  | nil => simp
  | cons x rest ih =>
    simp only [List.foldl_cons]
    refine (ih _).trans ?_
    refine ((insertSorted_perm less x acc).append_right rest).trans ?_
    simp only [List.cons_append]
    exact List.perm_middle.symm

theorem sortSlice_perm {α : Type} (less : α → α → Bool) (l : List α) :
    (sortSlice less l).Perm l := by
  have h := sortFold_perm less l []
  simpa [sortSlice] using h

theorem insertSorted_sorted {α : Type} (key : α → Str) (x : α) (acc : List α)
    (h : (acc.map key).Sorted (· ≤ ·)) :
    ((insertSorted (fun a b => decide (key a < key b)) x acc).map key).Sorted (· ≤ ·) := by
  induction acc with
  | nil => simp [insertSorted]
  | cons y t ih =>
    unfold insertSorted
    simp only [List.map_cons, List.sorted_cons] at h
    by_cases hlt : key x < key y
    · simp only [hlt, decide_True, if_true, List.map_cons, List.sorted_cons]
      refine ⟨?_, h⟩
      intro b hb
      rcases List.mem_cons.1 hb with hb | hb
      · rw [hb]; exact le_of_lt hlt
      · exact le_trans (le_of_lt hlt) (h.1 b hb)
    · simp only [hlt, decide_False, Bool.false_eq_true, if_false, List.map_cons,
        List.sorted_cons]
      refine ⟨?_, ih h.2⟩
      intro b hb
      have hb2 : b ∈ (x :: t).map key :=
        ((insertSorted_perm _ x t).map key).mem_iff.1 hb
      rcases List.mem_cons.1 hb2 with hb3 | hb3
      · rw [hb3]; exact not_lt.1 hlt
      · exact h.1 b hb3

theorem sortFold_sorted {α : Type} (key : α → Str) (l acc : List α)
    (h : (acc.map key).Sorted (· ≤ ·)) :
    ((l.foldl (fun acc x => insertSorted (fun a b => decide (key a < key b)) x acc) acc).map
      key).Sorted (· ≤ ·) := by
  induction l generalizing acc with
  | nil => exact h
  | cons x rest ih =>
    simp only [List.foldl_cons]
    exact ih _ (insertSorted_sorted key x acc h)

theorem sortSlice_sorted {α : Type} (key : α → Str) (l : List α) :
    ((sortSlice (fun a b => decide (key a < key b)) l).map key).Sorted (· ≤ ·) :=
  sortFold_sorted key l [] (by simp)

/-- Sorting by a key yields a key sequence that depends only on the multiset of the keys. -/
theorem sortSlice_keys_eq {α : Type} (key : α → Str) (l1 l2 : List α)
    (h : (l1.map key).Perm (l2.map key)) :
    (sortSlice (fun a b => decide (key a < key b)) l1).map key =
      (sortSlice (fun a b => decide (key a < key b)) l2).map key := by
  apply List.eq_of_perm_of_sorted (r := (· ≤ ·)) _ (sortSlice_sorted key l1)
    (sortSlice_sorted key l2)
  exact (((sortSlice_perm _ l1).map key).trans h).trans ((sortSlice_perm _ l2).map key).symm

/-! ## Grouping -/

theorem groups_keys_nodup (eps : List Endpoint) (m : List (Str × List Endpoint))
    (h : (m.map Prod.fst).Nodup) : ((eps.foldl groupAdd m).map Prod.fst).Nodup := by
  induction eps generalizing m with
  | nil => exact h
  | cons e rest ih =>
    simp only [List.foldl_cons]
    exact ih _ (keys_nodup_mapSet m _ _ h)

theorem mapGet_groupsFold (n : Str) (eps : List Endpoint) (m : List (Str × List Endpoint)) :
    mapGet (eps.foldl groupAdd m) n =
      match mapGet m n with
      | some es => some (es ++ eps.filter (fun e => extractGroupName e.NormalizedPath = n))
      | none =>
        match eps.filter (fun e => extractGroupName e.NormalizedPath = n) with
        | [] => none
        | e :: es => some (e :: es) := by
  induction eps generalizing m with
  | nil =>
    cases h : mapGet m n <;> simp [h]
  | cons e rest ih =>
    simp only [List.foldl_cons]
    rw [ih]
    unfold groupAdd
    simp only
    rw [mapGet_mapSet]
    by_cases hk : extractGroupName e.NormalizedPath = n
    · subst hk
      simp only [if_true, List.filter_cons, decide_True]
      cases h : mapGet m (extractGroupName e.NormalizedPath) with
      | none => simp
      | some vs => simp
    · simp only [hk, if_false, List.filter_cons, decide_False]
      rfl

/-- The slice kept under a group name is the list of the endpoints of that group, in input
order. -/
theorem groups_entry (eps : List Endpoint) (x : Str × List Endpoint)
    (hx : x ∈ eps.foldl groupAdd []) :
    x.2 = eps.filter (fun e => extractGroupName e.NormalizedPath = x.1) := by
  have hnd := groups_keys_nodup eps [] List.nodup_nil
  have hget := mapGet_of_mem _ x.1 x.2 hnd hx
  rw [mapGet_groupsFold] at hget
  simp only [mapGet] at hget
  split at hget
  · exact Option.noConfusion hget
  · next e es heq =>
    rw [heq]
    exact (Option.some.inj hget).symm

theorem mem_groups_keys (eps : List Endpoint) (n : Str) :
    n ∈ (eps.foldl groupAdd []).map Prod.fst ↔
      n ∈ (eps.map fun e => e.NormalizedPath).map extractGroupName := by
  rw [← mapGet_isSome_iff, mapGet_groupsFold]
  simp only [mapGet, List.mem_map, exists_exists_and_eq_and]
  constructor
  · intro h
    split at h
    · exact Bool.noConfusion h
    · next e es heq =>
      have he : e ∈ eps.filter (fun e => extractGroupName e.NormalizedPath = n) := by
        rw [heq]; exact List.mem_cons_self _ _
      rw [List.mem_filter] at he
      exact ⟨e, he.1, by simpa using he.2⟩
  · rintro ⟨e, he, hn⟩
    have hmem : e ∈ eps.filter (fun e => extractGroupName e.NormalizedPath = n) :=
      List.mem_filter.2 ⟨he, by simpa using hn⟩
    split
    · next heq => rw [heq] at hmem; exact absurd hmem (List.not_mem_nil _)
    · rfl

/-- The shape of the output of `GroupEndpoints`: the names are sorted, they are the keys of
the map of groups, and each group holds, sorted by normalized path, the endpoints of the
input that have its name. -/
theorem GroupEndpoints_spec (ord : MapOrder) (eps : List Endpoint) :
    ((GroupEndpoints ord eps).map fun g => g.Name).Sorted (· ≤ ·) ∧
      ((GroupEndpoints ord eps).map fun g => g.Name).Perm
        ((eps.foldl groupAdd []).map Prod.fst) ∧
      ∀ g ∈ GroupEndpoints ord eps,
        g.Endpoints = sortSlice (fun a b => decide (a.NormalizedPath < b.NormalizedPath))
          (eps.filter (fun e => extractGroupName e.NormalizedPath = g.Name)) := by
  unfold GroupEndpoints
  simp only
  refine ⟨sortSlice_sorted (fun g : EndpointGroup => g.Name) _, ?_, ?_⟩
  · refine ((sortSlice_perm _ _).map _).trans ?_
    rw [List.map_map]
    exact (ord.perm (eps.foldl groupAdd [])).map _
  · intro g hg
    have hg2 := (sortSlice_perm _ _).mem_iff.1 hg
    obtain ⟨x, hx, rfl⟩ := List.mem_map.1 hg2
    have hx2 := (ord.perm (eps.foldl groupAdd [])).mem_iff.1 hx
    simp only
    rw [← groups_entry eps x hx2]

/-- The outline of the groups depends only on the multiset of the normalized paths, when the
methods of every endpoint are those inferred from its normalized path. -/
theorem GroupEndpoints_outline_eq (ord1 ord2 : MapOrder) (e1 e2 : List Endpoint)
    (hnp : (e1.map fun e => e.NormalizedPath).Perm (e2.map fun e => e.NormalizedPath))
    (hm1 : ∀ e ∈ e1, e.Methods = inferMethodsForPath e.NormalizedPath)
    (hm2 : ∀ e ∈ e2, e.Methods = inferMethodsForPath e.NormalizedPath) :
    (GroupEndpoints ord1 e1).map outline = (GroupEndpoints ord2 e2).map outline := by
  obtain ⟨hs1, hp1, hg1⟩ := GroupEndpoints_spec ord1 e1
  obtain ⟨hs2, hp2, hg2⟩ := GroupEndpoints_spec ord2 e2
  have hkeys : ((e1.foldl groupAdd []).map Prod.fst).Perm ((e2.foldl groupAdd []).map Prod.fst) := by
    rw [List.perm_ext_iff_of_nodup (groups_keys_nodup e1 [] List.nodup_nil)
      (groups_keys_nodup e2 [] List.nodup_nil)]
    intro n
    rw [mem_groups_keys, mem_groups_keys]
    exact (hnp.map extractGroupName).mem_iff
  have hnames : ((GroupEndpoints ord1 e1).map fun g => g.Name) =
      ((GroupEndpoints ord2 e2).map fun g => g.Name) :=
    List.eq_of_perm_of_sorted (r := (· ≤ ·)) ((hp1.trans hkeys).trans hp2.symm) hs1 hs2
  have houtline : ∀ (ord : MapOrder) (eps : List Endpoint),
      (∀ e ∈ eps, e.Methods = inferMethodsForPath e.NormalizedPath) →
      (GroupEndpoints ord eps).map outline =
        ((GroupEndpoints ord eps).map fun g => g.Name).map fun n =>
          (n, ((sortSlice (fun a b => decide (a.NormalizedPath < b.NormalizedPath))
            (eps.filter (fun e => extractGroupName e.NormalizedPath = n))).map
              fun e => e.NormalizedPath).map fun q => (q, inferMethodsForPath q)) := by
    intro ord eps hm
    rw [List.map_map]
    apply List.map_congr_left
    intro g hg
    simp only [outline, Function.comp]
    rw [(GroupEndpoints_spec ord eps).2.2 g hg, List.map_map]
    congr 1
    apply List.map_congr_left
    intro e he
    have he2 := (sortSlice_perm _ _).mem_iff.1 he
    have he3 := (List.mem_filter.1 he2).1
    simp only [Function.comp, hm e he3]
  rw [houtline ord1 e1 hm1, houtline ord2 e2 hm2, hnames]
  apply List.map_congr_left
  intro n _
  congr 2
  apply sortSlice_keys_eq (fun e : Endpoint => e.NormalizedPath)
  have hf : ∀ eps : List Endpoint,
      (eps.filter (fun e => extractGroupName e.NormalizedPath = n)).map (fun e => e.NormalizedPath) =
        (eps.map fun e => e.NormalizedPath).filter (fun q => extractGroupName q = n) := by
    intro eps
    induction eps with
    | nil => rfl
    | cons e rest ih =>
      by_cases h : extractGroupName e.NormalizedPath = n
      · simp [List.filter_cons, h, ih]
      · simp [List.filter_cons, h, ih]
  rw [hf e1, hf e2]
  exact hnp.filter _

/-! ## Determinism -/

theorem inputKeys_perm (lib : NetURL) (l1 l2 : List Endpoint) (h : l1.Perm l2) :
    (inputKeys lib l1).Perm (inputKeys lib l2) :=
  h.filterMap _

/-- The normalized path kept under a key is that of any input of the key, when the keys do
not clash. -/
theorem EntryOK.normalizedPath_eq {lib : NetURL} {l : List Endpoint} {k : Str} {e : Endpoint}
    (h : EntryOK lib l k e) (l1 : List Endpoint) (hsub : ∀ ep ∈ l, ep ∈ l1)
    (hsep : KeysSeparate lib l1) (a : Endpoint) (ha : a ∈ l1)
    (hka : keyOf lib a.URL = some k) :
    some e.NormalizedPath = normalizedPathOf lib a.URL := by
  obtain ⟨ep0, u, hfind, hu, hk, -, -, hnp, -⟩ := h.first
  have hmem : ep0 ∈ l := List.mem_of_find?_eq_some hfind
  have hk0 : keyOf lib ep0.URL = some k := by simp [keyOf, hu, hk]
  have := hsep ep0 (hsub ep0 hmem) a ha (hk0.trans hka.symm)
  rw [← this]
  simp [normalizedPathOf, hu, hnp]

/-- The normalized paths of the output of `Normalize` are the same multiset for two inputs
that are permutations of one another, when the keys do not clash. -/
theorem Normalize_paths_perm (lib : NetURL) (ord1 ord2 : MapOrder) (l1 l2 : List Endpoint)
    (hperm : l1.Perm l2) (hsep : KeysSeparate lib l1) :
    ((Normalize lib ord1 l1).map fun e => e.NormalizedPath).Perm
      ((Normalize lib ord2 l2).map fun e => e.NormalizedPath) := by
  obtain ⟨hnd1, hkeys1, -⟩ := normalizedMap_spec lib ord1 l1
  obtain ⟨hnd2, hkeys2, -⟩ := normalizedMap_spec lib ord2 l2
  -- the normalized path of a key, read from the first list
  let f : Str → Str := fun k =>
    match l1.find? (fun ep => keyOf lib ep.URL = some k) with
    | some a => (normalizedPathOf lib a.URL).getD []
    | none => []
  have hf : ∀ (ord : MapOrder) (l : List Endpoint), (∀ ep ∈ l, ep ∈ l1) →
      ∀ x ∈ normalizedMap lib ord l, x.2.NormalizedPath = f x.1 := by
    intro ord l hsub x hx
    have hok := normalizedMap_entry lib ord l x hx
    obtain ⟨ep0, u, hfind, hu, hk, -⟩ := hok.first
    have hmem : ep0 ∈ l1 := hsub ep0 (List.mem_of_find?_eq_some hfind)
    have hk0 : keyOf lib ep0.URL = some x.1 := by simp [keyOf, hu, hk]
    cases hfind1 : l1.find? (fun ep => decide (keyOf lib ep.URL = some x.1)) with
    | none =>
      rw [List.find?_eq_none] at hfind1
      exact absurd (by simpa using hk0) (hfind1 ep0 hmem)
    | some a =>
      have ha : a ∈ l1 := List.mem_of_find?_eq_some hfind1
      have hka : keyOf lib a.URL = some x.1 := by simpa using List.find?_some hfind1
      have := hok.normalizedPath_eq l1 hsub hsep a ha hka
      simp only [f, hfind1, ← this, Option.getD_some]
  have hmap : ∀ (ord : MapOrder) (l : List Endpoint), (∀ ep ∈ l, ep ∈ l1) →
      ((Normalize lib ord l).map fun e => e.NormalizedPath).Perm
        (((normalizedMap lib ord l).map Prod.fst).map f) := by
    intro ord l hsub
    refine ((Normalize_perm lib ord l).map _).trans ?_
    rw [List.map_map, List.map_map]
    rw [List.map_congr_left (fun x hx => by
      show ((fun e : Endpoint => e.NormalizedPath) ∘ Prod.snd) x = (f ∘ Prod.fst) x
      exact hf ord l hsub x hx)]
  have hkeys : ((normalizedMap lib ord1 l1).map Prod.fst).Perm
      ((normalizedMap lib ord2 l2).map Prod.fst) := by
    rw [List.perm_ext_iff_of_nodup hnd1 hnd2]
    intro k
    rw [hkeys1 k, hkeys2 k]
    exact (inputKeys_perm lib l1 l2 hperm).mem_iff
  exact ((hmap ord1 l1 (fun _ h => h)).trans (hkeys.map f)).trans
    (hmap ord2 l2 (fun ep h => hperm.mem_iff.2 h)).symm

theorem Normalize_methods_nil (lib : NetURL) (ord : MapOrder) (l : List Endpoint) :
    ∀ e ∈ Normalize lib ord l, e.Methods = [] := by
  intro e he
  have he2 := (Normalize_perm lib ord l).mem_iff.1 he
  obtain ⟨x, hx, rfl⟩ := List.mem_map.1 he2
  exact (normalizedMap_entry lib ord l x hx).fresh.1

theorem classify_paths (eps : List Endpoint) :
    (TagEndpoints (InferMethods eps)).map (fun e => e.NormalizedPath) =
      eps.map fun e => e.NormalizedPath := by
  unfold TagEndpoints InferMethods
  rw [List.map_map, List.map_map]
  apply List.map_congr_left
  intro e _
  simp only [Function.comp, tagEndpoint]
  split_ifs <;> rfl

theorem classify_methods (eps : List Endpoint) (h : ∀ e ∈ eps, e.Methods = []) :
    ∀ e ∈ TagEndpoints (InferMethods eps), e.Methods = inferMethodsForPath e.NormalizedPath := by
  intro e he
  unfold TagEndpoints InferMethods at he
  rw [List.map_map] at he
  obtain ⟨x, hx, rfl⟩ := List.mem_map.1 he
  simp only [Function.comp, tagEndpoint, h x hx, List.length_nil, if_true]

set_option maxRecDepth 100000 in
/-- Claim C5, as stated, fails: the lists `[.../users/42, .../users/77]` and
`[.../users/77, .../users/42]` are permutations of one another, but the one endpoint of the
output keeps the URL that comes first, so the two outputs differ. -/
theorem C5_counterexample :
    List.Perm
        [Endpoint.bare "https://x.com/users/42".toList,
         Endpoint.bare "https://x.com/users/77".toList]
        [Endpoint.bare "https://x.com/users/77".toList,
         Endpoint.bare "https://x.com/users/42".toList] ∧
      pipeline goURL MapOrder.insertion
          [Endpoint.bare "https://x.com/users/42".toList,
           Endpoint.bare "https://x.com/users/77".toList] ≠
        pipeline goURL MapOrder.insertion
          [Endpoint.bare "https://x.com/users/77".toList,
           Endpoint.bare "https://x.com/users/42".toList] :=
  ⟨List.Perm.swap _ _ _, by decide⟩

/-- Claim C5, amended.  For two input lists that are permutations of one another and whose
canonical keys do not clash, the pipeline `Normalize`, `InferMethods`, `TagEndpoints`,
`GroupEndpoints` yields, whatever the iteration orders of the maps, the same group names
in the same order, each group holding endpoints with the same normalized paths and the
same methods in the same order. -/
theorem C5_outline_deterministic (lib : NetURL) (ord1 ord2 : MapOrder) (l1 l2 : List Endpoint)
    (hperm : l1.Perm l2) (hsep : KeysSeparate lib l1) :
    (pipeline lib ord1 l1).map outline = (pipeline lib ord2 l2).map outline := by
  unfold pipeline
  apply GroupEndpoints_outline_eq
  · rw [classify_paths, classify_paths]
    exact Normalize_paths_perm lib ord1 ord2 l1 l2 hperm hsep
  · exact classify_methods _ (Normalize_methods_nil lib ord1 l1)
  · exact classify_methods _ (Normalize_methods_nil lib ord2 l2)

set_option maxRecDepth 100000 in
set_option maxHeartbeats 4000000 in
/-- Witness of C5: three URLs, two of them of one key, given in two orders and with the maps
visited in two orders. -/
theorem C5_outline_deterministic_witness :
    (pipeline goURL MapOrder.insertion
        [Endpoint.bare "https://x.com/users/42".toList,
         Endpoint.bare "https://x.com/admin/login".toList,
         Endpoint.bare "https://x.com/users/77?active=true".toList]).map outline =
      (pipeline goURL MapOrder.reversed
        [Endpoint.bare "https://x.com/users/77?active=true".toList,
         Endpoint.bare "https://x.com/users/42".toList,
         Endpoint.bare "https://x.com/admin/login".toList]).map outline :=
  C5_outline_deterministic goURL MapOrder.insertion MapOrder.reversed _ _
    (by decide) (by decide)

/-! ## Detectors match whole segments -/

open regexp in
theorem mem_starFrom (p : Char → Bool) (t r : Str) (h : r ∈ starFrom p t) :
    ∃ pre, t = pre ++ r ∧ ∀ c ∈ pre, p c = true := by
  induction t with
  | nil =>
    simp only [starFrom, List.mem_singleton] at h
    exact ⟨[], by simp [h], by simp⟩
  | cons c t ih =>
    unfold starFrom at h
    by_cases hp : p c = true
    · simp only [hp, if_true, List.mem_append, List.mem_singleton] at h
      rcases h with h | h
      · obtain ⟨pre, hpre, hall⟩ := ih h
        refine ⟨c :: pre, by simp [hpre], ?_⟩
        intro x hx
        rcases List.mem_cons.1 hx with rfl | hx
        · exact hp
        · exact hall x hx
      · exact ⟨[], by simp [h], by simp⟩
    · simp only [hp, Bool.false_eq_true, if_false, List.mem_singleton] at h
      exact ⟨[], by simp [h], by simp⟩

open regexp in
theorem starFrom_append (p : Char → Bool) (pre rest : Str) (h : ∀ c ∈ pre, p c = true) :
    rest ∈ starFrom p (pre ++ rest) := by
  induction pre with
  | nil =>
    cases rest with
    | nil => simp [starFrom]
    | cons c t =>
      simp only [List.nil_append, starFrom]
      split_ifs <;> simp
  | cons c pre ih =>
    simp only [List.cons_append, starFrom, h c (List.mem_cons_self _ _), if_true,
      List.mem_append]
    exact Or.inl (ih (fun x hx => h x (List.mem_cons_of_mem _ hx)))

open regexp in
/-- What a slash-free expression matches is a slash-free prefix of the input, and it matches
that prefix whatever follows it. -/
theorem slashFree_local (a : Re) (ha : slashFree a = true) (t : Str) (caps : Caps)
    (x : Str × Caps) (hx : x ∈ run a t caps) :
    ∃ pre, t = pre ++ x.1 ∧ '/' ∉ pre ∧
      ∀ (rest1 : Str) (caps1 : Caps), ∃ caps2, (rest1, caps2) ∈ run a (pre ++ rest1) caps1 := by
  induction a generalizing t caps x with
  | chr p =>
    simp only [slashFree, Bool.not_eq_true'] at ha
    cases t with
    | nil => simp [run] at hx
    | cons c r =>
      simp only [run] at hx
      by_cases hp : p c = true
      · simp only [hp, if_true, List.mem_singleton] at hx
        subst hx
        refine ⟨[c], rfl, ?_, ?_⟩
        · intro hc
          rw [List.mem_singleton] at hc
          rw [← hc, ha] at hp
          exact Bool.noConfusion hp
        · intro rest1 caps1
          exact ⟨caps1, by simp [run, hp]⟩
      · simp [hp] at hx
  | eol => simp [slashFree] at ha
  | eps =>
    simp only [run, List.mem_singleton] at hx
    subst hx
    exact ⟨[], rfl, by simp, fun rest1 caps1 => ⟨caps1, by simp [run]⟩⟩
  | cat a b iha ihb =>
    simp only [slashFree, Bool.and_eq_true] at ha
    simp only [run, List.mem_flatMap] at hx
    obtain ⟨y, hy, hx⟩ := hx
    obtain ⟨pa, hta, hsa, hra⟩ := iha ha.1 t caps y hy
    obtain ⟨pb, htb, hsb, hrb⟩ := ihb ha.2 y.1 y.2 x hx
    refine ⟨pa ++ pb, by rw [hta, htb, List.append_assoc], ?_, ?_⟩
    · intro hc
      rcases List.mem_append.1 hc with hc | hc
      · exact hsa hc
      · exact hsb hc
    · intro rest1 caps1
      obtain ⟨c2, h2⟩ := hra (pb ++ rest1) caps1
      obtain ⟨c3, h3⟩ := hrb rest1 c2
      refine ⟨c3, ?_⟩
      simp only [run, List.mem_flatMap, List.append_assoc]
      exact ⟨(pb ++ rest1, c2), h2, h3⟩
  | alt a b iha ihb =>
    simp only [slashFree, Bool.and_eq_true] at ha
    simp only [run, List.mem_append] at hx
    rcases hx with hx | hx
    · obtain ⟨pa, hta, hsa, hra⟩ := iha ha.1 t caps x hx
      refine ⟨pa, hta, hsa, fun rest1 caps1 => ?_⟩
      obtain ⟨c2, h2⟩ := hra rest1 caps1
      exact ⟨c2, by simp only [run, List.mem_append]; exact Or.inl h2⟩
    · obtain ⟨pb, htb, hsb, hrb⟩ := ihb ha.2 t caps x hx
      refine ⟨pb, htb, hsb, fun rest1 caps1 => ?_⟩
      obtain ⟨c2, h2⟩ := hrb rest1 caps1
      exact ⟨c2, by simp only [run, List.mem_append]; exact Or.inr h2⟩
  | star p =>
    simp only [slashFree, Bool.not_eq_true'] at ha
    simp only [run, List.mem_map] at hx
    obtain ⟨r, hr, rfl⟩ := hx
    obtain ⟨pre, hpre, hall⟩ := mem_starFrom p t r hr
    refine ⟨pre, hpre, ?_, fun rest1 caps1 => ?_⟩
    · intro hc
      have := hall _ hc
      rw [ha] at this
      exact Bool.noConfusion this
    · exact ⟨caps1, by
        simp only [run, List.mem_map]
        exact ⟨rest1, starFrom_append p pre rest1 hall, rfl⟩⟩
  | group n a iha =>
    simp only [slashFree] at ha
    simp only [run, List.mem_map] at hx
    obtain ⟨y, hy, rfl⟩ := hx
    obtain ⟨pa, hta, hsa, hra⟩ := iha ha t caps y hy
    refine ⟨pa, hta, hsa, fun rest1 caps1 => ?_⟩
    obtain ⟨c2, h2⟩ := hra rest1 caps1
    exact ⟨_, by
      simp only [run, List.mem_map]
      exact ⟨(rest1, c2), h2, rfl⟩⟩

open regexp in
/-- What the body of a detector matches is a slash-free segment followed by a slash or by the
end of the text, and the body matches that segment followed by a slash. -/
theorem SegLike_local (r : Re) (hr : SegLike r) (t : Str) (caps : Caps)
    (h : run r t caps ≠ []) :
    ∃ seg rest, t = seg ++ rest ∧ '/' ∉ seg ∧ (rest = [] ∨ ∃ r1, rest = '/' :: r1) ∧
      ∀ caps1, run r (seg ++ ['/']) caps1 ≠ [] := by
  induction hr generalizing t caps with
  | done n =>
    refine ⟨[], t, rfl, by simp, ?_, fun caps1 => by simp [segEnd, run, Re.char]⟩
    cases t with
    | nil => exact Or.inl rfl
    | cons c t1 =>
      right
      by_cases hc : c = '/'
      · exact ⟨t1, by rw [hc]⟩
      · exfalso
        apply h
        simp [segEnd, run, Re.char, hc]
  | step a r1 ha _ ih =>
    simp only [run] at h
    obtain ⟨x, hx⟩ := List.exists_mem_of_ne_nil _ h
    rw [List.mem_flatMap] at hx
    obtain ⟨y, hy, hx⟩ := hx
    obtain ⟨pa, hta, hsa, hra⟩ := slashFree_local a ha t caps y hy
    obtain ⟨seg, rest, hseg, hns, hrest, hrun⟩ := ih y.1 y.2 (List.ne_nil_of_mem hx)
    refine ⟨pa ++ seg, rest, by rw [hta, hseg, List.append_assoc], ?_, hrest, fun caps1 => ?_⟩
    · intro hc
      rcases List.mem_append.1 hc with hc | hc
      · exact hsa hc
      · exact hns hc
    · obtain ⟨c2, h2⟩ := hra (seg ++ ['/']) caps1
      obtain ⟨z, hz⟩ := List.exists_mem_of_ne_nil _ (hrun c2)
      apply List.ne_nil_of_mem (a := z)
      simp only [run, List.mem_flatMap, List.append_assoc]
      exact ⟨(seg ++ ['/'], c2), h2, hz⟩

theorem Split_ne_nil (sep : Char) (s : Str) : strings.Split sep s ≠ [] := by
  cases s with
  | nil => simp [strings.Split]
  | cons c t =>
    unfold strings.Split
    split_ifs
    · simp
    · split <;> simp

theorem Split_append_sep (sep : Char) (a b : Str) :
    strings.Split sep (a ++ sep :: b) = strings.Split sep a ++ strings.Split sep b := by
  induction a with
  | nil => simp [strings.Split]
  | cons c a ih =>
    simp only [List.cons_append, strings.Split]
    by_cases hc : c = sep
    · simp [hc, ih]
    · simp only [hc, if_false, List.append_eq]
      rw [ih]
      cases hsplit : strings.Split sep a with
      | nil => exact absurd hsplit (Split_ne_nil sep a)
      | cons h r => rfl

theorem Split_of_not_mem (sep : Char) (seg : Str) (h : sep ∉ seg) :
    strings.Split sep seg = [seg] := by
  induction seg with
  | nil => rfl
  | cons c t ih =>
    have hc : ¬ c = sep := fun e => h (e ▸ List.mem_cons_self _ _)
    have ht : sep ∉ t := fun e => h (List.mem_cons_of_mem _ e)
    simp [strings.Split, hc, ih ht]

/-- A slash-free segment that stands after a slash, before a slash or the end, is a part of
the path at an index greater than zero. -/
theorem Split_part (pre seg rest : Str) (hseg : '/' ∉ seg)
    (hrest : rest = [] ∨ ∃ r1, rest = '/' :: r1) :
    ∃ i, 0 < i ∧ i < (strings.Split '/' (pre ++ '/' :: (seg ++ rest))).length ∧
      (strings.Split '/' (pre ++ '/' :: (seg ++ rest))).getD i [] = seg := by
  have hhead : ∃ more, strings.Split '/' (seg ++ rest) = seg :: more := by
    rcases hrest with h | ⟨r1, h⟩
    · subst h
      exact ⟨[], by rw [List.append_nil, Split_of_not_mem _ _ hseg]⟩
    · subst h
      exact ⟨strings.Split '/' r1, by rw [Split_append_sep, Split_of_not_mem _ _ hseg]; rfl⟩
  obtain ⟨more, hmore⟩ := hhead
  rw [Split_append_sep, hmore]
  refine ⟨(strings.Split '/' pre).length, ?_, ?_, ?_⟩
  · exact List.length_pos.2 (Split_ne_nil _ _)
  · simp
  · rw [List.getD_eq_getElem?_getD, List.getElem?_append_right (le_refl _)]
    simp

open regexp in
theorem matchAt_isSome_iff (re : Re) (t : Str) :
    (matchAt re t).isSome = true ↔ run re t [] ≠ [] := by
  unfold matchAt
  simp only [run]
  cases h : run re t [] with
  | nil => simp
  | cons a l => simp

open regexp in
/-- A detector that matches a path matches, between two slashes, one of the parts of the path
after part 0. -/
theorem detector_matches_part (r : Re) (hr : SegLike r) (path : Str)
    (h : MatchString (.cat (.char '/') r) path = true) :
    ∃ i, 0 < i ∧ i < (strings.Split '/' path).length ∧
      MatchString (.cat (.char '/') r)
        ('/' :: ((strings.Split '/' path).getD i [] ++ ['/'])) = true := by
  unfold MatchString at h
  rw [List.any_eq_true] at h
  obtain ⟨t, ht, hm⟩ := h
  rw [matchAt_isSome_iff] at hm
  rw [List.mem_tails] at ht
  obtain ⟨pre, hpre⟩ := ht
  -- the match starts with a slash
  cases t with
  | nil => simp [run, Re.char] at hm
  | cons c t1 =>
    by_cases hc : c = '/'
    · subst hc
      have hrun : run r t1 [] ≠ [] := by
        simpa [run, Re.char] using hm
      obtain ⟨seg, rest, hsplit, hns, hrest, hloc⟩ := SegLike_local r hr t1 [] hrun
      obtain ⟨i, hi0, hilen, hget⟩ := Split_part pre seg rest hns hrest
      rw [← hpre, hsplit]
      refine ⟨i, hi0, hilen, ?_⟩
      rw [hget]
      unfold MatchString
      rw [List.any_eq_true]
      refine ⟨'/' :: (seg ++ ['/']), ?_, ?_⟩
      · rw [List.mem_tails]
      · rw [matchAt_isSome_iff]
        have := hloc []
        simpa [run, Re.char] using this
    · exfalso
      apply hm
      simp [run, Re.char, hc]

open regexp in
theorem paramPatterns_segLike : ∀ pp ∈ paramPatterns,
    ∃ r, pp.pattern = .cat (.char '/') r ∧ SegLike r := by
  intro pp hpp
  simp only [paramPatterns, List.mem_cons, List.mem_singleton, List.not_mem_nil, or_false] at hpp
  rcases hpp with h | h | h | h | h <;> subst h
  · exact ⟨_, rfl, .step _ _ rfl (.done 1)⟩
  · exact ⟨_, rfl, .step _ _ rfl (.step _ _ rfl (.step _ _ rfl (.step _ _ rfl (.step _ _ rfl
      (.step _ _ rfl (.step _ _ rfl (.step _ _ rfl (.step _ _ rfl (.done 1)))))))))⟩
  · exact ⟨_, rfl, .step _ _ rfl (.done 1)⟩
  · exact ⟨_, rfl, .step _ _ rfl (.step _ _ rfl (.step _ _ rfl (.step _ _ rfl (.step _ _ rfl
      (.done 1)))))⟩
  · exact ⟨_, rfl, .step _ _ rfl (.step _ _ rfl (.step _ _ rfl (.done 2)))⟩

/-- The default name of a detector is never used: when a detector of the catalogue matches a
path, the name it infers is a part of the path without one trailing `s`, followed by `Id`. -/
theorem inferParamName_of_match (pp : ParamPattern) (hpp : pp ∈ paramPatterns) (path : Str)
    (h : regexp.MatchString pp.pattern path = true) :
    ∃ j, 0 < j ∧ j < (strings.Split '/' path).length ∧
      inferParamName pp.pattern (strings.Split '/' path) pp.name =
        strings.TrimSuffix ((strings.Split '/' path).getD (j - 1) []) "s".toList ++
          "Id".toList := by
  obtain ⟨r, hpat, hseg⟩ := paramPatterns_segLike pp hpp
  rw [hpat] at h ⊢
  obtain ⟨i, hi0, hilen, hm⟩ := detector_matches_part r hseg path h
  unfold inferParamName
  cases hfind : (List.range (strings.Split '/' path).length).find?
      (fun k => regexp.MatchString (.cat (.char '/') r)
        ('/' :: ((strings.Split '/' path).getD k [] ++ ['/'])) && decide (0 < k)) with
  | none =>
    rw [List.find?_eq_none] at hfind
    have := hfind i (List.mem_range.2 hilen)
    rw [hm] at this
    simp [hi0] at this
  | some j =>
    have hj := List.find?_some hfind
    have hjmem := List.mem_of_find?_eq_some hfind
    simp only [Bool.and_eq_true, decide_eq_true_eq] at hj
    exact ⟨j, hj.2, List.mem_range.1 hjmem, rfl⟩

/-- Every path parameter recorded by `normalizePath` has a name that ends in `Id`. -/
theorem normalizePath_names (path : Str) :
    ∀ prm ∈ (normalizePath path).2, ∃ resource, prm.Name = resource ++ "Id".toList := by
  have hfold : ∀ (pats : List ParamPattern) (st : Str × List Parameter),
      (∀ pp ∈ pats, pp ∈ paramPatterns) →
      (∀ prm ∈ st.2, ∃ resource, prm.Name = resource ++ "Id".toList) →
      ∀ prm ∈ (pats.foldl (normalizeWith path) st).2,
        ∃ resource, prm.Name = resource ++ "Id".toList := by
    intro pats
    induction pats with
    | nil => intro st _ hst; exact hst
    | cons pp rest ih =>
      intro st hpats hst
      simp only [List.foldl_cons]
      apply ih _ (fun q hq => hpats q (List.mem_cons_of_mem _ hq))
      unfold normalizeWith
      by_cases hm : regexp.MatchString pp.pattern path = true
      · simp only [hm, if_true]
        intro prm hprm
        rcases List.mem_append.1 hprm with h | h
        · exact hst prm h
        · rw [List.mem_singleton] at h
          obtain ⟨j, -, -, hname⟩ := inferParamName_of_match pp
            (hpats pp (List.mem_cons_self _ _)) path hm
          exact ⟨_, by rw [h]; exact hname⟩
      · simp only [hm]
        exact hst
  exact hfold paramPatterns (path, []) (fun _ h => h) (by simp)

/-! ## Default names -/

set_option maxRecDepth 100000 in
/-- Claim C12 at the failing inputs `/42` and `/2024-01-15`.  The path is split at `/`, so the
matched segment is part 1 and the part before it is the empty part 0: the guard `i > 0`
holds and the name is the empty string followed by `Id`, not the default name of the
detector (`id`, `date`). -/
theorem C12_first_segment_named_Id :
    normalizePath "/42".toList =
        ("/\x7bId\x7d".toList, [pathParam "Id".toList "integer".toList]) ∧
      normalizePath "/2024-01-15".toList =
        ("/\x7bId\x7d".toList, [pathParam "Id".toList "string".toList]) ∧
      (normalizePath "/42".toList).1 ≠ "/\x7bid\x7d".toList ∧
      (normalizePath "/2024-01-15".toList).1 ≠ "/\x7bdate\x7d".toList := by
  decide

/-! ## Names of the parameters -/

set_option maxRecDepth 100000 in
/-- Claim C13, as stated, fails: the last segment of `/a/123456789012345678901234` is matched
by the integer detector and by the object-id detector, and `normalizePath` records two path
parameters, both named `aId`. -/
theorem C13_counterexample :
    ¬ ((normalizePath "/a/123456789012345678901234".toList).2.map fun p => p.Name).Nodup := by
  decide

/-- The parameters recorded by the loop of `normalizePath`: one for each detector that
matches the path, in catalogue order. -/
theorem normalizeFold_params (path : Str) (pats : List ParamPattern)
    (st : Str × List Parameter) :
    (pats.foldl (normalizeWith path) st).2 =
      st.2 ++ (pats.filter fun pp => regexp.MatchString pp.pattern path).map fun pp =>
        pathParam (inferParamName pp.pattern (strings.Split '/' path) pp.name) pp.ptype := by
  induction pats generalizing st with
  | nil => simp
  | cons pp rest ih =>
    simp only [List.foldl_cons]
    rw [ih]
    unfold normalizeWith
    by_cases hm : regexp.MatchString pp.pattern path = true
    · simp [hm, List.filter_cons, pathParam]
    · simp [hm, List.filter_cons]

/-- Claim C13, amended.  For every endpoint output by `Normalize` the query parameters have
pairwise distinct names; and for every path `normalizePath` records exactly one path
parameter for each detector of the catalogue that matches the path, in catalogue order,
with the name that detector inferred and the type of that detector. -/
theorem C13_query_names_distinct_one_param_per_detector :
    (∀ (lib : NetURL) (ord : MapOrder) (eps : List Endpoint),
      ∀ e ∈ Normalize lib ord eps, (e.QueryParams.map fun p => p.Name).Nodup) ∧
    ∀ path : Str, (normalizePath path).2 =
      (paramPatterns.filter fun pp => regexp.MatchString pp.pattern path).map fun pp =>
        pathParam (inferParamName pp.pattern (strings.Split '/' path) pp.name) pp.ptype := by
  constructor
  · intro lib ord eps e he
    have he2 := (Normalize_perm lib ord eps).mem_iff.1 he
    obtain ⟨x, hx, rfl⟩ := List.mem_map.1 he2
    exact (normalizedMap_entry lib ord eps x hx).namesNodup
  · intro path
    have h := normalizeFold_params path paramPatterns (path, [])
    simpa [normalizePath] using h

/-! ## Trailing slash -/

open regexp in
/-- The body of a detector matches its segment in front of a slash and at the end of the
text alike. -/
theorem SegLike_local_end (r : Re) (hr : SegLike r) (t : Str) (caps : Caps)
    (h : run r t caps ≠ []) :
    ∃ seg rest, t = seg ++ rest ∧ '/' ∉ seg ∧ (rest = [] ∨ ∃ r1, rest = '/' :: r1) ∧
      ∀ (caps1 : Caps) (rest1 : Str), (rest1 = [] ∨ ∃ r1, rest1 = '/' :: r1) →
        run r (seg ++ rest1) caps1 ≠ [] := by
  induction hr generalizing t caps with
  | done n =>
    refine ⟨[], t, rfl, by simp, ?_, fun caps1 rest1 h1 => ?_⟩
    · cases t with
      | nil => exact Or.inl rfl
      | cons c t1 =>
        right
        by_cases hc : c = '/'
        · exact ⟨t1, by rw [hc]⟩
        · exfalso
          apply h
          simp [segEnd, run, Re.char, hc]
    · rcases h1 with h1 | ⟨r1, h1⟩ <;> subst h1 <;> simp [segEnd, run, Re.char]
  | step a r1 ha _ ih =>
    simp only [run] at h
    obtain ⟨x, hx⟩ := List.exists_mem_of_ne_nil _ h
    rw [List.mem_flatMap] at hx
    obtain ⟨y, hy, hx⟩ := hx
    obtain ⟨pa, hta, hsa, hra⟩ := slashFree_local a ha t caps y hy
    obtain ⟨seg, rest, hseg, hns, hrest, hrun⟩ := ih y.1 y.2 (List.ne_nil_of_mem hx)
    refine ⟨pa ++ seg, rest, by rw [hta, hseg, List.append_assoc], ?_, hrest,
      fun caps1 rest1 h1 => ?_⟩
    · intro hc
      rcases List.mem_append.1 hc with hc | hc
      · exact hsa hc
      · exact hns hc
    · obtain ⟨c2, h2⟩ := hra (seg ++ rest1) caps1
      obtain ⟨z, hz⟩ := List.exists_mem_of_ne_nil _ (hrun c2 rest1 h1)
      apply List.ne_nil_of_mem (a := z)
      simp only [run, List.mem_flatMap, List.append_assoc]
      exact ⟨(seg ++ rest1, c2), h2, hz⟩

open regexp in
theorem MatchString_of_suffix (re : Re) (s t : Str) (hsuf : t <:+ s)
    (h : run re t [] ≠ []) : MatchString re s = true := by
  unfold MatchString
  rw [List.any_eq_true]
  exact ⟨t, (List.mem_tails _ _).2 hsuf, (matchAt_isSome_iff re t).2 h⟩

open regexp in
/-- A detector that matches a path followed by a slash matches the path itself. -/
theorem detector_matches_without_slash (r : Re) (hr : SegLike r)
    (hne : MatchString (.cat (.char '/') r) ['/', '/'] = false) (p : Str)
    (h : MatchString (.cat (.char '/') r) (p ++ ['/']) = true) :
    MatchString (.cat (.char '/') r) p = true := by
  unfold MatchString at h
  rw [List.any_eq_true] at h
  obtain ⟨t, ht, hm⟩ := h
  rw [matchAt_isSome_iff] at hm
  rw [List.mem_tails] at ht
  obtain ⟨pre, hpre⟩ := ht
  cases t with
  | nil => simp [run, Re.char] at hm
  | cons c t1 =>
    by_cases hc : c = '/'
    · subst hc
      have hrun : run r t1 [] ≠ [] := by simpa [run, Re.char] using hm
      obtain ⟨seg, rest, hsplit, hns, hrest, hloc⟩ := SegLike_local_end r hr t1 [] hrun
      -- the segment is not empty
      have hseg : seg ≠ [] := by
        intro he
        subst he
        have h2 : MatchString (.cat (.char '/') r) ['/', '/'] = true := by
          apply MatchString_of_suffix _ _ ['/', '/'] (List.suffix_refl _)
          have := hloc [] ['/'] (Or.inr ⟨[], rfl⟩)
          simpa [run, Re.char] using this
        rw [hne] at h2
        exact Bool.noConfusion h2
      -- what follows the segment in the path itself
      have hkey : ∃ rest1, (rest1 = [] ∨ ∃ r1, rest1 = '/' :: r1) ∧
          pre ++ '/' :: (seg ++ rest1) = p := by
        rcases hrest with h0 | ⟨r1, h1⟩
        · exfalso
          subst h0
          obtain ⟨s1, c1, hs1⟩ := (List.eq_nil_or_concat seg).resolve_left hseg
          rw [hsplit, hs1] at hpre
          have h3 : (pre ++ '/' :: s1) ++ [c1] = p ++ ['/'] := by simpa using hpre
          have h4 := List.append_inj_right' h3 rfl
          have h5 : c1 = '/' := by simpa using h4
          apply hns
          rw [hs1, h5]
          simp
        · rcases List.eq_nil_or_concat r1 with h2 | ⟨r2, c2, h2⟩
          · subst h2
            refine ⟨[], Or.inl rfl, ?_⟩
            rw [hsplit, h1] at hpre
            have h3 : (pre ++ '/' :: seg) ++ ['/'] = p ++ ['/'] := by simpa using hpre
            have h4 := List.append_inj_left' h3 rfl
            simpa using h4
          · refine ⟨'/' :: r2, Or.inr ⟨r2, rfl⟩, ?_⟩
            rw [hsplit, h1, h2] at hpre
            have h3 : (pre ++ '/' :: (seg ++ '/' :: r2)) ++ [c2] = p ++ ['/'] := by
              simpa using hpre
            exact List.append_inj_left' h3 rfl
      obtain ⟨rest1, hr1, hp⟩ := hkey
      apply MatchString_of_suffix _ _ ('/' :: (seg ++ rest1)) ⟨pre, hp⟩
      have := hloc [] rest1 hr1
      simpa [run, Re.char] using this
    · exfalso
      apply hm
      simp [run, Re.char, hc]

set_option maxRecDepth 100000 in
theorem paramPatterns_not_empty_segment : ∀ pp ∈ paramPatterns,
    regexp.MatchString pp.pattern ['/', '/'] = false := by
  decide

/-- A path that no detector matches is returned as it is, with no parameter. -/
theorem normalizePath_of_no_match (p : Str)
    (h : paramPatterns.all (fun pp => !regexp.MatchString pp.pattern p) = true) :
    normalizePath p = (p, []) := by
  have hfold : ∀ (pats : List ParamPattern) (st : Str × List Parameter),
      (∀ pp ∈ pats, regexp.MatchString pp.pattern p = false) →
      pats.foldl (normalizeWith p) st = st := by
    intro pats
    induction pats with
    | nil => intro st _; rfl
    | cons pp rest ih =>
      intro st hp
      simp only [List.foldl_cons]
      have h1 : normalizeWith p st pp = st := by
        simp [normalizeWith, hp pp (List.mem_cons_self _ _)]
      rw [h1]
      exact ih st (fun q hq => hp q (List.mem_cons_of_mem _ hq))
  apply hfold
  intro pp hpp
  have := (List.all_eq_true.1 h) pp hpp
  simpa using this

/-- When no detector matches a path, none matches the path followed by a slash. -/
theorem no_match_with_slash (p : Str)
    (h : paramPatterns.all (fun pp => !regexp.MatchString pp.pattern p) = true) :
    paramPatterns.all (fun pp => !regexp.MatchString pp.pattern (p ++ ['/'])) = true := by
  rw [List.all_eq_true] at h ⊢
  intro pp hpp
  have h1 := h pp hpp
  obtain ⟨r, hpat, hseg⟩ := paramPatterns_segLike pp hpp
  have hne := paramPatterns_not_empty_segment pp hpp
  rw [hpat] at h1 hne ⊢
  cases hm : regexp.MatchString (.cat (.char '/') r) (p ++ ['/']) with
  | false => rfl
  | true =>
    have := detector_matches_without_slash r hseg hne p hm
    rw [this] at h1
    exact Bool.noConfusion h1

/-- The endpoints of the output filed under a key of the input: exactly one, the entry of the
map under that key. -/
theorem Normalize_filter_key (lib : NetURL) (ord : MapOrder) (eps : List Endpoint) (k : Str)
    (hk : k ∈ inputKeys lib eps) :
    ∃ out, mapGet (normalizedMap lib ord eps) k = some out ∧ EntryOK lib eps k out ∧
      (Normalize lib ord eps).filter (fun e => keyOf lib e.URL = some k) = [out] := by
  obtain ⟨hnd, hkeys, hent⟩ := normalizedMap_spec lib ord eps
  have hin := (hkeys k).2 hk
  rw [← mapGet_isSome_iff] at hin
  obtain ⟨out, hout⟩ := Option.isSome_iff_exists.1 hin
  refine ⟨out, hout, hent _ _ hout, ?_⟩
  have hp := (Normalize_perm lib ord eps).filter (fun e => decide (keyOf lib e.URL = some k))
  rw [filter_values_eq (fun e => keyOf lib e.URL) _ _ hnd
    (fun x hx => (normalizedMap_entry lib ord eps x hx).keyOf_eq), hout] at hp
  exact List.perm_singleton.1 hp

set_option maxRecDepth 100000 in
/-- Claim C11, as stated, fails: `https://x.com/users` and `https://x.com/users/` have
different canonical keys, and `Normalize` outputs two endpoints for them. -/
theorem C11_counterexample :
    keyOf goURL "https://x.com/users".toList = some "x.com/users".toList ∧
      keyOf goURL "https://x.com/users/".toList = some "x.com/users/".toList ∧
      (Normalize goURL MapOrder.insertion
        [Endpoint.bare "https://x.com/users".toList,
         Endpoint.bare "https://x.com/users/".toList]).length = 2 := by
  decide

/-- Claim C11, amended.  The canonical key keeps the trailing slash of a path that no
detector matches: for two URLs of the input on the same host whose paths are `p` and `p`
followed by `/`, where no detector matches `p`, the keys are `host + p` and `host + p + /`,
they differ, and `Normalize` outputs one endpoint for each. -/
theorem C11_trailing_slash_kept_without_match (lib : NetURL) (ord : MapOrder)
    (eps : List Endpoint) (a b : Endpoint) (ua ub : URL) (ha : a ∈ eps) (hb : b ∈ eps)
    (hua : lib.Parse a.URL = some ua) (hub : lib.Parse b.URL = some ub)
    (hhost : ub.Host = ua.Host) (hpath : ub.Path = ua.Path ++ ['/'])
    (hno : paramPatterns.all (fun pp => !regexp.MatchString pp.pattern ua.Path) = true) :
    keyOf lib a.URL = some (ua.Host ++ ua.Path) ∧
      keyOf lib b.URL = some (ua.Host ++ (ua.Path ++ ['/'])) ∧
      keyOf lib a.URL ≠ keyOf lib b.URL ∧
      ∃ ea eb, ea ≠ eb ∧
        (Normalize lib ord eps).filter (fun e => keyOf lib e.URL = keyOf lib a.URL) = [ea] ∧
        (Normalize lib ord eps).filter (fun e => keyOf lib e.URL = keyOf lib b.URL) = [eb] := by
  have hka : keyOf lib a.URL = some (ua.Host ++ ua.Path) := by
    simp [keyOf, hua, normalizePath_of_no_match _ hno]
  have hkb : keyOf lib b.URL = some (ua.Host ++ (ua.Path ++ ['/'])) := by
    simp [keyOf, hub, hhost, hpath, normalizePath_of_no_match _ (no_match_with_slash _ hno)]
  have hne : keyOf lib a.URL ≠ keyOf lib b.URL := by
    rw [hka, hkb]
    intro h
    have h1 := congrArg List.length (Option.some.inj h)
    simp at h1
  refine ⟨hka, hkb, hne, ?_⟩
  obtain ⟨ea, -, hoka, hfa⟩ := Normalize_filter_key lib ord eps _
    ((mem_inputKeys lib eps _).2 ⟨a, ha, hka⟩)
  obtain ⟨eb, -, hokb, hfb⟩ := Normalize_filter_key lib ord eps _
    ((mem_inputKeys lib eps _).2 ⟨b, hb, hkb⟩)
  refine ⟨ea, eb, ?_, by rw [hka]; exact hfa, by rw [hkb]; exact hfb⟩
  intro he
  apply hne
  rw [hka, hkb, ← hoka.keyOf_eq, ← hokb.keyOf_eq, he]

set_option maxRecDepth 100000 in
/-- Witness of C11: `https://x.com/users` and `https://x.com/users/` stay apart; by contrast
`/users/42` and `/users/42/`, which the integer detector rewrites, get the same key. -/
theorem C11_trailing_slash_kept_without_match_witness :
    keyOf goURL "https://x.com/users".toList ≠ keyOf goURL "https://x.com/users/".toList ∧
      keyOf goURL "https://x.com/users/42".toList =
        keyOf goURL "https://x.com/users/42/".toList :=
  ⟨(C11_trailing_slash_kept_without_match goURL MapOrder.reversed
      [Endpoint.bare "https://x.com/users".toList, Endpoint.bare "https://x.com/users/".toList]
      (Endpoint.bare "https://x.com/users".toList) (Endpoint.bare "https://x.com/users/".toList)
      { Scheme := "https".toList, Host := "x.com".toList, Path := "/users".toList,
        RawQuery := [] }
      { Scheme := "https".toList, Host := "x.com".toList, Path := "/users/".toList,
        RawQuery := [] }
      (by decide) (by decide) (by decide) (by decide) (by decide) (by decide)
      (by decide)).2.2.1,
    by decide⟩

/-! ## The first input of a key -/

/-- The loop of `mergeParams` only appends, and what it appends are parameters of the new
list whose names it had not seen. -/
theorem mergeFold_appends (new : List Parameter) (st : List Str × List Parameter) :
    ∃ added, (new.foldl mergeStep st).2 = st.2 ++ added ∧
      ∀ p ∈ added, p ∈ new ∧ p.Name ∉ st.1 := by
  induction new generalizing st with
  | nil => exact ⟨[], by simp, by simp⟩
  | cons q rest ih =>
    simp only [List.foldl_cons]
    by_cases hq : q.Name ∈ st.1
    · have hs : mergeStep st q = st := by simp [mergeStep, hq]
      rw [hs]
      obtain ⟨added, h1, h2⟩ := ih st
      exact ⟨added, h1, fun p hp => ⟨List.mem_cons_of_mem _ (h2 p hp).1, (h2 p hp).2⟩⟩
    · have hs : mergeStep st q = (q.Name :: st.1, st.2 ++ [q]) := by simp [mergeStep, hq]
      rw [hs]
      obtain ⟨added, h1, h2⟩ := ih (q.Name :: st.1, st.2 ++ [q])
      refine ⟨q :: added, by rw [h1]; simp, ?_⟩
      intro p hp
      rcases List.mem_cons.1 hp with rfl | hp
      · exact ⟨List.mem_cons_self _ _, hq⟩
      · exact ⟨List.mem_cons_of_mem _ (h2 p hp).1,
          fun h => (h2 p hp).2 (List.mem_cons_of_mem _ h)⟩

theorem mergeParams_appends (existing new : List Parameter) :
    ∃ added, mergeParams existing new = existing ++ added ∧
      ∀ p ∈ added, p ∈ new ∧ p.Name ∉ existing.map fun q => q.Name :=
  mergeFold_appends new (existing.map (fun (p : Parameter) => p.Name), existing)

/-- Claim C15.  For every key of the input, the endpoint that `Normalize` outputs for the key
has the URL, source and time of the first input of that key, the path of that URL, and the
path parameters and normalized path detected from it.  A later input of the same key leaves
the keys of the map and every other entry as they are, and changes the entry of its key only
by appending query parameters whose names were not yet present. -/
theorem C15_first_input_is_canonical (lib : NetURL) (ord : MapOrder) (eps : List Endpoint)
    (k : Str) (hk : k ∈ inputKeys lib eps) :
    ∃ out ep0 u,
      (Normalize lib ord eps).filter (fun e => keyOf lib e.URL = some k) = [out] ∧
      eps.find? (fun ep => keyOf lib ep.URL = some k) = some ep0 ∧
      lib.Parse ep0.URL = some u ∧
      out.URL = ep0.URL ∧ out.Path = u.Path ∧ out.Source = ep0.Source ∧
      out.DiscoveredAt = ep0.DiscoveredAt ∧
      out.NormalizedPath = (normalizePath u.Path).1 ∧
      out.Parameters = (normalizePath u.Path).2 ∧
      mapGet (normalizedMap lib ord eps) k = some out ∧
      ∀ later : Endpoint, keyOf lib later.URL = some k →
        (normalizedMap lib ord (eps ++ [later])).map Prod.fst =
            (normalizedMap lib ord eps).map Prod.fst ∧
          (∀ k1, k1 ≠ k → mapGet (normalizedMap lib ord (eps ++ [later])) k1 =
            mapGet (normalizedMap lib ord eps) k1) ∧
          ∃ added, mapGet (normalizedMap lib ord (eps ++ [later])) k =
              some { out with QueryParams := out.QueryParams ++ added } ∧
            ∀ p ∈ added, p.Name ∉ out.QueryParams.map fun q => q.Name := by
  obtain ⟨out, hout, hok, hfilter⟩ := Normalize_filter_key lib ord eps k hk
  obtain ⟨ep0, u, hfind, hu, -, hurl, hp, hnp, hpar, hsrc, htime⟩ := hok.first
  refine ⟨out, ep0, u, hfilter, hfind, hu, hurl, hp, hsrc, htime, hnp, hpar, hout, ?_⟩
  intro later hlater
  have hstep : normalizedMap lib ord (eps ++ [later]) =
      normalizeStep lib ord (normalizedMap lib ord eps) later := by
    simp [normalizedMap, List.foldl_append]
  unfold keyOf at hlater
  cases hul : lib.Parse later.URL with
  | none => rw [hul] at hlater; exact Option.noConfusion hlater
  | some ul =>
    rw [hul] at hlater
    have hkey : ul.Host ++ (normalizePath ul.Path).1 = k := Option.some.inj hlater
    have hin : k ∈ (normalizedMap lib ord eps).map Prod.fst := by
      rw [← mapGet_isSome_iff, hout]; rfl
    have hnew : normalizedMap lib ord (eps ++ [later]) =
        mapSet (normalizedMap lib ord eps) k
          { out with
            QueryParams := mergeParams out.QueryParams (extractQueryParams lib ord ul) } := by
      rw [hstep]
      unfold normalizeStep
      simp only [hul, hkey, hout]
    rw [hnew]
    refine ⟨by rw [keys_mapSet, if_pos hin], ?_, ?_⟩
    · intro k1 hk1
      rw [mapGet_mapSet, if_neg (fun h => hk1 h.symm)]
    · obtain ⟨added, h1, h2⟩ :=
        mergeParams_appends out.QueryParams (extractQueryParams lib ord ul)
      refine ⟨added, ?_, fun p hp => (h2 p hp).2⟩
      rw [mapGet_mapSet, if_pos rfl, h1]

set_option maxRecDepth 100000 in
/-- Witness of C15: of `https://x.com/users/42?a=1` and `https://x.com/users/77?b=2`, filed
under the same key, the output keeps the first URL. -/
theorem C15_first_input_is_canonical_witness :
    ∃ out,
      (Normalize goURL MapOrder.reversed
          [Endpoint.bare "https://x.com/users/42?a=1".toList,
           Endpoint.bare "https://x.com/users/77?b=2".toList]).filter
        (fun e => keyOf goURL e.URL = some "x.com/users/\x7buserId\x7d".toList) = [out] ∧
      out.URL = "https://x.com/users/42?a=1".toList := by
  obtain ⟨out, ep0, u, h1, h2, -, h4, -⟩ := C15_first_input_is_canonical goURL
    MapOrder.reversed
    [Endpoint.bare "https://x.com/users/42?a=1".toList,
     Endpoint.bare "https://x.com/users/77?b=2".toList]
    "x.com/users/\x7buserId\x7d".toList (by decide)
  refine ⟨out, h1, ?_⟩
  have hfind : ([Endpoint.bare "https://x.com/users/42?a=1".toList,
      Endpoint.bare "https://x.com/users/77?b=2".toList].find?
        (fun ep => keyOf goURL ep.URL = some "x.com/users/\x7buserId\x7d".toList)) =
      some (Endpoint.bare "https://x.com/users/42?a=1".toList) := by decide
  rw [hfind] at h2
  cases h2
  exact h4

/-! ## Normalizing twice -/

set_option maxRecDepth 100000 in
/-- Claim C14, as stated, fails: for `[.../users/42, .../users/77?active=true]` the endpoint of
`Normalize` carries the query parameter `active`, merged from the second URL, and
normalizing the output again rebuilds the query parameters from the kept URL alone, so the
parameter is lost. -/
theorem C14_counterexample :
    (Normalize goURL MapOrder.insertion
        [Endpoint.bare "https://x.com/users/42".toList,
         Endpoint.bare "https://x.com/users/77?active=true".toList]).map
        (fun e => e.QueryParams) = [[queryParam "active".toList "true".toList]] ∧
      (Normalize goURL MapOrder.insertion
        (Normalize goURL MapOrder.insertion
          [Endpoint.bare "https://x.com/users/42".toList,
           Endpoint.bare "https://x.com/users/77?active=true".toList])).map
        (fun e => e.QueryParams) = [[]] := by
  decide

theorem findSome?_of_unique {α β : Type} (f : α → Option β) (l : List α) (v : Option β)
    (hall : ∀ x ∈ l, f x = v ∨ f x = none) (hex : ∃ x ∈ l, f x = v) :
    l.findSome? f = v := by
  induction l with
  | nil => obtain ⟨x, hx, -⟩ := hex; exact absurd hx (List.not_mem_nil _)
  | cons a rest ih =>
    rw [List.findSome?_cons]
    cases hfa : f a with
    | some b =>
      rcases hall a (List.mem_cons_self _ _) with h | h
      · rw [← h, hfa]
      · rw [hfa] at h; exact Option.noConfusion h
    | none =>
      simp only
      cases v with
      | none =>
        rw [List.findSome?_eq_none_iff]
        intro x hx
        rcases hall x (List.mem_cons_of_mem _ hx) with h | h <;> exact h
      | some b =>
        apply ih (fun x hx => hall x (List.mem_cons_of_mem _ hx))
        obtain ⟨x, hx, hfx⟩ := hex
        rcases List.mem_cons.1 hx with rfl | hx
        · rw [hfa] at hfx; exact Option.noConfusion hfx
        · exact ⟨x, hx, hfx⟩

theorem EntryOK.record {lib : NetURL} {l : List Endpoint} {k : Str} {e : Endpoint}
    (h : EntryOK lib l k e) :
    ∃ u, lib.Parse e.URL = some u ∧ e.Path = u.Path ∧
      e.NormalizedPath = (normalizePath u.Path).1 ∧ e.Parameters = (normalizePath u.Path).2 := by
  obtain ⟨ep0, u, -, hu, -, hurl, hp, hnp, hpar, -⟩ := h.first
  exact ⟨u, by rw [hurl]; exact hu, hp, hnp, hpar⟩

/-- The keys of the output of `Normalize`, in output order, are distinct. -/
theorem Normalize_keys_nodup (lib : NetURL) (ord : MapOrder) (eps : List Endpoint) :
    ((Normalize lib ord eps).map fun e => keyOf lib e.URL).Nodup := by
  obtain ⟨hnd, -, -⟩ := normalizedMap_spec lib ord eps
  rw [((Normalize_perm lib ord eps).map _).nodup_iff, List.map_map]
  have h : (normalizedMap lib ord eps).map ((fun e => keyOf lib e.URL) ∘ Prod.snd) =
      ((normalizedMap lib ord eps).map Prod.fst).map some := by
    rw [List.map_map]
    apply List.map_congr_left
    intro x hx
    exact (normalizedMap_entry lib ord eps x hx).keyOf_eq
  rw [h]
  exact hnd.map (fun a b hab => Option.some.inj hab)

theorem mem_Normalize (lib : NetURL) (ord : MapOrder) (eps : List Endpoint) (e : Endpoint)
    (he : e ∈ Normalize lib ord eps) : ∃ k, EntryOK lib eps k e := by
  have he2 := (Normalize_perm lib ord eps).mem_iff.1 he
  obtain ⟨x, hx, rfl⟩ := List.mem_map.1 he2
  exact ⟨x.1, normalizedMap_entry lib ord eps x hx⟩

/-- Claim C14, amended.  `Normalize(Normalize(E))` holds the same endpoints as
`Normalize(E)` as far as URL, path, normalized path, path parameters, source and time go, but
the query parameters of each are rebuilt from its own URL alone: their names are distinct and
the example of each name is its first value in that URL, nothing merged from other URLs of
the key being kept. -/
theorem C14_renormalize_keeps_records (lib : NetURL) (ord1 ord2 : MapOrder)
    (eps : List Endpoint) :
    ((Normalize lib ord2 (Normalize lib ord1 eps)).map canonicalRecord).Perm
        ((Normalize lib ord1 eps).map canonicalRecord) ∧
      ∀ e ∈ Normalize lib ord2 (Normalize lib ord1 eps),
        (e.QueryParams.map fun p => p.Name).Nodup ∧
          ∀ name, paramExample e.QueryParams name = firstValue lib e.URL name := by
  -- the first output, its keys and the element of each key
  have hN := mem_Normalize lib ord1 eps
  have hinj : ∀ x ∈ Normalize lib ord1 eps, ∀ y ∈ Normalize lib ord1 eps,
      keyOf lib x.URL = keyOf lib y.URL → x = y :=
    List.inj_on_of_nodup_map (Normalize_keys_nodup lib ord1 eps)
  -- every entry of the second map copies the element of its key
  have hentry : ∀ x ∈ normalizedMap lib ord2 (Normalize lib ord1 eps),
      ∃ e0 ∈ Normalize lib ord1 eps, keyOf lib e0.URL = some x.1 ∧
        (Normalize lib ord1 eps).find? (fun ep => keyOf lib ep.URL = some x.1) = some e0 ∧
        canonicalRecord x.2 = canonicalRecord e0 ∧ x.2.URL = e0.URL := by
    intro x hx
    have hok := normalizedMap_entry lib ord2 _ x hx
    obtain ⟨e0, u, hfind, hu, hk, hurl, hp, hnp, hpar, hsrc, htime⟩ := hok.first
    have hmem : e0 ∈ Normalize lib ord1 eps := List.mem_of_find?_eq_some hfind
    obtain ⟨k0, hok0⟩ := hN e0 hmem
    obtain ⟨u0, hu0, hp0, hnp0, hpar0⟩ := hok0.record
    rw [hu] at hu0
    cases hu0
    refine ⟨e0, hmem, by simp [keyOf, hu, hk], hfind, ?_, hurl⟩
    simp only [canonicalRecord, hurl, hp, hnp, hpar, hsrc, htime, hp0, hnp0, hpar0]
  constructor
  · -- the record of a key
    let g : Option Str → Str × Str × Str × List Parameter × Str × Nat := fun k =>
      match (Normalize lib ord1 eps).find? (fun ep => keyOf lib ep.URL = k) with
      | some e => canonicalRecord e
      | none => canonicalRecord (Endpoint.bare [])
    obtain ⟨hnd2, hkeys2, -⟩ := normalizedMap_spec lib ord2 (Normalize lib ord1 eps)
    have h2 : ((Normalize lib ord2 (Normalize lib ord1 eps)).map canonicalRecord).Perm
        ((((normalizedMap lib ord2 (Normalize lib ord1 eps)).map Prod.fst).map some).map g) := by
      refine ((Normalize_perm lib ord2 _).map _).trans ?_
      rw [List.map_map, List.map_map, List.map_map]
      rw [List.map_congr_left (fun x hx => by
        show (canonicalRecord ∘ Prod.snd) x = ((g ∘ some) ∘ Prod.fst) x
        obtain ⟨e0, -, -, hfind, hrec, -⟩ := hentry x hx
        simp only [Function.comp, g, hfind, hrec])]
    have h1 : (Normalize lib ord1 eps).map canonicalRecord =
        ((Normalize lib ord1 eps).map fun e => keyOf lib e.URL).map g := by
      rw [List.map_map]
      apply List.map_congr_left
      intro e he
      simp only [Function.comp, g]
      cases hfind : (Normalize lib ord1 eps).find?
          (fun ep => decide (keyOf lib ep.URL = keyOf lib e.URL)) with
      | none =>
        rw [List.find?_eq_none] at hfind
        exact absurd (by simp) (hfind e he)
      | some e1 =>
        have h3 : keyOf lib e1.URL = keyOf lib e.URL := by simpa using List.find?_some hfind
        rw [hinj e1 (List.mem_of_find?_eq_some hfind) e he h3]
    rw [h1]
    refine h2.trans (List.Perm.map g ?_)
    rw [List.perm_ext_iff_of_nodup
      (hnd2.map (fun a b hab => Option.some.inj hab)) (Normalize_keys_nodup lib ord1 eps)]
    intro k
    constructor
    · intro hk
      obtain ⟨k1, hk1, rfl⟩ := List.mem_map.1 hk
      obtain ⟨ep, hep, hkep⟩ := (mem_inputKeys lib _ k1).1 ((hkeys2 k1).1 hk1)
      exact List.mem_map.2 ⟨ep, hep, hkep⟩
    · intro hk
      obtain ⟨e, he, rfl⟩ := List.mem_map.1 hk
      obtain ⟨k0, hok0⟩ := hN e he
      exact List.mem_map.2 ⟨k0,
        (hkeys2 k0).2 ((mem_inputKeys lib _ k0).2 ⟨e, he, hok0.keyOf_eq⟩),
        hok0.keyOf_eq.symm⟩
  · intro e he
    have he2 := (Normalize_perm lib ord2 _).mem_iff.1 he
    obtain ⟨x, hx, rfl⟩ := List.mem_map.1 he2
    have hok := normalizedMap_entry lib ord2 _ x hx
    refine ⟨hok.namesNodup, fun name => ?_⟩
    obtain ⟨e0, hmem, hk0, -, -, hurl⟩ := hentry x hx
    rw [hok.examples name, hurl]
    unfold firstExample
    apply findSome?_of_unique
    · intro y hy
      by_cases hky : keyOf lib y.URL = some x.1
      · left
        rw [hinj y hy e0 hmem (hky.trans hk0.symm), if_pos hk0]
      · right
        rw [if_neg hky]
    · exact ⟨e0, hmem, by rw [if_pos hk0]⟩

/-! ## Module selection -/

/-- Claim C18.  `registerModules` registers a passive source (wayback, commoncrawl) exactly
when `ActiveOnly` is off and the flag of the module is on, and an active source (sitemap,
crawler, jsparser) exactly when `PassiveOnly` is off and the flag of the module is on; so
with `PassiveOnly` no active module is registered, with `ActiveOnly` no passive one, and
with both none at all. -/
theorem C18_module_selection (cfg : Config) :
    (Module.wayback ∈ registerModules cfg ↔
      cfg.Modules.ActiveOnly = false ∧ cfg.Modules.Wayback = true) ∧
    (Module.commoncrawl ∈ registerModules cfg ↔
      cfg.Modules.ActiveOnly = false ∧ cfg.Modules.CommonCrawl = true) ∧
    (Module.sitemap ∈ registerModules cfg ↔
      cfg.Modules.PassiveOnly = false ∧ cfg.Modules.Sitemap = true) ∧
    (∀ d, Module.crawler d ∈ registerModules cfg ↔
      cfg.Modules.PassiveOnly = false ∧ cfg.Modules.Crawler = true ∧ d = cfg.CrawlDepth) ∧
    (Module.jsparser ∈ registerModules cfg ↔
      cfg.Modules.PassiveOnly = false ∧ cfg.Modules.JSParser = true) ∧
    (cfg.Modules.PassiveOnly = true → ∀ m ∈ registerModules cfg,
      m = Module.wayback ∨ m = Module.commoncrawl) ∧
    (cfg.Modules.ActiveOnly = true → ∀ m ∈ registerModules cfg,
      m ≠ Module.wayback ∧ m ≠ Module.commoncrawl) ∧
    (cfg.Modules.PassiveOnly = true → cfg.Modules.ActiveOnly = true →
      registerModules cfg = []) ∧
    (NewOrchestrator cfg).modules = registerModules cfg := by
  obtain ⟨target, ⟨w, cc, otx, us, cr, js, sm, po, ao⟩, depth⟩ := cfg
  unfold NewOrchestrator registerModules
  cases w <;> cases cc <;> cases cr <;> cases js <;> cases sm <;> cases po <;> cases ao <;>
    simp

/-! ## The orchestrator -/

theorem mem_firstOccurrences (l : List Str) (u : Str) : u ∈ firstOccurrences l ↔ u ∈ l := by
  induction l with
  | nil => simp [firstOccurrences]
  | cons a l ih =>
    simp only [firstOccurrences, List.mem_cons, List.mem_filter, ih, ne_eq, decide_not,
      Bool.not_eq_true', decide_eq_false_iff_not]
    by_cases h : u = a
    · simp [h]
    · simp [h]

theorem firstOccurrences_nodup (l : List Str) : (firstOccurrences l).Nodup := by
  induction l with
  | nil => simp [firstOccurrences]
  | cons a l ih =>
    simp only [firstOccurrences, List.nodup_cons]
    exact ⟨by simp [List.mem_filter], ih.filter _⟩

theorem firstOccurrences_ordered (l : List Str) :
    (firstOccurrences l).Pairwise (fun u v =>
      l.findIdx (fun x => decide (x = u)) < l.findIdx (fun x => decide (x = v))) := by
  induction l with
  | nil => simp [firstOccurrences]
  | cons a l ih =>
    simp only [firstOccurrences, List.pairwise_cons]
    constructor
    · intro v hv
      have hva : v ≠ a := by simpa using (List.mem_filter.1 hv).2
      simp [List.findIdx_cons, Ne.symm hva]
    · have h1 := ih.filter (fun u => decide (u ≠ a))
      refine (List.Pairwise.and_mem.1 h1).imp ?_
      rintro u v ⟨hu, hv, huv⟩
      have hua : u ≠ a := by simpa using (List.mem_filter.1 hu).2
      have hva : v ≠ a := by simpa using (List.mem_filter.1 hv).2
      simp only [List.findIdx_cons, decide_eq_false (Ne.symm hua),
        decide_eq_false (Ne.symm hva), cond_false]
      exact Nat.succ_lt_succ huv

theorem filter_eq_singleton_of_nodup {α : Type} [DecidableEq α] (l : List α) (u : α)
    (hnd : l.Nodup) (hu : u ∈ l) : l.filter (fun v => decide (v = u)) = [u] := by
  induction l with
  | nil => cases hu
  | cons a l ih =>
    rw [List.nodup_cons] at hnd
    by_cases h : a = u
    · subst h
      rw [List.filter_cons_of_pos (by simp)]
      congr 1
      rw [List.filter_eq_nil_iff]
      intro v hv c
      have : v = a := by simpa using c
      exact hnd.1 (this ▸ hv)
    · rw [List.filter_cons_of_neg (by simpa using h)]
      rcases List.mem_cons.1 hu with rfl | hu
      · exact absurd rfl h
      · exact ih hnd.2 hu

theorem seedFold_spec (l : List Str) : ∀ (seen : List Str) (eps : List Endpoint),
    (l.foldl seedStep (seen, eps)).2 =
      eps ++ ((firstOccurrences l).filter (fun u => decide (u ∉ seen))).map Endpoint.bare := by
  induction l with
  | nil => intro seen eps; simp [firstOccurrences]
  | cons a l ih =>
    intro seen eps
    rw [List.foldl_cons]
    by_cases h : a ∈ seen
    · have hs : seedStep (seen, eps) a = (seen, eps) := by simp [seedStep, h]
      rw [hs, ih]
      congr 2
      simp only [firstOccurrences]
      rw [List.filter_cons_of_neg (by simpa using h), List.filter_filter]
      apply List.filter_congr
      intro u _
      by_cases hu : u ∈ seen
      · simp [hu]
      · have : u ≠ a := fun c => hu (c ▸ h)
        simp [hu, this]
    · have hs : seedStep (seen, eps) a = (a :: seen, eps ++ [Endpoint.bare a]) := by
        simp [seedStep, h]
      rw [hs, ih]
      simp only [firstOccurrences]
      rw [List.filter_cons_of_pos (by simpa using h), List.filter_filter, List.map_cons,
        List.append_assoc, List.singleton_append]
      congr 3
      apply List.filter_congr
      intro u _
      by_cases hu : u = a
      · simp [hu]
      · simp [hu]

theorem seedEndpoints_eq (allURLs : List Str) :
    seedEndpoints allURLs = (firstOccurrences allURLs).map Endpoint.bare := by
  unfold seedEndpoints
  rw [seedFold_spec]
  simp

theorem seedEndpoints_urls (allURLs : List Str) :
    (seedEndpoints allURLs).map (fun e => e.URL) = firstOccurrences allURLs := by
  rw [seedEndpoints_eq, List.map_map]
  exact (List.map_congr_left (fun u _ => rfl)).trans (List.map_id _)

/-- Claim C17.  The endpoints seeded by `Orchestrator.Run` from the merged list `allURLs`
are bare endpoints whose URLs are the distinct members of `allURLs`, each exactly once, in
the order of their first occurrences. -/
theorem C17_seeded_endpoints_are_first_occurrences (allURLs : List Str) :
    seedEndpoints allURLs = (firstOccurrences allURLs).map Endpoint.bare ∧
    ((seedEndpoints allURLs).map fun e => e.URL).Nodup ∧
    (∀ u, u ∈ ((seedEndpoints allURLs).map fun e => e.URL) ↔ u ∈ allURLs) ∧
    (∀ u ∈ allURLs, ((seedEndpoints allURLs).filter fun e => e.URL = u) = [Endpoint.bare u]) ∧
    ((seedEndpoints allURLs).map fun e => e.URL).Pairwise
      (fun u v => allURLs.findIdx (fun x => decide (x = u)) <
        allURLs.findIdx (fun x => decide (x = v))) ∧
    ∀ (o : Orchestrator) (env : RunEnv) (target : Str),
      (o.Run env target).1.Endpoints = seedEndpoints (collect o env target).2 := by
  refine ⟨seedEndpoints_eq _, ?_, ?_, ?_, ?_, fun _ _ _ => rfl⟩
  · rw [seedEndpoints_urls]; exact firstOccurrences_nodup _
  · intro u; rw [seedEndpoints_urls]; exact mem_firstOccurrences _ _
  · intro u hu
    rw [seedEndpoints_eq, List.filter_map]
    have h1 : (firstOccurrences allURLs).filter ((fun e : Endpoint => decide (e.URL = u)) ∘
        Endpoint.bare) = [u] :=
      filter_eq_singleton_of_nodup _ u (firstOccurrences_nodup allURLs)
        ((mem_firstOccurrences _ _).2 hu)
    rw [h1]; rfl
  · rw [seedEndpoints_urls]; exact firstOccurrences_ordered _

theorem registerModules_names_nodup (cfg : Config) :
    ((registerModules cfg).map Module.Name).Nodup := by
  obtain ⟨target, ⟨w, cc, otx, us, cr, js, sm, po, ao⟩, depth⟩ := cfg
  unfold registerModules
  cases w <;> cases cc <;> cases cr <;> cases js <;> cases sm <;> cases po <;> cases ao <;>
    simp [Module.Name]

/-- The statistics that `Run` stores for a module. -/
theorem collectFold_spec (env : RunEnv) (target : Str) (ms : List Module) :
    ∀ st : List (Str × ModuleStat) × List Str,
      (ms.foldl (collectStep env target) st).2 =
          st.2 ++ (ms.map fun m => (env.exec m target).urls).flatten ∧
        (∀ k, k ∉ ms.map Module.Name →
          mapGet (ms.foldl (collectStep env target) st).1 k = mapGet st.1 k) ∧
        ((ms.map Module.Name).Nodup → ∀ m ∈ ms,
          mapGet (ms.foldl (collectStep env target) st).1 m.Name =
            some { Name := m.Name, URLs := (env.exec m target).urls.length,
                   Duration := (env.exec m target).duration,
                   Error := ((env.exec m target).err).getD [] }) := by
  induction ms with
  | nil => intro st; simp
  | cons a ms ih =>
    intro st
    obtain ⟨h1, h2, h3⟩ := ih (collectStep env target st a)
    rw [List.foldl_cons]
    refine ⟨?_, ?_, ?_⟩
    · rw [h1]; simp [collectStep, List.append_assoc]
    · intro k hk
      simp only [List.map_cons, List.mem_cons, not_or] at hk
      rw [h2 k hk.2]
      simp only [collectStep]
      rw [mapGet_mapSet, if_neg (Ne.symm hk.1)]
    · intro hnd m hm
      simp only [List.map_cons, List.nodup_cons] at hnd
      rcases List.mem_cons.1 hm with rfl | hm
      · rw [h2 _ hnd.1]
        simp only [collectStep]
        rw [mapGet_mapSet, if_pos rfl]
        cases (env.exec m target).err <;> rfl
      · exact h3 hnd.2 m hm

/-- Claim C16.  For every outcome `(urls, err)` of every registered module, whether or not
`err` is nil, and for every order in which the modules finish, `Orchestrator.Run` returns a
nil error, an endpoint for every URL that any module returned, and under the name of each
module a `ModuleStat` whose `URLs` is the number of URLs of that module and whose `Error` is
the message of its error, or empty when the error is nil. -/
theorem C16_run_keeps_results_of_all_modules (cfg : Config) (env : RunEnv) (target : Str) :
    ((NewOrchestrator cfg).Run env target).2 = none ∧
    ∀ m ∈ (NewOrchestrator cfg).modules,
      (∀ u ∈ (env.exec m target).urls,
        ∃ ep ∈ ((NewOrchestrator cfg).Run env target).1.Endpoints, ep.URL = u) ∧
      mapGet ((NewOrchestrator cfg).Run env target).1.ModuleStats m.Name =
        some { Name := m.Name, URLs := (env.exec m target).urls.length,
               Duration := (env.exec m target).duration,
               Error := match (env.exec m target).err with
                 | some msg => msg
                 | none => [] } := by
  refine ⟨rfl, ?_⟩
  intro m hm
  have hm1 : m ∈ env.sched.iter (registerModules cfg) := (env.sched.perm _).mem_iff.2 hm
  have hnd : ((env.sched.iter (registerModules cfg)).map Module.Name).Nodup :=
    (((env.sched.perm (registerModules cfg)).map Module.Name).nodup_iff).2
      (registerModules_names_nodup cfg)
  obtain ⟨h1, -, h3⟩ := collectFold_spec env target (env.sched.iter (registerModules cfg)) ([], [])
  constructor
  · intro u hu
    have hall : u ∈ (collect (NewOrchestrator cfg) env target).2 := by
      show u ∈ ((env.sched.iter (registerModules cfg)).foldl (collectStep env target) ([], [])).2
      rw [h1]
      simp only [List.nil_append, List.mem_flatten, List.mem_map]
      exact ⟨_, ⟨m, hm1, rfl⟩, hu⟩
    have : u ∈ (seedEndpoints (collect (NewOrchestrator cfg) env target).2).map
        (fun e => e.URL) := by
      rw [seedEndpoints_urls]; exact (mem_firstOccurrences _ _).2 hall
    obtain ⟨ep, hep, rfl⟩ := List.mem_map.1 this
    exact ⟨ep, hep, rfl⟩
  · have := h3 hnd m hm1
    show mapGet ((env.sched.iter (registerModules cfg)).foldl (collectStep env target)
      ([], [])).1 m.Name = _
    rw [this]
    cases (env.exec m target).err <;> rfl

/-! ## Backoff -/

theorem wrap64_of_range (x : Int) (h1 : -(2 ^ 63) ≤ x) (h2 : x < 2 ^ 63) : wrap64 x = x := by
  unfold wrap64
  omega

theorem wrap64_mul_wrap64 (a b : Int) : wrap64 (wrap64 a * b) = wrap64 (a * b) := by
  unfold wrap64
  have h : ((a + 2 ^ 63) % 2 ^ 64 - 2 ^ 63) * b + 2 ^ 63 ≡ a * b + 2 ^ 63 [ZMOD 2 ^ 64] := by
    have h1 : (a + 2 ^ 63) % 2 ^ 64 ≡ a + 2 ^ 63 [ZMOD 2 ^ 64] := Int.mod_modEq _ _
    have h2 := ((h1.sub_right (2 ^ 63)).mul_right b).add_right (2 ^ 63)
    simpa using h2
  rw [show (((a + 2 ^ 63) % 2 ^ 64 - 2 ^ 63) * b + 2 ^ 63) % 2 ^ 64 =
    (a * b + 2 ^ 63) % 2 ^ 64 from h]

/-- One more 429 while the counter is in range. -/
theorem OnResponse_429 (a : AdaptiveRateLimiter) (k : Nat) (hc : a.consecutive429 = k)
    (hk : (k : Int) + 1 < 2 ^ 63) :
    ∃ s, a.OnResponse 429 =
        some (s, min (wrap64 (2 ^ (k + 1) * Second)) a.maxBackoff) ∧
      s.consecutive429 = (k + 1 : Nat) ∧ s.maxBackoff = a.maxBackoff ∧
      s.baseRate = a.baseRate ∧ s.minRate = a.minRate := by
  have hw : wrap64 (a.consecutive429 + 1) = (k + 1 : Nat) := by
    rw [hc, wrap64_of_range _ (by omega) hk]; push_cast; rfl
  have hsh : shl64 1 (wrap64 (a.consecutive429 + 1)) = some (wrap64 (2 ^ (k + 1))) := by
    rw [hw]
    unfold shl64
    rw [if_neg (by omega), Int.toNat_ofNat, one_mul]
  unfold AdaptiveRateLimiter.OnResponse
  rw [if_pos rfl]
  simp only [hsh, wrap64_mul_wrap64]
  refine ⟨{ a with consecutive429 := wrap64 (a.consecutive429 + 1),
                    currentRate := maxInt (Int.tdiv a.currentRate 2) a.minRate },
    ?_, hw, rfl, rfl, rfl⟩
  congr 2
  rw [min_def]
  by_cases h : wrap64 (2 ^ (k + 1) * Second) > a.maxBackoff
  · rw [if_pos h, if_neg (by omega)]
  · rw [if_neg h, if_pos (by omega)]

theorem feed_429 (k : Nat) : ∀ (a : AdaptiveRateLimiter) (c : Nat), a.consecutive429 = c →
    (c : Int) + k < 2 ^ 63 →
    ∃ s, feed (List.replicate k 429) a = some s ∧ s.consecutive429 = (c + k : Nat) ∧
      s.maxBackoff = a.maxBackoff ∧ s.baseRate = a.baseRate ∧ s.minRate = a.minRate := by
  induction k with
  | zero => intro a c hc _; exact ⟨a, rfl, by simpa using hc, rfl, rfl, rfl⟩
  | succ k ih =>
    intro a c hc hk
    obtain ⟨s1, h1, hc1, hm1, hb1, hr1⟩ := OnResponse_429 a c hc (by push_cast at hk; omega)
    obtain ⟨s, h2, hc2, hm2, hb2, hr2⟩ := ih s1 (c + 1) hc1 (by push_cast at hk ⊢; omega)
    refine ⟨s, ?_, ?_, hm2.trans hm1, hb2.trans hb1, hr2.trans hr1⟩
    · rw [List.replicate_succ, feed, h1]; exact h2
    · rw [hc2]; congr 1; omega

/-- Claim C20.  When a limiter whose counter of consecutive 429 responses is zero and whose
maximal backoff is 30 s (as `NewAdaptiveRateLimiter` builds it, and as any other status
leaves it) receives `n` responses 429 in a row, with `1 ≤ n` below the range `2 ^ 63` of the
counter, no call panics and the `n`-th call returns the minimum of `2 ^ n` seconds and 30
seconds, where `2 ^ n` seconds is the product as a 64-bit `time.Duration` holds it.  Up to
`n = 33` the product does not wrap, so the backoff is `2 ^ n` s for `n ≤ 4` and 30 s from
`n = 5` on; at `n = 34` the wrapped product is negative and is returned as it is. -/
theorem C20_backoff_of_nth_429 (a : AdaptiveRateLimiter) (n : Nat)
    (hc : a.consecutive429 = 0) (hmax : a.maxBackoff = 30 * Second)
    (h1 : 1 ≤ n) (hn : (n : Int) < 2 ^ 63) :
    ∃ s s1 backoff, feed (List.replicate (n - 1) 429) a = some s ∧
      s.OnResponse 429 = some (s1, backoff) ∧
      backoff = min (wrap64 (2 ^ n * Second)) (30 * Second) ∧
      (n ≤ 33 → backoff = min (2 ^ n) 30 * Second) ∧
      (n ≤ 4 → backoff = 2 ^ n * Second) ∧
      (5 ≤ n → n ≤ 33 → backoff = 30 * Second) ∧
      (n = 34 → backoff = -1266874889709551616) := by
  obtain ⟨s, hs, hcs, hms, -, -⟩ := feed_429 (n - 1) a 0 (by simpa using hc) (by omega)
  obtain ⟨s1, hs1, -⟩ := OnResponse_429 s (n - 1) (by rw [hcs]; simp) (by omega)
  have hn1 : n - 1 + 1 = n := by omega
  rw [hn1, hms, hmax] at hs1
  have hsmall : n ≤ 33 → wrap64 (2 ^ n * Second) = 2 ^ n * Second := by
    intro h
    have hle : (2 : Int) ^ n ≤ 2 ^ 33 := pow_le_pow_right₀ (by norm_num) h
    have hpos : (0 : Int) < 2 ^ n := by positivity
    apply wrap64_of_range
    · unfold Second; omega
    · unfold Second; omega
  refine ⟨s, s1, _, hs, hs1, rfl, ?_, ?_, ?_, ?_⟩
  · intro h
    rw [hsmall h]
    have hpos : (0 : Int) < 2 ^ n := by positivity
    unfold Second
    rcases le_total ((2 : Int) ^ n) 30 with h30 | h30
    · rw [min_eq_left h30, min_eq_left (by omega)]
    · rw [min_eq_right h30, min_eq_right (by omega)]
  · intro h
    rw [hsmall (by omega)]
    have hle : (2 : Int) ^ n ≤ 2 ^ 4 := pow_le_pow_right₀ (by norm_num) h
    unfold Second
    exact min_eq_left (by omega)
  · intro h5 h33
    rw [hsmall h33]
    have hle : (2 : Int) ^ 5 ≤ 2 ^ n := pow_le_pow_right₀ (by norm_num) h5
    unfold Second
    exact min_eq_right (by omega)
  · rintro rfl
    unfold wrap64 Second
    norm_num

/-- The third 429 in a row on a fresh limiter returns 8 s. -/
theorem C20_backoff_of_nth_429_witness :
    ∃ s s1 backoff, feed (List.replicate (3 - 1) 429) (NewAdaptiveRateLimiter 10) = some s ∧
      s.OnResponse 429 = some (s1, backoff) ∧
      backoff = min (wrap64 (2 ^ 3 * Second)) (30 * Second) ∧
      (3 ≤ 33 → backoff = min (2 ^ 3) 30 * Second) ∧
      (3 ≤ 4 → backoff = 2 ^ 3 * Second) ∧
      (5 ≤ 3 → 3 ≤ 33 → backoff = 30 * Second) ∧
      (3 = 34 → backoff = -1266874889709551616) :=
  C20_backoff_of_nth_429 (NewAdaptiveRateLimiter 10) 3 rfl rfl (by decide) (by decide)

/-! ## Redirects -/

theorem doGet_redirect (c : Client) (lib : FastHTTP) (url : Str) (redirectCount : Int)
    (resp : Response) (hdo : lib.Do redirectCount url = .ok resp)
    (hst : resp.StatusCode ∈ [301, 302, 303, 307, 308]) (hloc : resp.Location ≠ [])
    (hlt : redirectCount < c.maxRedirects) :
    c.doGet lib url redirectCount =
      c.doGet lib (redirectTarget lib url resp.Location) (redirectCount + 1) := by
  have hst1 : resp.StatusCode = 301 ∨ resp.StatusCode = 302 ∨ resp.StatusCode = 303 ∨
      resp.StatusCode = 307 ∨ resp.StatusCode = 308 := by simpa using hst
  rw [Client.doGet]
  simp only [hdo]
  rw [dif_pos ⟨hst1, hlt⟩, if_pos hloc]

theorem doGet_at_cap (c : Client) (lib : FastHTTP) (url : Str) (redirectCount : Int)
    (resp : Response) (hdo : lib.Do redirectCount url = .ok resp)
    (hcap : ¬ redirectCount < c.maxRedirects) :
    c.doGet lib url redirectCount = .ok (resp.Body, resp.StatusCode) := by
  rw [Client.doGet]
  simp only [hdo]
  rw [dif_neg (fun h => hcap h.2)]

/-- When every answer up to the one after `m` redirects is a redirect with a location, a
client with `maxRedirects = m` returns the answer to the request number `m`. -/
theorem doGet_redirect_chain (c : Client) (lib : FastHTTP) (url : Str) (m : Nat)
    (hm : c.maxRedirects = m)
    (h : ∀ i : Nat, i ≤ m → ∃ resp, lib.Do i (requested lib url i) = .ok resp ∧
      resp.StatusCode ∈ [301, 302, 303, 307, 308] ∧ resp.Location ≠ []) :
    ∃ resp, lib.Do m (requested lib url m) = .ok resp ∧
      resp.StatusCode ∈ [301, 302, 303, 307, 308] ∧ resp.Location ≠ [] ∧
      c.Get lib url = .ok (resp.Body, resp.StatusCode) := by
  have step : ∀ d k : Nat, k + d = m →
      c.doGet lib (requested lib url k) k = c.doGet lib (requested lib url m) m := by
    intro d
    induction d with
    | zero => intro k hk; simp only [Nat.add_zero] at hk; subst hk; rfl
    | succ d ih =>
      intro k hk
      obtain ⟨resp, hdo, hst, hloc⟩ := h k (by omega)
      rw [doGet_redirect c lib _ _ resp hdo hst hloc (by rw [hm]; exact_mod_cast (by omega : k < m))]
      have hreq : requested lib url (k + 1) =
          redirectTarget lib (requested lib url k) resp.Location := by
        rw [requested, hdo]
      rw [← hreq]
      have := ih (k + 1) (by omega)
      rw [← this]
      push_cast
      rfl
  obtain ⟨resp, hdo, hst, hloc⟩ := h m le_rfl
  refine ⟨resp, hdo, hst, hloc, ?_⟩
  have h0 := step m 0 (by omega)
  show c.doGet lib url 0 = _
  have hreq0 : requested lib url 0 = url := rfl
  rw [hreq0] at h0
  rw [show ((0 : Nat) : Int) = 0 from rfl] at h0
  rw [h0]
  exact doGet_at_cap c lib _ _ resp hdo (by rw [hm]; exact lt_irrefl _)

/-- Claim C19, refuted as stated: a server that answers every request with status 302 and
the location `https://x.com/a` makes `Get` return the body and the status 302 of an answer,
with a nil error. -/
theorem C19_counterexample :
    (∀ (n : Int) (url : Str), ∃ resp, loopServer.Do n url = .ok resp ∧
      resp.StatusCode = 302 ∧ resp.Location ≠ []) ∧
    (NewClient 5 30).Get loopServer "https://x.com/a".toList =
      .ok ("moved".toList, 302) := by
  refine ⟨fun n url => ⟨_, rfl, rfl, by decide⟩, ?_⟩
  obtain ⟨resp, hdo, -, -, hget⟩ := doGet_redirect_chain (NewClient 5 30) loopServer
    "https://x.com/a".toList 10 rfl (fun i _ => ⟨_, rfl, by decide, by decide⟩)
  have hresp : Except.ok resp = loopServer.Do 10
      (requested loopServer "https://x.com/a".toList 10) := hdo.symm
  have hbody : resp.Body = "moved".toList ∧ resp.StatusCode = 302 := by
    cases Except.ok.inj hresp
    exact ⟨rfl, rfl⟩
  rw [hget, hbody.1, hbody.2]

/-- Claim C19, amended.  When the answer to the request of `Get` and the answers to each of
the next 10 followed locations all carry a redirect status (301, 302, 303, 307, 308) and a
non-empty `Location`, `Get` stops after the 10th followed redirect and returns the body and
the redirect status of the answer to its 11th request, with a nil error. -/
theorem C19_redirect_cap_returns_last_answer (lib : FastHTTP) (rateLimit timeout : Int)
    (url : Str)
    (h : ∀ i : Nat, i ≤ 10 → ∃ resp, lib.Do i (requested lib url i) = .ok resp ∧
      resp.StatusCode ∈ [301, 302, 303, 307, 308] ∧ resp.Location ≠ []) :
    ∃ resp, lib.Do 10 (requested lib url 10) = .ok resp ∧
      resp.StatusCode ∈ [301, 302, 303, 307, 308] ∧
      (NewClient rateLimit timeout).Get lib url = .ok (resp.Body, resp.StatusCode) ∧
      ∀ err, (NewClient rateLimit timeout).Get lib url ≠ .error err := by
  obtain ⟨resp, hdo, hst, -, hget⟩ :=
    doGet_redirect_chain (NewClient rateLimit timeout) lib url 10 rfl h
  refine ⟨resp, hdo, hst, hget, ?_⟩
  intro err c
  rw [hget] at c
  cases c

/-- The looping server: `Get` returns the answer to its 11th request. -/
theorem C19_redirect_cap_returns_last_answer_witness :
    ∃ resp, loopServer.Do 10 (requested loopServer "https://x.com/a".toList 10) = .ok resp ∧
      resp.StatusCode ∈ [301, 302, 303, 307, 308] ∧
      (NewClient 5 30).Get loopServer "https://x.com/a".toList =
        .ok (resp.Body, resp.StatusCode) ∧
      ∀ err, (NewClient 5 30).Get loopServer "https://x.com/a".toList ≠ .error err :=
  C19_redirect_cap_returns_last_answer loopServer 5 30 "https://x.com/a".toList
    (fun i _ => ⟨_, rfl, by decide, by decide⟩)

/-! ## Order of the groups -/

theorem GroupEndpoints_names_nodup (ord : MapOrder) (eps : List Endpoint) :
    ((GroupEndpoints ord eps).map fun g => g.Name).Nodup := by
  obtain ⟨-, hperm, -⟩ := GroupEndpoints_spec ord eps
  exact hperm.nodup_iff.2 (groups_keys_nodup eps [] List.nodup_nil)

/-- Claim C23.  The groups returned by `GroupEndpoints` are in strictly increasing
lexicographic order of `Name` (so no two groups share a name), and within each group the
endpoints are in non-decreasing lexicographic order of `NormalizedPath`. -/
theorem C23_groups_sorted_by_name_endpoints_by_path (ord : MapOrder) (eps : List Endpoint) :
    ((GroupEndpoints ord eps).map fun g => g.Name).Sorted (· < ·) ∧
      ((GroupEndpoints ord eps).map fun g => g.Name).Nodup ∧
      ∀ g ∈ GroupEndpoints ord eps,
        (g.Endpoints.map fun e => e.NormalizedPath).Sorted (· ≤ ·) := by
  obtain ⟨hsorted, -, hg⟩ := GroupEndpoints_spec ord eps
  refine ⟨hsorted.lt_of_le (GroupEndpoints_names_nodup ord eps),
    GroupEndpoints_names_nodup ord eps, ?_⟩
  intro g hgm
  rw [hg g hgm]
  exact sortSlice_sorted (fun e : Endpoint => e.NormalizedPath) _

/-! ## Groups as a partition -/

theorem flatMap_filter_perm {α : Type} (name : α → Str) (ns : List Str) :
    ∀ l : List α, ns.Nodup → (∀ e ∈ l, name e ∈ ns) →
      (ns.flatMap fun n => l.filter fun e => name e = n).Perm l := by
  induction ns with
  | nil =>
    intro l _ h
    cases l with
    | nil => exact List.Perm.refl _
    | cons a l => exact absurd (h a (List.mem_cons_self _ _)) (List.not_mem_nil _)
  | cons n ns ih =>
    intro l hnd h
    rw [List.nodup_cons] at hnd
    have hrest : ∀ e ∈ l.filter (fun e => !decide (name e = n)), name e ∈ ns := by
      intro e he
      obtain ⟨hel, hne⟩ := List.mem_filter.1 he
      rcases List.mem_cons.1 (h e hel) with h1 | h1
      · exact absurd h1 (by simpa using hne)
      · exact h1
    have hsame : (ns.flatMap fun m => l.filter fun e => name e = m) =
        ns.flatMap fun m =>
          (l.filter fun e => !decide (name e = n)).filter fun e => name e = m := by
      apply List.flatMap_congr
      intro m hm
      rw [List.filter_filter]
      apply List.filter_congr
      intro e _
      by_cases hem : name e = m
      · have hne : ¬ name e = n := fun c => hnd.1 (c ▸ hem ▸ hm)
        rw [decide_eq_true hem, decide_eq_false hne]
        rfl
      · rw [decide_eq_false hem]
        rfl
    rw [List.flatMap_cons, hsame]
    exact ((ih _ hnd.2 hrest).append_left _).trans
      (List.filter_append_perm (fun e => decide (name e = n)) l)

/-- Claim C29.  `GroupEndpoints` partitions its input: the concatenation of the endpoints of
all groups is a permutation of the input, no group is empty, every endpoint of a group has
the name of the group as `extractGroupName` of its normalized path, and every endpoint of
the input lies in the group of that name. -/
theorem C29_groups_partition_input (ord : MapOrder) (eps : List Endpoint) :
    ((GroupEndpoints ord eps).flatMap fun g => g.Endpoints).Perm eps ∧
      (∀ g ∈ GroupEndpoints ord eps, g.Endpoints ≠ []) ∧
      (∀ g ∈ GroupEndpoints ord eps, ∀ e ∈ g.Endpoints,
        extractGroupName e.NormalizedPath = g.Name) ∧
      ∀ e ∈ eps, ∃ g ∈ GroupEndpoints ord eps,
        g.Name = extractGroupName e.NormalizedPath ∧ e ∈ g.Endpoints := by
  obtain ⟨-, hperm, hg⟩ := GroupEndpoints_spec ord eps
  have hnd := GroupEndpoints_names_nodup ord eps
  have hmemname : ∀ e ∈ eps, extractGroupName e.NormalizedPath ∈
      (GroupEndpoints ord eps).map fun g => g.Name := by
    intro e he
    rw [hperm.mem_iff, mem_groups_keys]
    exact List.mem_map.2 ⟨e.NormalizedPath, List.mem_map.2 ⟨e, he, rfl⟩, rfl⟩
  have hgperm : ∀ g ∈ GroupEndpoints ord eps,
      g.Endpoints.Perm (eps.filter fun e => extractGroupName e.NormalizedPath = g.Name) := by
    intro g hgm
    rw [hg g hgm]
    exact sortSlice_perm _ _
  refine ⟨?_, ?_, ?_, ?_⟩
  · have h1 : ((GroupEndpoints ord eps).flatMap fun g => g.Endpoints).Perm
        ((GroupEndpoints ord eps).flatMap fun g =>
          eps.filter fun e => extractGroupName e.NormalizedPath = g.Name) :=
      List.Perm.flatMap_left _ hgperm
    refine h1.trans ?_
    have h2 := flatMap_filter_perm (fun e : Endpoint => extractGroupName e.NormalizedPath)
      ((GroupEndpoints ord eps).map fun g => g.Name) eps hnd hmemname
    rw [List.flatMap_map] at h2
    exact h2
  · intro g hgm hempty
    have hname : g.Name ∈ (eps.map fun e => e.NormalizedPath).map extractGroupName := by
      rw [← mem_groups_keys, ← hperm.mem_iff]
      exact List.mem_map.2 ⟨g, hgm, rfl⟩
    obtain ⟨p, hp, hpn⟩ := List.mem_map.1 hname
    obtain ⟨e, he, rfl⟩ := List.mem_map.1 hp
    have hmem : e ∈ g.Endpoints :=
      (hgperm g hgm).mem_iff.2 (List.mem_filter.2 ⟨he, by simpa using hpn⟩)
    rw [hempty] at hmem
    cases hmem
  · intro g hgm e he
    have := (hgperm g hgm).mem_iff.1 he
    simpa using (List.mem_filter.1 this).2
  · intro e he
    obtain ⟨g, hgm, hgn⟩ := List.mem_map.1 (hmemname e he)
    exact ⟨g, hgm, hgn, (hgperm g hgm).mem_iff.2 (List.mem_filter.2 ⟨he, by simpa using hgn.symm⟩)⟩

/-! ## Group names -/

theorem toLower_eq_v (c : Char) : c.toLower = 'v' ↔ c = 'v' ∨ c = 'V' := by
  constructor
  · intro h
    unfold Char.toLower at h
    by_cases hr : c.toNat ≥ 65 ∧ c.toNat ≤ 90
    · simp only [hr, and_self, if_true] at h
      have hc : c = Char.ofNat c.toNat := (Char.ofNat_toNat c).symm
      obtain ⟨h1, h2⟩ := hr
      generalize c.toNat = n at h hc h1 h2
      subst hc
      right
      interval_cases n <;> first | rfl | (exact absurd h (by decide))
    · simp only [hr, if_false] at h
      exact Or.inl h
  · rintro (rfl | rfl) <;> decide

/-- Lower-casing turns only `v` and `V` into `v`. -/
theorem asciiTables_v (s : Str) :
    strings.HasPrefix (asciiTables.ToLower s) "v".toList = true ↔
      (s.head? = some 'v' ∨ s.head? = some 'V') := by
  show strings.HasPrefix (strings.ToLower s) "v".toList = true ↔ _
  cases s with
  | nil => simp [strings.HasPrefix, strings.ToLower]
  | cons c t =>
    have : strings.HasPrefix (strings.ToLower (c :: t)) "v".toList =
        decide (c.toLower = 'v') := by
      by_cases hcv : c.toLower = 'v'
      · simp [strings.HasPrefix, strings.ToLower, List.isPrefixOf, hcv]
      · have hcv1 : ¬ 'v' = c.toLower := fun e => hcv e.symm
        simp [strings.HasPrefix, strings.ToLower, List.isPrefixOf, hcv, hcv1]
    rw [this, decide_eq_true_iff, toLower_eq_v]
    simp

theorem isPrefixPartWith_iff (U : CaseTables)
    (hv : ∀ s : Str, strings.HasPrefix (U.ToLower s) "v".toList = true ↔
      (s.head? = some 'v' ∨ s.head? = some 'V')) (s : Str) :
    isPrefixPartWith U s = true ↔ isPrefixSegment U s := by
  unfold isPrefixPartWith isPrefixSegment
  rw [List.any_eq_true]
  constructor
  · rintro ⟨pre, hpre, h⟩
    rcases Bool.or_eq_true_iff.1 h with h1 | h1
    · exact Or.inl ⟨pre, hpre, h1⟩
    · exact Or.inr ((hv s).1 h1)
  · rintro (⟨pre, hpre, h⟩ | h)
    · exact ⟨pre, hpre, by rw [h]; rfl⟩
    · exact ⟨"api".toList, by decide, by rw [(hv s).2 h]; simp⟩

theorem extractGroupName_eq_with (path : Str) :
    extractGroupName path = extractGroupNameWith asciiTables path := rfl

theorem isPrefixPart_not_placeholder (s : Str) (h : isPrefixPart s = true) :
    strings.HasPrefix s "\x7b".toList = false := by
  cases s with
  | nil => rfl
  | cons c t =>
    by_cases hc : c = '\x7b'
    · subst hc
      exfalso
      have h0 : isPrefixPartWith asciiTables ('\x7b' :: t) = true := h
      rcases (isPrefixPartWith_iff asciiTables asciiTables_v _).1 h0 with
        ⟨pre, hpre, h1⟩ | h1 | h1
      · have h2 : strings.ToLower ('\x7b' :: t) = strings.ToLower pre := by
          have h3 : strings.EqualFold ('\x7b' :: t) pre = true := h1
          simpa [strings.EqualFold] using h3
        have h3 : strings.ToLower pre = pre :=
          (by decide : ∀ q ∈ skipPrefixes, strings.ToLower q = q) pre hpre
        rw [h3] at h2
        have : ∀ q ∈ skipPrefixes, q.head? ≠ some '\x7b' := by decide
        apply this pre hpre
        rw [← h2]
        rfl
      · exact absurd (Option.some.inj h1) (by decide)
      · exact absurd (Option.some.inj h1) (by decide)
    · simp [strings.HasPrefix, List.isPrefixOf, hc]
      exact fun c1 => hc c1.symm

theorem getD_append_length {α : Type} (pre : List α) (s d : α) (rest : List α) :
    (pre ++ s :: rest).getD pre.length d = s := by
  induction pre with
  | nil => rfl
  | cons a pre ih => simpa using ih

theorem getD_append_lt {α : Type} (pre post : List α) (d : α) (j : Nat) (hj : j < pre.length) :
    (pre ++ post).getD j d = pre[j] := by
  induction pre generalizing j with
  | nil => cases hj
  | cons a pre ih =>
    cases j with
    | zero => rfl
    | succ j => simpa using ih j (by simpa using hj)

/-- The name that `extractGroupName` derives from the segment it has chosen. -/
theorem extractGroupNameWith_of_first (U : CaseTables) (path : Str) (pre : List Str) (s : Str)
    (rest : List Str)
    (hparts : strings.Split '/' (strings.Trim path '/') = pre ++ s :: rest)
    (hpre : ∀ p ∈ pre, isPrefixPartWith U p = true) (hs : isPrefixPartWith U s = false) :
    extractGroupNameWith U path =
      if strings.HasPrefix s "\x7b".toList then "Other".toList
      else U.Title (strings.TrimSuffix s "s".toList) ++ "s".toList := by
  have hfind : (List.range (pre ++ s :: rest).length).find?
      (fun i => !isPrefixPartWith U ((pre ++ s :: rest).getD i [])) = some pre.length := by
    apply find?_range_first
    · simp
    · rw [getD_append_length, hs]; rfl
    · intro j hj
      rw [getD_append_lt _ _ _ j hj, hpre _ (List.getElem_mem hj)]
      rfl
  have hlt : pre.length < (pre ++ s :: rest).length := by simp
  unfold extractGroupNameWith
  simp only [hparts, hfind, getD_append_length]
  cases hp : strings.HasPrefix s "\x7b".toList
  · rw [if_pos ⟨hlt, rfl⟩, if_neg (by decide)]
  · rw [if_neg (fun c => absurd c.2 (by decide)), if_pos rfl]

/-- Claim C24.  Let `U` stand for Go's `strings.ToLower`, `strings.EqualFold` and
`strings.Title`, of which only this is used: lower-casing turns no first character other
than `v` and `V` into `v`.  When the parts of the path (split at `/` after its leading and
trailing slashes are trimmed) are a run of prefix segments followed by a segment `s` that is
not a prefix segment, the group name is `Other` if `s` starts with an opening brace, and else
`s` with one trailing `s` removed, capitalized by `strings.Title`, with `s` appended; so
`/api/v1/user/{userId}` and `/api/v1/users/{userId}` both fall in the group `Users`. -/
theorem C24_group_name_of_first_segment (U : CaseTables)
    (hv : ∀ s : Str, strings.HasPrefix (U.ToLower s) "v".toList = true ↔
      (s.head? = some 'v' ∨ s.head? = some 'V'))
    (path : Str) (pre : List Str) (s : Str) (rest : List Str)
    (hparts : strings.Split '/' (strings.Trim path '/') = pre ++ s :: rest)
    (hpre : ∀ p ∈ pre, isPrefixSegment U p) (hs : ¬ isPrefixSegment U s) :
    extractGroupNameWith U path =
        (if s.head? = some '\x7b' then "Other".toList
         else U.Title (strings.TrimSuffix s "s".toList) ++ "s".toList) ∧
      extractGroupNameWith asciiTables "/api/v1/user/\x7buserId\x7d".toList =
        "Users".toList ∧
      extractGroupNameWith asciiTables "/api/v1/users/\x7buserId\x7d".toList =
        "Users".toList := by
  refine ⟨?_, by decide, by decide⟩
  rw [extractGroupNameWith_of_first U path pre s rest hparts
    (fun p hp => (isPrefixPartWith_iff U hv p).2 (hpre p hp))
    (by rw [← Bool.not_eq_true]; exact fun c => hs ((isPrefixPartWith_iff U hv s).1 c))]
  have : (strings.HasPrefix s "\x7b".toList = true) ↔ s.head? = some '\x7b' := by
    cases s with
    | nil => simp [strings.HasPrefix]
    | cons c t =>
      simp [strings.HasPrefix, List.isPrefixOf]
      exact eq_comm
  by_cases h : s.head? = some '\x7b'
  · rw [if_pos (this.2 h), if_pos h]
  · rw [if_neg (fun c => h (this.1 c)), if_neg h]

/-- The path `/API/v2/orders/17`, with the ASCII functions: the group is `Orders`. -/
theorem C24_group_name_of_first_segment_witness :
    extractGroupNameWith asciiTables "/API/v2/orders/17".toList =
        (if "orders".toList.head? = some '\x7b' then "Other".toList
         else asciiTables.Title (strings.TrimSuffix "orders".toList "s".toList) ++
           "s".toList) ∧
      extractGroupNameWith asciiTables "/api/v1/user/\x7buserId\x7d".toList =
        "Users".toList ∧
      extractGroupNameWith asciiTables "/api/v1/users/\x7buserId\x7d".toList =
        "Users".toList :=
  C24_group_name_of_first_segment asciiTables asciiTables_v "/API/v2/orders/17".toList
    ["API".toList, "v2".toList] "orders".toList ["17".toList] (by decide)
    (by intro p hp; simp only [List.mem_cons, List.mem_singleton, List.not_mem_nil,
          or_false] at hp
        rcases hp with rfl | rfl
        · exact Or.inl ⟨"api".toList, by decide, by decide⟩
        · exact Or.inl ⟨"v2".toList, by decide, by decide⟩)
    (by
      rintro (⟨pre, hpre, h⟩ | h | h)
      · revert pre; decide
      · exact absurd h (by decide)
      · exact absurd h (by decide))

/-- Claim C25 at the failing inputs.  When every part of the path is a prefix segment the
search for the first other part ends without a hit and `startIdx` keeps its initial value
0, so the name is seeded by the first prefix segment: `/api` and `/api/v1` fall in the
group `Apis`, `/v2` in `V2s`; for the root path the only part is empty and the group is
`s`.  None of them is `Other`. -/
theorem C25_prefix_only_paths_not_Other :
    extractGroupName "/api/v1".toList = "Apis".toList ∧
      extractGroupName "/api".toList = "Apis".toList ∧
      extractGroupName "/v2".toList = "V2s".toList ∧
      extractGroupName "/".toList = "s".toList ∧
      ∀ path : Str,
        (∀ p ∈ strings.Split '/' (strings.Trim path '/'), isPrefixPart p = true) →
          extractGroupName path =
            strings.Title (strings.TrimSuffix
              ((strings.Split '/' (strings.Trim path '/')).headD []) "s".toList) ++
              "s".toList := by
  refine ⟨by decide, by decide, by decide, by decide, ?_⟩
  intro path hall
  have hne := Split_ne_nil '/' (strings.Trim path '/')
  have hfind : (List.range (strings.Split '/' (strings.Trim path '/')).length).find?
      (fun i => !isPrefixPart ((strings.Split '/' (strings.Trim path '/')).getD i [])) =
        none := by
    rw [List.find?_eq_none]
    intro i hi
    have hi1 : i < (strings.Split '/' (strings.Trim path '/')).length := List.mem_range.1 hi
    obtain ⟨p, hp⟩ : ∃ p, (strings.Split '/' (strings.Trim path '/'))[i]? = some p :=
      ⟨_, List.getElem?_eq_getElem hi1⟩
    have hget : (strings.Split '/' (strings.Trim path '/')).getD i [] = p := by
      rw [List.getD_eq_getElem?_getD, hp]; rfl
    rw [hget, hall p (List.getElem?_mem hp)]
    simp
  unfold extractGroupName
  simp only [hfind]
  cases hsp : strings.Split '/' (strings.Trim path '/') with
  | nil => exact absurd hsp hne
  | cons p0 ps =>
    have hp0 : isPrefixPart p0 = true := hall p0 (by rw [hsp]; exact List.mem_cons_self _ _)
    have hnp := isPrefixPart_not_placeholder p0 hp0
    have hget : (p0 :: ps).getD 0 [] = p0 := rfl
    simp only [hget, hnp, List.headD_cons]
    rw [if_pos ⟨by simp, rfl⟩]

/-! ## Query-bearing URLs -/

theorem toLower_eq_of_not_upper (c d : Char) (hd : d.toLower = d)
    (hup : ¬ (d.toNat ≥ 97 ∧ d.toNat ≤ 122)) : c.toLower = d ↔ c = d := by
  constructor
  · intro h
    unfold Char.toLower at h
    by_cases hr : c.toNat ≥ 65 ∧ c.toNat ≤ 90
    · simp only [hr, and_self, if_true] at h
      exfalso
      apply hup
      rw [← h]
      have hc : c = Char.ofNat c.toNat := (Char.ofNat_toNat c).symm
      obtain ⟨h1, h2⟩ := hr
      generalize c.toNat = n at h1 h2
      interval_cases n <;> decide
    · simpa only [hr, if_false] using h
  · rintro rfl; exact hd

/-- The rule `\?.*=` matches a text that holds a question mark followed, with no line break
in between, by an equals sign. -/
theorem params_rule_matches (a b c : Str) (hb : '\n' ∉ b) :
    regexp.MatchString (.seq [.char '?', .star (fun x => x ≠ '\n'), .char '='])
      (a ++ '?' :: (b ++ '=' :: c)) = true := by
  apply MatchString_of_suffix _ _ ('?' :: (b ++ '=' :: c)) (List.suffix_append _ _)
  have hstar : ('=' :: c) ∈ regexp.starFrom (fun x => decide (x ≠ '\n')) (b ++ '=' :: c) :=
    starFrom_append _ b ('=' :: c) (fun x hx => by
      have : x ≠ '\n' := fun e => hb (e ▸ hx)
      simpa using this)
  intro hnil
  have hmem : ((c, []) : Str × regexp.Caps) ∈
      regexp.run (.seq [.char '?', .star (fun x => x ≠ '\n'), .char '='])
        ('?' :: (b ++ '=' :: c)) [] := by
    simp only [regexp.Re.seq, regexp.Re.char, regexp.run, decide_True, if_true,
      List.flatMap_cons, List.flatMap_nil, List.append_nil, List.mem_flatMap, List.mem_map]
    refine ⟨('=' :: c, []), ⟨'=' :: c, hstar, rfl⟩, ?_⟩
    simp
  rw [hnil] at hmem
  cases hmem

/-- Claim C28, as stated, fails: the URL `https://x.com/a?flag` has a query string without
an equals sign; the rule `\?.*=` does not match, and the endpoint gets no tag and the risk
`Low`. -/
theorem C28_counterexample :
    (TagEndpoints [Endpoint.bare "https://x.com/a?flag".toList]).map
        (fun e => (e.Tags, e.Risk)) = [([], RiskLow)] := by
  decide

/-- Claim C28, amended.  For every endpoint whose URL holds a `?` that is followed, with no
line break in between, by an `=`, `TagEndpoints` adds the tag `params` and sets the risk to
Medium or higher. -/
theorem C28_query_with_equals_is_at_least_medium (eps : List Endpoint) (ep : Endpoint)
    (a b c : Str) (hep : ep ∈ eps) (hurl : ep.URL = a ++ '?' :: (b ++ '=' :: c))
    (hb : '\n' ∉ b) :
    tagEndpoint ep ∈ TagEndpoints eps ∧
      "params".toList ∈ (tagEndpoint ep).Tags ∧
      ((tagEndpoint ep).Risk = RiskMedium ∨ (tagEndpoint ep).Risk = RiskHigh ∨
        (tagEndpoint ep).Risk = RiskCritical) := by
  have hlow : strings.ToLower (ep.NormalizedPath ++ ep.URL) =
      strings.ToLower (ep.NormalizedPath ++ a) ++
        '?' :: (strings.ToLower b ++ '=' :: strings.ToLower c) := by
    rw [hurl]
    simp only [strings.ToLower, List.map_append, List.map_cons, List.append_assoc]
    rfl
  have hb1 : '\n' ∉ strings.ToLower b := by
    intro h
    obtain ⟨x, hx, hxl⟩ := List.mem_map.1 h
    have : x = '\n' := (toLower_eq_of_not_upper x '\n' (by decide) (by decide)).1 hxl
    exact hb (this ▸ hx)
  have hmatch := params_rule_matches (strings.ToLower (ep.NormalizedPath ++ a))
    (strings.ToLower b) (strings.ToLower c) hb1
  rw [← hlow] at hmatch
  obtain ⟨rule, hrule, hmatch1, hrisk, htag⟩ : ∃ rp ∈ riskPatterns,
      regexp.MatchString rp.pattern (strings.ToLower (ep.NormalizedPath ++ ep.URL)) = true ∧
        rp.risk = RiskMedium ∧ "params".toList ∈ rp.tags := by
    refine ⟨⟨.seq [.char '?', .star (fun x => x ≠ '\n'), .char '='], RiskMedium,
      ["params".toList]⟩, ?_, hmatch, rfl, List.mem_singleton.2 rfl⟩
    simp [riskPatterns]
  obtain ⟨hcases, -, hge⟩ := tagFold_risk (strings.ToLower (ep.NormalizedPath ++ ep.URL))
    riskPatterns (RiskLow, [])
  refine ⟨List.mem_map.2 ⟨ep, hep, rfl⟩, ?_, ?_⟩
  · show "params".toList ∈ uniqueTags _
    rw [mem_uniqueTags]
    show "params".toList ∈ (riskPatterns.foldl (tagStep _) (RiskLow, [])).2
    rw [tagFold_tags]
    simp only [List.nil_append, List.mem_flatMap, List.mem_filter]
    exact ⟨rule, ⟨hrule, hmatch1⟩, htag⟩
  · have h2 := hge _ hrule hmatch1
    rw [hrisk] at h2
    rcases hcases with h | ⟨rp, hrp, -, h⟩
    · rw [h] at h2
      exact absurd h2 (by decide)
    · have hr : (tagEndpoint ep).Risk = rp.risk := h
      rw [hr]
      rcases riskPatterns_risk_cases rp hrp with h3 | h3 | h3
      · exact Or.inr (Or.inr h3)
      · exact Or.inr (Or.inl h3)
      · exact Or.inl h3

/-- The URL `https://x.com/items?page=2`: tag `params`, risk Medium. -/
theorem C28_query_with_equals_is_at_least_medium_witness :
    tagEndpoint (Endpoint.bare "https://x.com/items?page=2".toList) ∈
        TagEndpoints [Endpoint.bare "https://x.com/items?page=2".toList] ∧
      "params".toList ∈ (tagEndpoint (Endpoint.bare "https://x.com/items?page=2".toList)).Tags ∧
      ((tagEndpoint (Endpoint.bare "https://x.com/items?page=2".toList)).Risk = RiskMedium ∨
        (tagEndpoint (Endpoint.bare "https://x.com/items?page=2".toList)).Risk = RiskHigh ∨
        (tagEndpoint (Endpoint.bare "https://x.com/items?page=2".toList)).Risk =
          RiskCritical) :=
  C28_query_with_equals_is_at_least_medium
    [Endpoint.bare "https://x.com/items?page=2".toList]
    (Endpoint.bare "https://x.com/items?page=2".toList)
    "https://x.com/items".toList "page".toList "2".toList
    (List.mem_singleton.2 rfl) (by decide) (by decide)

/-! ## The advised rate -/

theorem maxInt_tdiv_two (r : Int) : maxInt (Int.tdiv r 2) 1 = max (r / 2) 1 := by
  unfold maxInt
  rcases le_or_lt 0 r with h | h
  · rw [Int.tdiv_eq_ediv h (by decide)]
    split_ifs <;> omega
  · have h1 : Int.tdiv r 2 = -((-r) / 2) := by
      rw [← Int.tdiv_eq_ediv (by omega) (by decide), Int.neg_tdiv, neg_neg]
    rw [h1]
    split_ifs <;> omega

theorem floor_half (r : Int) : ⌊(r : ℚ) / 2⌋ = r / 2 := by
  have := Rat.floor_intCast_div_natCast r 2
  simpa using this

theorem OnResponse_403_eq (a : AdaptiveRateLimiter) :
    a.OnResponse 403 =
      some ({ a with currentRate := maxInt (Int.tdiv a.currentRate 2) a.minRate }, Second) := by
  unfold AdaptiveRateLimiter.OnResponse
  rw [if_neg (by decide), if_pos rfl]

theorem OnResponse_503_eq (a : AdaptiveRateLimiter) :
    a.OnResponse 503 = some (a, 2 * Second) := by
  unfold AdaptiveRateLimiter.OnResponse
  rw [if_neg (by decide), if_neg (by decide), if_pos rfl]

theorem OnResponse_other_eq (a : AdaptiveRateLimiter) (statusCode : Int)
    (h429 : statusCode ≠ 429) (h403 : statusCode ≠ 403) (h503 : statusCode ≠ 503)
    (hrate : -(2 ^ 63) ≤ a.currentRate) (hbase : a.baseRate < 2 ^ 63) :
    a.OnResponse statusCode =
      some ({ a with consecutive429 := 0,
                     currentRate := if a.currentRate < a.baseRate
                       then min (a.currentRate + 1) a.baseRate else a.currentRate }, 0) := by
  unfold AdaptiveRateLimiter.OnResponse
  rw [if_neg h429, if_neg h403, if_neg h503]
  by_cases h : a.currentRate < a.baseRate
  · simp only [h, if_true]
    rw [wrap64_of_range _ (by omega) (by omega)]
    unfold minInt
    rw [min_def]
    by_cases h1 : a.currentRate + 1 < a.baseRate
    · rw [if_pos h1, if_pos (by omega)]
    · rw [if_neg h1, if_pos (by omega)]
      have hb : a.baseRate = a.currentRate + 1 := by omega
      rw [hb]
  · simp only [h, if_false]

theorem OnResponse_429_eq (a : AdaptiveRateLimiter) (hc0 : 0 ≤ a.consecutive429)
    (hc1 : a.consecutive429 + 1 < 2 ^ 63) :
    ∃ backoff, a.OnResponse 429 =
      some ({ a with consecutive429 := a.consecutive429 + 1,
                     currentRate := maxInt (Int.tdiv a.currentRate 2) a.minRate }, backoff) := by
  have hw : wrap64 (a.consecutive429 + 1) = a.consecutive429 + 1 :=
    wrap64_of_range _ (by omega) hc1
  unfold AdaptiveRateLimiter.OnResponse
  rw [if_pos rfl]
  simp only [hw]
  unfold shl64
  rw [if_neg (by omega)]
  exact ⟨_, rfl⟩

/-- Claim C21.  For every state of the limiter (64-bit fields, floor rate 1 as the
constructor sets it, a non-negative counter below the largest `int`) and every status code:
on 429 and on 403 the rate becomes `max(floor(rate/2), 1)`, on 429 the counter goes up by
one, on 403 the pause is 1 s and the counter is unchanged; on 503 the pause is 2 s and the
state is unchanged; on any other status the counter becomes 0, the rate becomes
`min(rate+1, baseRate)` when it is below `baseRate` and is unchanged otherwise, and the
pause is zero.  Nothing else changes. -/
theorem C21_OnResponse_transition (a : AdaptiveRateLimiter) (hmin : a.minRate = 1)
    (hrate : -(2 ^ 63) ≤ a.currentRate) (hbase : a.baseRate < 2 ^ 63)
    (hc0 : 0 ≤ a.consecutive429) (hc1 : a.consecutive429 + 1 < 2 ^ 63) :
    (∃ backoff, a.OnResponse 429 =
      some ({ a with consecutive429 := a.consecutive429 + 1,
                     currentRate := max ⌊(a.currentRate : ℚ) / 2⌋ 1 }, backoff)) ∧
    a.OnResponse 403 =
      some ({ a with currentRate := max ⌊(a.currentRate : ℚ) / 2⌋ 1 }, Second) ∧
    a.OnResponse 503 = some (a, 2 * Second) ∧
    ∀ statusCode : Int, statusCode ≠ 429 → statusCode ≠ 403 → statusCode ≠ 503 →
      a.OnResponse statusCode =
        some ({ a with consecutive429 := 0,
                       currentRate := if a.currentRate < a.baseRate
                         then min (a.currentRate + 1) a.baseRate else a.currentRate }, 0) := by
  have hhalf : maxInt (Int.tdiv a.currentRate 2) a.minRate = max ⌊(a.currentRate : ℚ) / 2⌋ 1 := by
    rw [hmin, maxInt_tdiv_two, floor_half]
  refine ⟨?_, ?_, OnResponse_503_eq a, ?_⟩
  · obtain ⟨b, hb⟩ := OnResponse_429_eq a hc0 hc1
    rw [hhalf] at hb
    exact ⟨b, hb⟩
  · rw [OnResponse_403_eq, hhalf]
  · intro statusCode h1 h2 h3
    exact OnResponse_other_eq a statusCode h1 h2 h3 hrate hbase

/-- A limiter built for the rate 10 and halved to 5. -/
theorem C21_OnResponse_transition_witness :
    (∃ backoff, (NewAdaptiveRateLimiter 10).OnResponse 429 =
      some ({ NewAdaptiveRateLimiter 10 with
                consecutive429 := (NewAdaptiveRateLimiter 10).consecutive429 + 1,
                currentRate := max ⌊((NewAdaptiveRateLimiter 10).currentRate : ℚ) / 2⌋ 1 },
            backoff)) ∧
    (NewAdaptiveRateLimiter 10).OnResponse 403 =
      some ({ NewAdaptiveRateLimiter 10 with
                currentRate := max ⌊((NewAdaptiveRateLimiter 10).currentRate : ℚ) / 2⌋ 1 },
            Second) ∧
    (NewAdaptiveRateLimiter 10).OnResponse 503 = some (NewAdaptiveRateLimiter 10, 2 * Second) ∧
    ∀ statusCode : Int, statusCode ≠ 429 → statusCode ≠ 403 → statusCode ≠ 503 →
      (NewAdaptiveRateLimiter 10).OnResponse statusCode =
        some ({ NewAdaptiveRateLimiter 10 with
                  consecutive429 := 0,
                  currentRate :=
                    if (NewAdaptiveRateLimiter 10).currentRate <
                        (NewAdaptiveRateLimiter 10).baseRate
                    then min ((NewAdaptiveRateLimiter 10).currentRate + 1)
                      (NewAdaptiveRateLimiter 10).baseRate
                    else (NewAdaptiveRateLimiter 10).currentRate }, 0) :=
  C21_OnResponse_transition (NewAdaptiveRateLimiter 10) rfl (by decide) (by decide)
    (by decide) (by decide)

/-- One call of `OnResponse` keeps the rate between 1 and the base rate. -/
theorem OnResponse_keeps_bounds (a : AdaptiveRateLimiter) (statusCode : Int) (R : Int)
    (hmin : a.minRate = 1) (hbase : a.baseRate = R) (hR : R < 2 ^ 63)
    (hlo : 1 ≤ a.currentRate) (hhi : a.currentRate ≤ R)
    (hc0 : 0 ≤ a.consecutive429) (hc1 : a.consecutive429 + 1 < 2 ^ 63) :
    ∃ s pause, a.OnResponse statusCode = some (s, pause) ∧
      s.minRate = 1 ∧ s.baseRate = R ∧ 1 ≤ s.currentRate ∧ s.currentRate ≤ R ∧
      0 ≤ s.consecutive429 ∧ s.consecutive429 ≤ a.consecutive429 + 1 := by
  have hhalf : 1 ≤ maxInt (Int.tdiv a.currentRate 2) a.minRate ∧
      maxInt (Int.tdiv a.currentRate 2) a.minRate ≤ R := by
    rw [hmin, maxInt_tdiv_two]
    constructor
    · exact le_max_right _ _
    · exact max_le (by omega) (by omega)
  by_cases h429 : statusCode = 429
  · subst h429
    obtain ⟨b, hb⟩ := OnResponse_429_eq a hc0 hc1
    exact ⟨_, b, hb, hmin, hbase, hhalf.1, hhalf.2, by show 0 ≤ a.consecutive429 + 1; omega,
      le_refl _⟩
  by_cases h403 : statusCode = 403
  · subst h403
    exact ⟨_, _, OnResponse_403_eq a, hmin, hbase, hhalf.1, hhalf.2, hc0,
      by show a.consecutive429 ≤ a.consecutive429 + 1; omega⟩
  by_cases h503 : statusCode = 503
  · subst h503
    exact ⟨_, _, OnResponse_503_eq a, hmin, hbase, hlo, hhi, hc0, by omega⟩
  refine ⟨_, _, OnResponse_other_eq a statusCode h429 h403 h503 (by omega) (by omega),
    hmin, hbase, ?_, ?_, le_refl _, by show (0 : Int) ≤ a.consecutive429 + 1; omega⟩
  · show 1 ≤ (if a.currentRate < a.baseRate then min (a.currentRate + 1) a.baseRate
      else a.currentRate)
    split_ifs
    · exact le_min (by omega) (by omega)
    · exact hlo
  · show (if a.currentRate < a.baseRate then min (a.currentRate + 1) a.baseRate
      else a.currentRate) ≤ R
    split_ifs
    · exact (min_le_right _ _).trans (le_of_eq hbase)
    · exact hhi

theorem feed_keeps_bounds (R : Int) (hR : R < 2 ^ 63) (codes : List Int) :
    ∀ a : AdaptiveRateLimiter, a.minRate = 1 → a.baseRate = R → 1 ≤ a.currentRate →
      a.currentRate ≤ R → 0 ≤ a.consecutive429 →
      a.consecutive429 + codes.length < 2 ^ 63 →
      ∃ s, feed codes a = some s ∧ 1 ≤ s.currentRate ∧ s.currentRate ≤ R := by
  induction codes with
  | nil => intro a _ _ hlo hhi _ _; exact ⟨a, rfl, hlo, hhi⟩
  | cons code codes ih =>
    intro a hmin hbase hlo hhi hc0 hc1
    simp only [List.length_cons, Nat.cast_add, Nat.cast_one] at hc1
    obtain ⟨s, pause, hs, h1, h2, h3, h4, h5, h6⟩ :=
      OnResponse_keeps_bounds a code R hmin hbase hR hlo hhi hc0 (by omega)
    obtain ⟨s1, hs1, hb⟩ := ih s h1 h2 h3 h4 h5 (by omega)
    exact ⟨s1, by rw [feed, hs]; exact hs1, hb⟩

/-- Claim C30.  For every base rate `R ≥ 1` (an `int`) and every sequence of status codes
(shorter than the range `2 ^ 63` of the counter) fed to `OnResponse` on a limiter created by
`NewAdaptiveRateLimiter(R)`, no call panics and after every step `CurrentRate` lies between
1 and `R`. -/
theorem C30_rate_stays_within_bounds (R : Int) (codes : List Int) (hR1 : 1 ≤ R)
    (hR2 : R < 2 ^ 63) (hlen : (codes.length : Int) < 2 ^ 63) :
    ∀ n : Nat, ∃ s, feed (codes.take n) (NewAdaptiveRateLimiter R) = some s ∧
      1 ≤ s.CurrentRate ∧ s.CurrentRate ≤ R := by
  intro n
  have hn : ((codes.take n).length : Int) ≤ codes.length := by
    have := List.length_take_le' n codes
    exact_mod_cast this
  exact feed_keeps_bounds R hR2 (codes.take n) (NewAdaptiveRateLimiter R) rfl rfl hR1
    (le_refl _) (le_refl _) (by show (0 : Int) + _ < _; omega)

/-- A limiter for the rate 4 after the codes 429, 403, 200, 200, 503, 200. -/
theorem C30_rate_stays_within_bounds_witness :
    ∃ s, feed (([429, 403, 200, 200, 503, 200] : List Int).take 6)
        (NewAdaptiveRateLimiter 4) = some s ∧
      1 ≤ s.CurrentRate ∧ s.CurrentRate ≤ 4 :=
  C30_rate_stays_within_bounds 4 [429, 403, 200, 200, 503, 200] (by decide) (by decide)
    (by decide) 6

/-! ## The token bucket -/

theorem doGetLog_spec (c : Client) (lib : FastHTTP) (url : Str) (d : Nat) :
    ∀ k : Nat, (c.maxRedirects - (k : Int)).toNat = d →
      (c.doGetLog lib (requested lib url k) k).1 = c.doGet lib (requested lib url k) k ∧
        1 ≤ (c.doGetLog lib (requested lib url k) k).2.length ∧
        (c.doGetLog lib (requested lib url k) k).2.length ≤ d + 1 ∧
        (c.doGetLog lib (requested lib url k) k).2 =
          (List.range' k (c.doGetLog lib (requested lib url k) k).2.length).map
            (fun n : Nat => ((n : Int), requested lib url n)) ∧
        ((∀ i : Nat, k ≤ i → (i : Int) < c.maxRedirects →
            ∃ resp, lib.Do i (requested lib url i) = .ok resp ∧
              resp.StatusCode ∈ [301, 302, 303, 307, 308] ∧ resp.Location ≠ []) →
          (∀ i : Nat, (i : Int) = c.maxRedirects →
            ∃ resp, lib.Do i (requested lib url i) = .ok resp) →
          (c.doGetLog lib (requested lib url k) k).2.length = d + 1) := by
  induction d using Nat.strong_induction_on with
  | _ d ih =>
    intro k hd
    rw [Client.doGetLog, Client.doGet]
    cases hdo : lib.Do k (requested lib url k) with
    | error err =>
      refine ⟨rfl, by simp, by simp, by simp [List.range'], ?_⟩
      intro hchain hlast
      by_cases hlt : (k : Int) < c.maxRedirects
      · obtain ⟨resp, h1, -⟩ := hchain k le_rfl hlt
        rw [hdo] at h1; cases h1
      · by_cases heq : (k : Int) = c.maxRedirects
        · obtain ⟨resp, h1⟩ := hlast k heq
          rw [hdo] at h1; cases h1
        · simp only [List.length_singleton]
          omega
    | ok resp =>
      simp only []
      by_cases h : (resp.StatusCode = 301 ∨ resp.StatusCode = 302 ∨ resp.StatusCode = 303 ∨
          resp.StatusCode = 307 ∨ resp.StatusCode = 308) ∧ (k : Int) < c.maxRedirects
      · rw [dif_pos h, dif_pos h]
        by_cases hloc : resp.Location ≠ []
        · rw [if_pos hloc, if_pos hloc]
          have hreq : redirectTarget lib (requested lib url k) resp.Location =
              requested lib url (k + 1) := by
            rw [requested, hdo]
          have hcast : (k : Int) + 1 = ((k + 1 : Nat) : Int) := by push_cast; rfl
          rw [hreq, hcast]
          obtain ⟨h1, h2, h3, h4, h5⟩ := ih ((c.maxRedirects - ((k + 1 : Nat) : Int)).toNat)
            (by push_cast; omega) (k + 1) rfl
          refine ⟨h1, by simp, ?_, ?_, ?_⟩
          · simp only [List.length_cons]
            push_cast at h3 ⊢
            omega
          · simp only [List.length_cons, List.range'_succ, List.map_cons]
            rw [← h4]
          · intro hchain hlast
            simp only [List.length_cons]
            rw [h5 (fun i hi => hchain i (by omega)) hlast]
            push_cast
            omega
        · rw [if_neg hloc, if_neg hloc]
          refine ⟨rfl, by simp, by simp, by simp [List.range'], ?_⟩
          intro hchain _
          obtain ⟨resp1, h1, -, h3⟩ := hchain k le_rfl h.2
          rw [hdo] at h1
          cases h1
          exact absurd h3 hloc
      · rw [dif_neg h, dif_neg h]
        refine ⟨rfl, by simp, by simp, by simp [List.range'], ?_⟩
        intro hchain _
        by_cases hlt : (k : Int) < c.maxRedirects
        · obtain ⟨resp1, h1, h2, -⟩ := hchain k le_rfl hlt
          rw [hdo] at h1
          cases h1
          exact absurd ⟨by simpa using h2, hlt⟩ h
        · simp only [List.length_singleton]
          omega

theorem httpRequests_le (lib : FastHTTP) (m : Nat) (hsent : ∀ n u, lib.Sent n u ≤ m)
    (calls : List (Int × Str)) : httpRequests lib calls ≤ m * calls.length := by
  unfold httpRequests
  induction calls with
  | nil => simp
  | cons a l ih =>
    simp only [List.map_cons, List.sum_cons, List.length_cons]
    have := hsent a.1 a.2
    rw [Nat.mul_succ]
    omega

/-- Claim C27, as stated, fails: behind a connection that breaks off four times before each
answer, every one of the 11 calls of `Do` that `Get` makes against a looping server sends
its request five times (`fasthttp` resends a GET up to
`DefaultMaxIdemponentCallAttempts = 5` times), 55 HTTP requests in all. -/
theorem C27_counterexample :
    (∀ (n : Int) (u : Str), retryServer.Sent n u ≤ DefaultMaxIdemponentCallAttempts) ∧
      ((NewClient 5 30).doGetLog retryServer "https://x.com/a".toList 0).2.length = 11 ∧
      httpRequests retryServer
        ((NewClient 5 30).doGetLog retryServer "https://x.com/a".toList 0).2 = 55 ∧
      11 < httpRequests retryServer
        ((NewClient 5 30).doGetLog retryServer "https://x.com/a".toList 0).2 := by
  have hlen : ((NewClient 5 30).doGetLog retryServer "https://x.com/a".toList 0).2.length =
      11 := by
    obtain ⟨-, -, -, -, h5⟩ := doGetLog_spec (NewClient 5 30) retryServer
      "https://x.com/a".toList _ 0 rfl
    exact h5 (fun i _ _ => ⟨_, rfl, by decide, by decide⟩) (fun i _ => ⟨_, rfl⟩)
  have hsum : httpRequests retryServer
      ((NewClient 5 30).doGetLog retryServer "https://x.com/a".toList 0).2 = 55 := by
    unfold httpRequests
    have : (fun call : Int × Str => retryServer.Sent call.1 call.2) = fun _ => 5 := rfl
    rw [this, List.map_const', List.sum_replicate, hlen]
    rfl
  exact ⟨fun _ _ => le_refl _, hlen, hsum, by rw [hsum]; decide⟩

/-- Claim C27, amended.  For every behaviour of the server and the network, a call of `Get`
on a client built by `NewClient` returns after at least one and at most 11 calls of
`fasthttp`'s `Client.Do`, the initial one and at most 10 for followed redirects, the call
number `n` going to the URL reached after `n` redirects; as each call sends its request at
most `DefaultMaxIdemponentCallAttempts = 5` times, `Get` sends at most 55 HTTP requests.  In
general `doGet` makes at most `maxRedirects - redirectCount + 1` calls, the measure
`maxRedirects - redirectCount` going down by one at each followed redirect. -/
theorem C27_get_makes_at_most_eleven_calls (lib : FastHTTP) (rateLimit timeout : Int)
    (url : Str)
    (hsent : ∀ (n : Int) (u : Str), lib.Sent n u ≤ DefaultMaxIdemponentCallAttempts) :
    ((NewClient rateLimit timeout).doGetLog lib url 0).1 =
        (NewClient rateLimit timeout).Get lib url ∧
      1 ≤ ((NewClient rateLimit timeout).doGetLog lib url 0).2.length ∧
      ((NewClient rateLimit timeout).doGetLog lib url 0).2.length ≤ 11 ∧
      ((NewClient rateLimit timeout).doGetLog lib url 0).2 =
        (List.range ((NewClient rateLimit timeout).doGetLog lib url 0).2.length).map
          (fun n : Nat => ((n : Int), requested lib url n)) ∧
      httpRequests lib ((NewClient rateLimit timeout).doGetLog lib url 0).2 ≤ 55 ∧
      ∀ (c : Client) (k : Nat),
        (c.doGetLog lib (requested lib url k) k).1 = c.doGet lib (requested lib url k) k ∧
          (c.doGetLog lib (requested lib url k) k).2.length ≤
            (c.maxRedirects - (k : Int)).toNat + 1 := by
  obtain ⟨h1, h2, h3, h4, -⟩ := doGetLog_spec (NewClient rateLimit timeout) lib url _ 0 rfl
  have h3' : ((NewClient rateLimit timeout).doGetLog lib url 0).2.length ≤ 11 := h3
  refine ⟨h1, h2, h3', ?_, ?_, ?_⟩
  · have : ((NewClient rateLimit timeout).doGetLog lib url 0).2 =
        (List.range' 0 ((NewClient rateLimit timeout).doGetLog lib url 0).2.length).map
          (fun n : Nat => ((n : Int), requested lib url n)) := h4
    rw [List.range_eq_range']
    exact this
  · have := httpRequests_le lib DefaultMaxIdemponentCallAttempts hsent
      ((NewClient rateLimit timeout).doGetLog lib url 0).2
    have h5 : DefaultMaxIdemponentCallAttempts = 5 := rfl
    rw [h5] at this
    omega
  · intro c k
    obtain ⟨h5, -, h6, -, -⟩ := doGetLog_spec c lib url _ k rfl
    exact ⟨h5, h6⟩

/-- The looping server with retries: 11 calls, 55 requests. -/
theorem C27_get_makes_at_most_eleven_calls_witness :
    ((NewClient 5 30).doGetLog retryServer "https://x.com/a".toList 0).1 =
        (NewClient 5 30).Get retryServer "https://x.com/a".toList ∧
      1 ≤ ((NewClient 5 30).doGetLog retryServer "https://x.com/a".toList 0).2.length ∧
      ((NewClient 5 30).doGetLog retryServer "https://x.com/a".toList 0).2.length ≤ 11 ∧
      httpRequests retryServer
        ((NewClient 5 30).doGetLog retryServer "https://x.com/a".toList 0).2 ≤ 55 :=
  have h := C27_get_makes_at_most_eleven_calls retryServer 5 30 "https://x.com/a".toList
    (fun _ _ => le_refl _)
  ⟨h.1, h.2.1, h.2.2.1, h.2.2.2.2.1⟩

/-! ## Redirect targets -/

theorem find?_reverse_range_last (p : Nat → Bool) (n i : Nat) (hi : i ≤ n) (hp : p i = true)
    (hlast : ∀ j, i < j → j ≤ n → p j = false) :
    (List.range (n + 1)).reverse.find? p = some i := by
  induction n with
  | zero =>
    have : i = 0 := by omega
    subst this
    simp [List.range_succ, hp]
  | succ n ih =>
    rw [List.range_succ, List.reverse_append, List.reverse_singleton, List.singleton_append]
    by_cases h : i = n + 1
    · subst h
      rw [List.find?_cons_of_pos _ hp]
    · rw [List.find?_cons_of_neg _ (by rw [hlast (n + 1) (by omega) le_rfl]; simp)]
      exact ih (by omega) (fun j h1 h2 => hlast j h1 (by omega))

/-- The last slash of a text that ends in a slash followed by a piece without slash. -/
theorem LastIndex_slash (d f : Str) (hf : '/' ∉ f) :
    strings.LastIndex (d ++ '/' :: f) "/".toList = d.length := by
  unfold strings.LastIndex
  have hp : ∀ i, strings.HasPrefix ((d ++ '/' :: f).drop i) "/".toList =
      decide (((d ++ '/' :: f).drop i).head? = some '/') := by
    intro i
    cases (d ++ '/' :: f).drop i with
    | nil => rfl
    | cons c t =>
      by_cases hc : c = '/'
      · subst hc; simp [strings.HasPrefix, List.isPrefixOf]
      · have hc1 : ¬ '/' = c := fun e => hc e.symm
        simp [strings.HasPrefix, List.isPrefixOf, hc, hc1]
  rw [find?_reverse_range_last _ (d ++ '/' :: f).length d.length (by simp)]
  · rw [hp]
    simp
  · intro j h1 h2
    rw [hp, decide_eq_false_iff_not]
    intro hh
    have hdrop : (d ++ '/' :: f).drop j = f.drop (j - d.length - 1) := by
      have hj : j = d.length + 1 + (j - d.length - 1) := by omega
      rw [hj, ← List.drop_drop]
      congr 1
      · omega
      · simp
    rw [hdrop] at hh
    have hmem : '/' ∈ f.drop (j - d.length - 1) := by
      cases hdr : f.drop (j - d.length - 1) with
      | nil => rw [hdr] at hh; cases hh
      | cons c t =>
        rw [hdr] at hh
        have : c = '/' := by simpa using hh
        rw [this]; exact List.mem_cons_self _ _
    exact hf (List.mem_of_mem_drop hmem)

/-- Claim C26 at the failing inputs.  A location that is neither absolute nor starts with a
slash is appended to the request URL cut after its last slash, wherever that slash is: for
the request URL `https://x.com` (no path) the last slash is the one of `://` and the target
`https://next` has lost the host; for `https://x.com/a?back=/b/c` it is a slash of the query.
A location that starts with a slash is appended to the scheme and host that `fasthttp`
parses from the request URL; and when the text after the last slash of the request URL has
no slash, a relative location replaces that text. -/
theorem C26_relative_location_cut_at_last_slash (lib : FastHTTP) :
    redirectTarget lib "https://x.com".toList "next".toList = "https://next".toList ∧
      redirectTarget lib "https://x.com/a?back=/b/c".toList "next".toList =
        "https://x.com/a?back=/b/next".toList ∧
      (∀ url l : Str, strings.HasPrefix l "/".toList = true →
        redirectTarget lib url l = lib.Scheme url ++ "://".toList ++ lib.Host url ++ l) ∧
      ∀ d f l : Str, d ≠ [] → '/' ∉ f →
        strings.HasPrefix l "http://".toList = false →
        strings.HasPrefix l "https://".toList = false →
        strings.HasPrefix l "/".toList = false →
        redirectTarget lib (d ++ '/' :: f) l = d ++ '/' :: l := by
  refine ⟨?_, ?_, ?_, ?_⟩
  · have h := LastIndex_slash "https:/".toList "x.com".toList (by decide)
    have hu : "https://x.com".toList = "https:/".toList ++ '/' :: "x.com".toList := rfl
    unfold redirectTarget
    rw [hu, h]
    rfl
  · have h := LastIndex_slash "https://x.com/a?back=/b".toList "c".toList (by decide)
    have hu : "https://x.com/a?back=/b/c".toList =
        "https://x.com/a?back=/b".toList ++ '/' :: "c".toList := rfl
    unfold redirectTarget
    rw [hu, h]
    rfl
  · intro url l hl
    have h1 : strings.HasPrefix l "http://".toList = false := by
      cases l with
      | nil => rfl
      | cons c t =>
        have : c = '/' := by
          simp [strings.HasPrefix, List.isPrefixOf] at hl
          exact hl.symm
        subst this; rfl
    have h2 : strings.HasPrefix l "https://".toList = false := by
      cases l with
      | nil => rfl
      | cons c t =>
        have : c = '/' := by
          simp [strings.HasPrefix, List.isPrefixOf] at hl
          exact hl.symm
        subst this; rfl
    unfold redirectTarget
    rw [h1, h2, hl]
    rfl
  · intro d f l hd hf h1 h2 h3
    unfold redirectTarget
    rw [h1, h2, h3, LastIndex_slash d f hf]
    have hpos : (0 : Int) < (d.length : Int) := by
      have : 0 < d.length := List.length_pos.2 hd
      exact_mod_cast this
    simp only [Bool.not_false, Bool.and_self, if_true, Bool.false_eq_true, if_false]
    rw [if_pos (by simpa using hpos)]
    have htake : (d ++ '/' :: f).take ((d.length : Int) + 1).toNat = d ++ ['/'] := by
      have : ((d.length : Int) + 1).toNat = d.length + 1 := by omega
      rw [this, show d ++ '/' :: f = (d ++ ['/']) ++ f by simp]
      rw [List.take_left' (by simp)]
    rw [htake]
    simp

/-! ## Keys and pairs of host and normalized path -/

theorem inputKeys_eq_map_pairs (lib : NetURL) (l : List Endpoint) :
    inputKeys lib l = (inputPairs lib l).map fun p => p.1 ++ p.2 := by
  unfold inputKeys inputPairs
  rw [List.map_filterMap]
  apply List.filterMap_congr
  intro ep _
  cases h : lib.Parse ep.URL <;> simp [keyOf, h]

theorem mem_inputPairs (lib : NetURL) (l : List Endpoint) (p : Str × Str) :
    p ∈ inputPairs lib l ↔
      ∃ ep ∈ l, ∃ u, lib.Parse ep.URL = some u ∧ p = (u.Host, (normalizePath u.Path).1) := by
  unfold inputPairs
  rw [List.mem_filterMap]
  constructor
  · rintro ⟨ep, hep, h⟩
    cases hu : lib.Parse ep.URL with
    | none => rw [hu] at h; cases h
    | some u =>
      rw [hu] at h
      exact ⟨ep, hep, u, hu, (Option.some.inj h).symm⟩
  · rintro ⟨ep, hep, u, hu, rfl⟩
    exact ⟨ep, hep, by rw [hu]; rfl⟩

/-- Claim C4, as stated, fails in its count: `https://x.com/a` has the host `x.com` and the
path `/a`, `x.com/a` has an empty host and the path `x.com/a`; these are two distinct pairs
of host and normalized path with one concatenation `x.com/a`, and the output has one
endpoint. -/
theorem C4_counterexample :
    (inputPairs goURL [Endpoint.bare "https://x.com/a".toList,
        Endpoint.bare "x.com/a".toList]) =
        [("x.com".toList, "/a".toList), ([], "x.com/a".toList)] ∧
      (inputPairs goURL [Endpoint.bare "https://x.com/a".toList,
        Endpoint.bare "x.com/a".toList]).dedup.length = 2 ∧
      (Normalize goURL MapOrder.insertion [Endpoint.bare "https://x.com/a".toList,
        Endpoint.bare "x.com/a".toList]).length = 1 := by
  decide

/-- Claim C4, amended.  No two endpoints of the output of `Normalize` have both the same host
(that of their URL) and the same `NormalizedPath`; the number of endpoints is the number of
distinct concatenations `host + normalizedPath` among the parseable input URLs; and it is
the number of distinct pairs of host and normalized path when URLs with the same
concatenation have the same normalized path. -/
theorem C4_one_endpoint_per_key (lib : NetURL) (ord : MapOrder) (eps : List Endpoint) :
    (Normalize lib ord eps).Pairwise
        (fun x y => ¬ (hostOf lib x.URL = hostOf lib y.URL ∧
          x.NormalizedPath = y.NormalizedPath)) ∧
      (Normalize lib ord eps).length = (inputKeys lib eps).dedup.length ∧
      (KeysSeparate lib eps →
        (Normalize lib ord eps).length = (inputPairs lib eps).dedup.length) := by
  obtain ⟨h1, h2⟩ := Normalize_one_per_key lib ord eps
  refine ⟨h1, h2, ?_⟩
  intro hsep
  rw [h2, inputKeys_eq_map_pairs]
  have hinj : Set.InjOn (fun p : Str × Str => p.1 ++ p.2)
      (↑(inputPairs lib eps).toFinset : Set (Str × Str)) := by
    intro p hp q hq hpq
    simp only [List.coe_toFinset, Set.mem_setOf_eq] at hp hq
    obtain ⟨a, ha, ua, hua, rfl⟩ := (mem_inputPairs lib eps p).1 hp
    obtain ⟨b, hb, ub, hub, rfl⟩ := (mem_inputPairs lib eps q).1 hq
    simp only at hpq
    have hk : keyOf lib a.URL = keyOf lib b.URL := by simp [keyOf, hua, hub, hpq]
    have hn := hsep a ha b hb hk
    simp only [normalizedPathOf, hua, hub, Option.map_some', Option.some.injEq] at hn
    rw [hn] at hpq
    rw [List.append_cancel_right hpq, hn]
  have himg : ((inputPairs lib eps).map fun p => p.1 ++ p.2).toFinset =
      (inputPairs lib eps).toFinset.image (fun p => p.1 ++ p.2) := by
    ext x
    simp
  rw [← List.card_toFinset, ← List.card_toFinset, himg]
  exact Finset.card_image_of_injOn hinj

end APIHunter
